import Mathlib

/-!
Verification of `list_files`.

A shallow embedding of `list_files.cpp` (directory enumeration with wildcard
filters, argument parsing and renderers) together with theorems about it.

Conventions of the embedding:

* `Str` stands for `std::string`: a sequence of `char` code units.  ASCII text
  is written with its characters; the box-drawing literals of the tree
  renderer are written as their UTF-8 code units.
* `std::string::npos` is `none` in an `Option Nat`.
* `while` loops over indices are functions recursive on a fuel argument that
  return `none` when the fuel runs out; the callers supply a bound.
* library facilities that are not part of the repository (the regular
  expression engine, the filesystem) are parameters or plain data.
-/

namespace ListFiles

/-! ## Strings -/

/-- A `std::string`, as the list of its `char` code units. -/
abbrev Str := List Char

/-- The subscript operator `s[i]` of `std::string`; at `i = size()` it yields the
null character. -/
def char_at (s : Str) (i : Nat) : Char := s.getD i (Char.ofNat 0)

/-- Index of the first occurrence of `c` in `s`, counted from the head. -/
def find_from_head : Str → Char → Option Nat
  | [], _ => none
  | x :: xs, c => if x = c then some 0 else (find_from_head xs c).map (· + 1)

/-- The call `s.find(c, start)`: the first index `≥ start` holding `c`. -/
def find (s : Str) (c : Char) (start : Nat) : Option Nat :=
  (find_from_head (s.drop start) c).map (· + start)

/-- The call `s.substr(pos, n)`. -/
def substr (s : Str) (pos n : Nat) : Str := (s.drop pos).take n

/-- The call `s.substr(pos)`. -/
def substr_from (s : Str) (pos : Nat) : Str := s.drop pos

/-- The call `s.find_first_not_of(set)`. -/
def find_first_not_of : Str → Str → Option Nat
  | [], _ => none
  | x :: xs, set => if x ∈ set then (find_first_not_of xs set).map (· + 1) else some 0

/-- The call `s.find_last_not_of(set)`. -/
def find_last_not_of : Str → Str → Option Nat
  | [], _ => none
  | x :: xs, set =>
    match find_last_not_of xs set with
    | some k => some (k + 1)
    | none => if x ∈ set then none else some 0

/-- The call `s.erase(0, n)`, where `n` may be `npos`. -/
def erase_front (s : Str) : Option Nat → Str
  | none => []
  | some n => s.drop n

/-- The call `s.erase(pos)`. -/
def erase_from (s : Str) (pos : Nat) : Str := s.take pos

/-- The value of `r + 1` for an index `r` that may be `npos`: `npos + 1` wraps to 0. -/
def npos_succ : Option Nat → Nat
  | none => 0
  | some k => k + 1

/-! ## Wildcard matching (`wildcard_match`, lines 74-96) -/

/-- The first loop of `wildcard_match`.  State: text index `i`, pattern index
`j`, `star_idx` and `match_idx`.  Result `some none` is the `return false` inside
the loop, `some (some j)` is leaving the loop with pattern index `j`, and `none`
means the fuel ran out. -/
def wildcard_loop (text pattern : Str) :
    Nat → Nat → Nat → Option Nat → Nat → Option (Option Nat)
  | 0, _, _, _, _ => none
  | fuel + 1, i, j, star_idx, match_idx =>
    if i < text.length then
      if j < pattern.length ∧
          (char_at pattern j = '?' ∨ char_at pattern j = char_at text i) then
        wildcard_loop text pattern fuel (i + 1) (j + 1) star_idx match_idx
      else if j < pattern.length ∧ char_at pattern j = '*' then
        wildcard_loop text pattern fuel i (j + 1) (some j) i
      else
        match star_idx with
        | some s =>
          wildcard_loop text pattern fuel (match_idx + 1) (s + 1) (some s) (match_idx + 1)
        | none => some none
    else some (some j)

/-- The second loop of `wildcard_match`: skip the stars left in the pattern. -/
def skip_stars (pattern : Str) : Nat → Nat → Nat
  | 0, j => j
  | fuel + 1, j =>
    if j < pattern.length ∧ char_at pattern j = '*' then skip_stars pattern fuel (j + 1)
    else j

/-- Number of iterations granted to the first loop of `wildcard_match`. -/
def wildcard_fuel (text pattern : Str) : Nat :=
  (text.length + 1) * (pattern.length + 1) + 1

/-- The function `wildcard_match(text, pattern)`. -/
def wildcard_match (text pattern : Str) : Bool :=
  match wildcard_loop text pattern (wildcard_fuel text pattern) 0 0 none 0 with
  | some (some j) => skip_stars pattern pattern.length j == pattern.length
  | _ => false

/-- The declarative shell-style matcher of the specification: `*` matches any
run of zero or more characters, `?` exactly one character, any other character
itself; the pattern has to match the whole name. -/
def glob_match : Str → Str → Bool
  | [], name => name.isEmpty
  | p :: ps, name =>
    if p = '*' then name.tails.any (fun rest => glob_match ps rest)
    else
      match name with
      | [] => false
      | c :: cs => (p = '?' || p = c) && glob_match ps cs

/-! ## Filters (`matches_filter`, `matches_exclude`, lines 98-131) -/

/-- The two statements that strip blanks and tabs from a sub-pattern
(lines 116-117 and 123-124). -/
def trim_pattern (pattern : Str) : Str :=
  let p1 := erase_front pattern (find_first_not_of pattern [' ', '\t'])
  erase_from p1 (npos_succ (find_last_not_of p1 [' ', '\t']))

/-- The comma loop of `matches_filter` together with the statements after it;
`start` is the loop variable, `none` means the fuel ran out. -/
def matches_filter_loop (name filter_str : Str) : Nat → Nat → Option Bool
  | 0, _ => none
  | fuel + 1, start =>
    match find filter_str ',' start with
    | some end_ =>
      if wildcard_match name (trim_pattern (substr filter_str start (end_ - start))) then
        some true
      else matches_filter_loop name filter_str fuel (end_ + 1)
    | none => some (wildcard_match name (trim_pattern (substr_from filter_str start)))

/-- The function `matches_filter(name, filter_str)`.  The regular expression
library is the parameter `rx`: `rx e` is `none` when constructing or running
the expression `e` throws, and otherwise the full-match predicate of `e`. -/
def matches_filter (rx : Str → Option (Str → Bool)) (name filter_str : Str) : Bool :=
  if filter_str.isEmpty then true
  else if substr filter_str 0 6 = "regex:".toList then
    match rx (substr_from filter_str 6) with
    | some full_match => full_match name
    | none => false
  else
    match matches_filter_loop name filter_str (filter_str.length + 1) 0 with
    | some b => b
    | none => false

/-- The function `matches_exclude(name, exclude_str)`. -/
def matches_exclude (rx : Str → Option (Str → Bool)) (name exclude_str : Str) : Bool :=
  if exclude_str.isEmpty then false else matches_filter rx name exclude_str

/-- Splitting on commas, declaratively: the pieces between the commas, empty
pieces included. -/
def split_commas : Str → List Str
  | [] => [[]]
  | c :: cs =>
    if c = ',' then [] :: split_commas cs
    else
      match split_commas cs with
      | piece :: pieces => (c :: piece) :: pieces
      | [] => [[c]]

/-- A blank or a tab: the two characters of the set `" \t"` that `matches_filter`
passes to `find_first_not_of` and `find_last_not_of` (lines 115-116 and 123-124). -/
def is_blank (c : Char) : Bool := c == ' ' || c == '\t'

/-- What the two `erase` calls of `matches_filter` leave of a sub-pattern, said
without positions: the blanks and tabs at both ends are dropped.  Any other
white space (newline, carriage return, vertical tab, form feed) stays, as in
the source. -/
def trim_blanks (s : Str) : Str := (s.dropWhile is_blank).rdropWhile is_blank

/-! ## Configuration and records (lines 17-40) -/

/-- The value of `INT_MAX`. -/
def INT_MAX : Int := 2147483647

/-- The structure `Options`, with its default member initialisers. -/
structure Options where
  depth : Int := INT_MAX
  show_size : Bool := false
  show_time : Bool := false
  show_type : Bool := false
  filter : Str := []
  exclude : Str := []
  dirs_only : Bool := false
  files_only : Bool := false
  format : Nat := 0
  relative : Bool := false
  output : Str := []
  compress : Bool := false
  deriving DecidableEq, Repr

/-- A `std::filesystem::path`, seen through the two observers the program uses:
`string()` and `extension().string()`. -/
structure Path where
  string : Str
  extension : Str
  deriving DecidableEq, Repr

/-- The structure `FileInfo`. -/
structure FileInfo where
  path : Path
  rel_path : Path
  name : Str
  is_dir : Bool
  size : Nat
  time : Str
  depth : Int
  deriving DecidableEq, Repr

/-! ## The filesystem as seen by the directory iterator -/

/-- What the filesystem answers about one directory entry.  `status_ok` is
false when `fs::is_directory(entry.path(), ec)` sets `ec`; `name` is `none` when
`entry.path().filename().string()` throws; `relative` is `none` when
`fs::relative(entry.path(), root_dir)` throws; `file_size` is `none` when
`fs::file_size` throws; `write_time` is `format_time(entry.last_write_time())`,
or `none` when that throws. -/
structure DirEntry where
  path : Path
  status_ok : Bool
  name : Option Str
  relative : Option Path
  file_size : Option Nat
  write_time : Option Str
  deriving DecidableEq, Repr

/-- The entries of one directory in iteration order.  A `file` is an entry for
which `fs::is_directory` is false; a `dir` is one for which it is true, and
carries the listing of what the iterator finds inside it (empty when the
iterator does not or cannot descend). -/
inductive Listing where
  | nil : Listing
  | file (e : DirEntry) (rest : Listing) : Listing
  | dir (e : DirEntry) (contents : Listing) (rest : Listing) : Listing
  deriving DecidableEq, Repr

/-- Number of entries of a listing, nested ones included. -/
def Listing.size : Listing → Nat
  | Listing.nil => 0
  | Listing.file _ rest => rest.size + 1
  | Listing.dir _ contents rest => contents.size + rest.size + 1

/-! ## The recursive directory iterator

The state of a `fs::recursive_directory_iterator` is the stack of the
directories it has open, innermost first; each level holds the entries it has
not passed yet, so the current entry is the head of the innermost level. -/

/-- Leave the levels that have no entry left. -/
def rdi_settle : List Listing → List Listing
  | [] => []
  | Listing.nil :: outer => rdi_settle outer
  | Listing.file e rest :: outer => Listing.file e rest :: outer
  | Listing.dir e contents rest :: outer => Listing.dir e contents rest :: outer

/-- The current entry and whether it is a directory; `none` at the end. -/
def rdi_current : List Listing → Option (DirEntry × Bool)
  | Listing.file e _ :: _ => some (e, false)
  | Listing.dir e _ _ :: _ => some (e, true)
  | _ => none

/-- The member `depth()`: the number of open directories below the root. -/
def rdi_depth (stack : List Listing) : Nat := stack.length - 1

/-- The increment of the iterator; `pending` is the recursion-pending flag, true
unless `disable_recursion_pending()` was called on the current entry. -/
def rdi_increment (pending : Bool) : List Listing → List Listing
  | [] => []
  | Listing.nil :: outer => rdi_settle outer
  | Listing.file _ rest :: outer => rdi_settle (rest :: outer)
  | Listing.dir _ contents rest :: outer =>
    if pending then rdi_settle (contents :: rest :: outer) else rdi_settle (rest :: outer)

/-! ## The walk (`list_files`, lines 217-302) -/

/-- What the loop of `list_files` accumulates: the vector `files`, and the
entries the iterator has yielded so far with their depths (not a program
variable; kept to state which entries the walk meets). -/
structure Walk where
  files : List FileInfo
  seen : List (DirEntry × Int)
  deriving DecidableEq, Repr

/-- The record built at lines 263-293 for an entry that passed the filters. -/
def make_info (opt : Options) (e : DirEntry) (name : Str) (is_dir_val : Bool)
    (depth : Int) : FileInfo :=
  { path := e.path
    rel_path :=
      if opt.relative then
        match e.relative with
        | some r => r
        | none => e.path
      else e.path
    name := name
    is_dir := is_dir_val
    size := if !is_dir_val then e.file_size.getD 0 else 0
    time := e.write_time.getD []
    depth := depth }

/-- The range-for loop of `list_files` over the iterator state `stack`. -/
def list_files_loop (rx : Str → Option (Str → Bool)) (opt : Options) :
    Nat → List Listing → Walk → Option Walk
  | 0, _, _ => none
  | fuel + 1, stack, w =>
    match rdi_current stack with
    | none => some w
    | some (e, is_dir_val) =>
      let depth : Int := (rdi_depth stack : Int) + 1
      let w1 : Walk := { w with seen := w.seen ++ [(e, depth)] }
      if !e.status_ok then
        list_files_loop rx opt fuel (rdi_increment true stack) w1
      else if depth > opt.depth then
        list_files_loop rx opt fuel (rdi_increment (!is_dir_val) stack) w1
      else
        match e.name with
        | none => list_files_loop rx opt fuel (rdi_increment true stack) w1
        | some name =>
          if !matches_filter rx name opt.filter then
            list_files_loop rx opt fuel (rdi_increment true stack) w1
          else if matches_exclude rx name opt.exclude then
            list_files_loop rx opt fuel (rdi_increment true stack) w1
          else if opt.dirs_only && !is_dir_val then
            list_files_loop rx opt fuel (rdi_increment true stack) w1
          else if opt.files_only && is_dir_val then
            list_files_loop rx opt fuel (rdi_increment true stack) w1
          else
            list_files_loop rx opt fuel (rdi_increment true stack)
              { w1 with files := w1.files ++ [make_info opt e name is_dir_val depth] }

/-- The whole walk from the root; `root` is `none` when the path does not exist,
and otherwise the listing of the root directory. -/
def list_files_walk (rx : Str → Option (Str → Bool)) (root : Option Listing)
    (opt : Options) : Walk :=
  match root with
  | none => { files := [], seen := [] }
  | some l =>
    match list_files_loop rx opt (l.size + 1) (rdi_settle [l]) { files := [], seen := [] } with
    | some w => w
    | none => { files := [], seen := [] }

/-- The function `list_files(dir_str, opt)`, the filesystem answering for
`dir_str` with `root`. -/
def list_files (rx : Str → Option (Str → Bool)) (root : Option Listing)
    (opt : Options) : List FileInfo :=
  (list_files_walk rx root opt).files

/-- The entries the iterator yields during `list_files`, with their depths. -/
def list_files_seen (rx : Str → Option (Str → Bool)) (root : Option Listing)
    (opt : Options) : List (DirEntry × Int) :=
  (list_files_walk rx root opt).seen

/-! ## The declarative description of the walk -/

/-- All entries of a listing in pre-order (directory-iteration order), each with
its directory flag and its depth, the entries of the listing itself being at
depth `d`. -/
def preorder : Nat → Listing → List (DirEntry × Bool × Nat)
  | _, Listing.nil => []
  | d, Listing.file e rest => (e, false, d) :: preorder d rest
  | d, Listing.dir e contents rest =>
    (e, true, d) :: (preorder (d + 1) contents ++ preorder d rest)

/-- Every entry of the listing answers the status query and has a name that
converts: the accessible entries of the specification. -/
def Listing.accessible : Listing → Bool
  | Listing.nil => true
  | Listing.file e rest => e.status_ok && e.name.isSome && rest.accessible
  | Listing.dir e contents rest =>
    e.status_ok && e.name.isSome && contents.accessible && rest.accessible

/-- The name of an entry as a string (empty when it does not convert). -/
def DirEntry.name_str (e : DirEntry) : Str := e.name.getD []

/-- The three per-entry checks of the specification, in order: include filter,
exclude filter, type filter. -/
def passes_filters (rx : Str → Option (Str → Bool)) (opt : Options)
    (name : Str) (is_dir : Bool) : Bool :=
  matches_filter rx name opt.filter &&
  !(!opt.exclude.isEmpty && matches_filter rx name opt.exclude) &&
  (!opt.dirs_only || is_dir) &&
  (!opt.files_only || !is_dir)

/-! ## The loop of `list_files`, entry by entry -/

/-- The recursion-pending flag with which the loop body leaves an entry: it is
cleared exactly on the path of lines 241-247, for a directory deeper than the
configured depth. -/
def entry_pending (opt : Options) (e : DirEntry) (is_dir_val : Bool) (depth : Int) : Bool :=
  !(e.status_ok && decide (depth > opt.depth) && is_dir_val)

/-- The records the loop body appends for one entry: none or one. -/
def entry_records (rx : Str → Option (Str → Bool)) (opt : Options) (e : DirEntry)
    (is_dir_val : Bool) (depth : Int) : List FileInfo :=
  if e.status_ok && decide (depth ≤ opt.depth) then
    match e.name with
    | some name =>
      if passes_filters rx opt name is_dir_val then [make_info opt e name is_dir_val depth]
      else []
    | none => []
  else []

/-- The entries the iterator yields from a listing whose own entries are at
depth `d`: the pre-order, without the contents of the directories left with the
recursion-pending flag cleared. -/
def pruned_preorder (opt : Options) : Nat → Listing → List (DirEntry × Bool × Nat)
  | _, Listing.nil => []
  | d, Listing.file e rest => (e, false, d) :: pruned_preorder opt d rest
  | d, Listing.dir e contents rest =>
    (e, true, d) ::
      ((if entry_pending opt e true d then pruned_preorder opt (d + 1) contents else []) ++
        pruned_preorder opt d rest)

/-- The entries an iterator state will still yield: level by level, the level
with `k` levels below it being at depth `k + 1`. -/
def stack_trace (opt : Options) : List Listing → List (DirEntry × Bool × Nat)
  | [] => []
  | l :: outer => pruned_preorder opt (outer.length + 1) l ++ stack_trace opt outer

/-- Number of entries an iterator state holds. -/
def stack_size : List Listing → Nat
  | [] => 0
  | l :: outer => l.size + stack_size outer

/-- The accumulated walk after the loop body has run on the entries `tr`. -/
def Walk.extend (rx : Str → Option (Str → Bool)) (opt : Options) (w : Walk)
    (tr : List (DirEntry × Bool × Nat)) : Walk :=
  { files := w.files ++ tr.flatMap (fun x => entry_records rx opt x.1 x.2.1 x.2.2)
    seen := w.seen ++ tr.map (fun x => (x.1, (x.2.2 : Int))) }

/-! ## Sample data for the concrete checks -/

/-- A regular expression library that rejects every expression. -/
def no_regex : Str → Option (Str → Bool) := fun _ => none

/-- An accessible entry called `name` below the root `root`. -/
def sample_entry (name : String) : DirEntry :=
  { path := { string := "root/".toList ++ name.toList, extension := [] }
    status_ok := true
    name := some name.toList
    relative := some { string := name.toList, extension := [] }
    file_size := some 10
    write_time := some "2024-01-01 00:00".toList }

/-- The tree `root/a/b/c`: directory `a` holding directory `b` holding file `c`. -/
def sample_abc : Listing :=
  Listing.dir (sample_entry "a")
    (Listing.dir (sample_entry "b") (Listing.file (sample_entry "c") Listing.nil) Listing.nil)
    Listing.nil

/-- The tree `root/src/main.txt` next to `root/notes.txt`. -/
def sample_src : Listing :=
  Listing.dir (sample_entry "src") (Listing.file (sample_entry "main.txt") Listing.nil)
    (Listing.file (sample_entry "notes.txt") Listing.nil)

/-! ## Argument parsing (`parse_arguments`, lines 153-213, and `main`) -/

/-- The characters `isspace` accepts in the C locale. -/
def is_space (c : Char) : Bool :=
  c == ' ' || c == '\t' || c == '\n' || c == Char.ofNat 11 || c == Char.ofNat 12 || c == '\r'

/-- The call `std::stoi(val)` in base 10: leading white space, an optional sign,
then the longest run of digits.  `none` stands for the exception it throws when
there is no digit (`invalid_argument`) or the value does not fit an `int`
(`out_of_range`). -/
def stoi (val : Str) : Option Int :=
  let s1 := val.dropWhile is_space
  let negative := s1.head? == some '-'
  let s2 := if s1.head? == some '-' || s1.head? == some '+' then s1.tail else s1
  let digits := s2.takeWhile Char.isDigit
  if digits.isEmpty then none
  else
    let magnitude : Nat := digits.foldl (fun acc c => 10 * acc + (c.toNat - 48)) 0
    let value : Int := if negative then -(magnitude : Int) else (magnitude : Int)
    if value < -2147483648 ∨ value > INT_MAX then none else some value

/-- How a call of `parse_arguments` ends: it returns a flag together with the
options and directory it has written, or it calls `exit(0)` after printing the
usage, or `std::stoi` throws and nothing catches the exception. -/
inductive ParseResult where
  | returned (ok : Bool) (opt : Options) (dir : Str) : ParseResult
  | exited_zero : ParseResult
  | threw : ParseResult
  deriving DecidableEq, Repr

/-- The loop of `parse_arguments` over the arguments from `argv[i]` on, followed
by the three checks after the loop. -/
def parse_loop : List Str → Options → Str → ParseResult
  | [], opt, dir =>
    if dir.isEmpty then ParseResult.returned false opt dir
    else if opt.dirs_only && opt.files_only then ParseResult.returned false opt dir
    else if opt.compress && opt.output.isEmpty then ParseResult.returned false opt dir
    else ParseResult.returned true opt dir
  | arg :: rest, opt, dir =>
    if arg = "--depth".toList ∨ arg = "-d".toList then
      match rest with
      | [] => ParseResult.returned false opt dir
      | val :: rest' =>
        if val = "inf".toList ∨ val = "INF".toList then
          parse_loop rest' { opt with depth := INT_MAX } dir
        else
          match stoi val with
          | some n => parse_loop rest' { opt with depth := n } dir
          | none => ParseResult.threw
    else if arg = "--size".toList ∨ arg = "-s".toList then
      parse_loop rest { opt with show_size := true } dir
    else if arg = "--time".toList ∨ arg = "-t".toList then
      parse_loop rest { opt with show_time := true } dir
    else if arg = "--type".toList ∨ arg = "-T".toList then
      parse_loop rest { opt with show_type := true } dir
    else if arg = "--filter".toList ∨ arg = "-f".toList then
      match rest with
      | [] => ParseResult.returned false opt dir
      | val :: rest' => parse_loop rest' { opt with filter := val } dir
    else if arg = "--exclude".toList ∨ arg = "-e".toList then
      match rest with
      | [] => ParseResult.returned false opt dir
      | val :: rest' => parse_loop rest' { opt with exclude := val } dir
    else if arg = "--dirs-only".toList then
      parse_loop rest { opt with dirs_only := true } dir
    else if arg = "--files-only".toList then
      parse_loop rest { opt with files_only := true } dir
    else if arg = "--format".toList ∨ arg = "-F".toList then
      match rest with
      | [] => ParseResult.returned false opt dir
      | fmt :: rest' =>
        if fmt = "tree".toList then parse_loop rest' { opt with format := 0 } dir
        else if fmt = "json".toList then parse_loop rest' { opt with format := 1 } dir
        else if fmt = "list".toList then parse_loop rest' { opt with format := 2 } dir
        else ParseResult.returned false opt dir
    else if arg = "--relative".toList ∨ arg = "-r".toList then
      parse_loop rest { opt with relative := true } dir
    else if arg = "--output".toList ∨ arg = "-o".toList then
      match rest with
      | [] => ParseResult.returned false opt dir
      | val :: rest' => parse_loop rest' { opt with output := val } dir
    else if arg = "--compress".toList ∨ arg = "-c".toList then
      parse_loop rest { opt with compress := true } dir
    else if arg = "--help".toList ∨ arg = "-h".toList then
      ParseResult.exited_zero
    else if char_at arg 0 = '-' then
      ParseResult.returned false opt dir
    else
      parse_loop rest opt arg

/-- The function `parse_arguments(argc, argv, opt, dir)`; `argv` includes the
program name `argv[0]`, which the loop skips. -/
def parse_arguments (argv : List Str) (opt : Options) (dir : Str) : ParseResult :=
  parse_loop argv.tail opt dir

/-- How a run of `main` ends. -/
inductive Outcome where
  /-- `parse_arguments` returned false: usage printed, `return 1`. -/
  | usage_error : Outcome
  /-- `parse_arguments` printed the usage and called `exit(0)`. -/
  | help_exit : Outcome
  /-- An exception left `main`: the process is terminated. -/
  | terminated : Outcome
  /-- `parse_arguments` returned true and the call `list_files(dir, opt)` was made.
  How the run ends after that call is outside this model: `main` returns 0 when
  the walk, the renderer and `write_output` return, and the process is terminated
  when an exception escapes (`fs::exists` at line 222 stands outside the `try`). -/
  | completed (dir : Str) (opt : Options) : Outcome
  deriving DecidableEq, Repr

/-- The function `main`, up to the call of `list_files`. -/
def main (argv : List Str) : Outcome :=
  match parse_arguments argv {} [] with
  | ParseResult.returned false _ _ => Outcome.usage_error
  | ParseResult.returned true opt dir => Outcome.completed dir opt
  | ParseResult.exited_zero => Outcome.help_exit
  | ParseResult.threw => Outcome.terminated

/-- The exit status that the part of `main` modelled here fixes: 1 after the
usage error, 0 after `exit(0)` in the help branch.  It is `none` when an
exception terminates the process, and also for a run that reaches `list_files`,
whose exit status depends on calls this model does not follow (0 when they
return, none when `fs::exists` or another call throws). -/
def Outcome.exit_code : Outcome → Option Nat
  | Outcome.usage_error => some 1
  | Outcome.help_exit => some 0
  | Outcome.terminated => none
  | Outcome.completed _ _ => none

/-- Whether the run reached the call of `list_files`. -/
def Outcome.calls_list_files : Outcome → Bool
  | Outcome.completed _ _ => true
  | _ => false

/-- The flags that consume the argument after them. -/
def takes_value (arg : Str) : Bool :=
  arg ∈ ["--depth".toList, "-d".toList, "--filter".toList, "-f".toList,
    "--exclude".toList, "-e".toList, "--format".toList, "-F".toList,
    "--output".toList, "-o".toList]

/-- The flags without a value. -/
def is_switch (arg : Str) : Bool :=
  arg ∈ ["--size".toList, "-s".toList, "--time".toList, "-t".toList,
    "--type".toList, "-T".toList, "--dirs-only".toList, "--files-only".toList,
    "--relative".toList, "-r".toList, "--compress".toList, "-c".toList]

/-- The two spellings of the help flag. -/
def is_help (arg : Str) : Bool := arg ∈ ["--help".toList, "-h".toList]

/-- An unknown flag: starts with `-` and is not one of the recognised options. -/
def is_unknown_flag (arg : Str) : Bool :=
  !takes_value arg && !is_switch arg && !is_help arg && arg.head? == some '-'

/-- A positional argument: not a recognised option and not starting with `-`. -/
def is_positional (arg : Str) : Bool :=
  !takes_value arg && !is_switch arg && !is_help arg && !(arg.head? == some '-')

/-- The arguments in option position: every argument except those that follow a
value-taking flag as its value. -/
def option_args : List Str → List Str
  | [] => []
  | [arg] => [arg]
  | arg :: val :: rest =>
    if takes_value arg then arg :: option_args rest else arg :: option_args (val :: rest)

/-- The values of the flags named in `flags`, each paired with its flag in
option position. -/
def flag_values (flags : List Str) : List Str → List Str
  | [] => []
  | [_] => []
  | arg :: val :: rest =>
    if takes_value arg then
      if arg ∈ flags then val :: flag_values flags rest else flag_values flags rest
    else flag_values flags (val :: rest)

/-- A value-taking flag stands in option position as the last argument, so no
value follows it. -/
def missing_value : List Str → Bool
  | [] => false
  | [arg] => takes_value arg
  | arg :: val :: rest =>
    if takes_value arg then missing_value rest else missing_value (val :: rest)

/-! ## One step of the argument loop, by kind of argument -/

/-- The effect of a flag without a value on the options (the switch branches of
`parse_loop`, in their order). -/
def set_switch (arg : Str) (opt : Options) : Options :=
  if arg = "--size".toList ∨ arg = "-s".toList then { opt with show_size := true }
  else if arg = "--time".toList ∨ arg = "-t".toList then { opt with show_time := true }
  else if arg = "--type".toList ∨ arg = "-T".toList then { opt with show_type := true }
  else if arg = "--dirs-only".toList then { opt with dirs_only := true }
  else if arg = "--files-only".toList then { opt with files_only := true }
  else if arg = "--relative".toList ∨ arg = "-r".toList then { opt with relative := true }
  else { opt with compress := true }

/-- What a value-taking flag does with its value: it stores it, or the function
returns false (a format that is not known), or `std::stoi` throws. -/
inductive ValueStep where
  | stored (opt : Options) : ValueStep
  | rejected : ValueStep
  | thrown : ValueStep
  deriving DecidableEq, Repr

/-- The effect of a value-taking flag and its value (the branches of `parse_loop`
that read `argv[++i]`, in their order). -/
def set_value (arg val : Str) (opt : Options) : ValueStep :=
  if arg = "--depth".toList ∨ arg = "-d".toList then
    if val = "inf".toList ∨ val = "INF".toList then ValueStep.stored { opt with depth := INT_MAX }
    else
      match stoi val with
      | some n => ValueStep.stored { opt with depth := n }
      | none => ValueStep.thrown
  else if arg = "--filter".toList ∨ arg = "-f".toList then
    ValueStep.stored { opt with filter := val }
  else if arg = "--exclude".toList ∨ arg = "-e".toList then
    ValueStep.stored { opt with exclude := val }
  else if arg = "--format".toList ∨ arg = "-F".toList then
    if val = "tree".toList then ValueStep.stored { opt with format := 0 }
    else if val = "json".toList then ValueStep.stored { opt with format := 1 }
    else if val = "list".toList then ValueStep.stored { opt with format := 2 }
    else ValueStep.rejected
  else ValueStep.stored { opt with output := val }

/-- A depth value that `parse_arguments` can convert: `inf`, `INF`, or a numeral
`std::stoi` accepts. -/
def depth_value_ok (val : Str) : Bool :=
  val == "inf".toList || val == "INF".toList || (stoi val).isSome

/-! ## Properties of a command line (`argv` includes the program name) -/

/-- Both `--dirs-only` and `--files-only` stand in option position. -/
def sets_both_type_flags (argv : List Str) : Bool :=
  decide ("--dirs-only".toList ∈ option_args argv.tail) &&
    decide ("--files-only".toList ∈ option_args argv.tail)

/-- The flag `--compress` (or `-c`) stands in option position and `--output` (or
`-o`) does not. -/
def compress_without_output (argv : List Str) : Bool :=
  (decide ("--compress".toList ∈ option_args argv.tail) ||
      decide ("-c".toList ∈ option_args argv.tail)) &&
    !decide ("--output".toList ∈ option_args argv.tail) &&
    !decide ("-o".toList ∈ option_args argv.tail)

/-- Some argument in option position is an unknown flag. -/
def has_unknown_flag (argv : List Str) : Bool := (option_args argv.tail).any is_unknown_flag

/-- The last argument is a value-taking flag in option position. -/
def has_missing_value (argv : List Str) : Bool := missing_value argv.tail

/-- No argument in option position is positional: no root directory is given. -/
def no_positional (argv : List Str) : Bool :=
  (option_args argv.tail).all (fun a => !is_positional a)

/-- No argument in option position is `-h` or `--help`. -/
def no_help_flag (argv : List Str) : Bool :=
  (option_args argv.tail).all (fun a => !is_help a)

/-- Every value given to `-d` or `--depth` is one `parse_arguments` can convert. -/
def depth_values_ok (argv : List Str) : Bool :=
  (flag_values ["--depth".toList, "-d".toList] argv.tail).all depth_value_ok

/-- The list of remaining arguments starts with an argument on which
`parse_arguments` returns false: an unknown flag (lines 194-196), a value-taking
flag that is the last argument (the tests `++i >= argc`), or a format flag
whose value is none of `tree`, `json`, `list` (line 183). -/
def rejecting_head : List Str → Bool
  | [] => false
  | [arg] => is_unknown_flag arg || takes_value arg
  | arg :: val :: _ =>
    is_unknown_flag arg ||
      ((arg == "--format".toList || arg == "-F".toList) &&
        !(val == "tree".toList || val == "json".toList || val == "list".toList))

/-- The arguments `pre`, read from option position on, end at an option
boundary (the argument after them stands in option position again), none of
them in option position is `-h` or `--help`, and every depth value among them
converts: nothing in `pre` makes `parse_arguments` call `exit(0)` or throw. -/
def passes_quietly (pre : List Str) : Bool :=
  !missing_value pre && (option_args pre).all (fun a => !is_help a) &&
    (flag_values ["--depth".toList, "-d".toList] pre).all depth_value_ok

/-! ## Rendering (`format_size`, `output_tree`, lines 53-63 and 306-342) -/

/-- The call `std::to_string(n)` for an unsigned value: its decimal numeral. -/
def to_string (n : Nat) : Str := Nat.toDigits 10 n

/-- The value of a `uintmax_t` after conversion to `double`: itself below
`2^53`, and otherwise rounded to 53 significant bits, ties to even. -/
def to_double (n : Nat) : Nat :=
  if n < 2 ^ 53 then n
  else
    let e := Nat.log2 n + 1 - 53
    let q := n / 2 ^ e
    let r := n % 2 ^ e
    if 2 * r > 2 ^ e ∨ (2 * r = 2 ^ e ∧ q % 2 = 1) then (q + 1) * 2 ^ e else q * 2 ^ e

/-- The conversion `%.1f` applied to the value `num / den` (`den` a power of two,
so the quotient is an exact `double`): the decimal with one fractional digit
nearest to the value, ties to even. -/
def format_fixed1 (num den : Nat) : Str :=
  let q := 10 * num / den
  let r := 10 * num % den
  let tenths := if 2 * r > den ∨ (2 * r = den ∧ q % 2 = 1) then q + 1 else q
  Nat.toDigits 10 (tenths / 10) ++ ['.'] ++ Nat.toDigits 10 (tenths % 10)

/-- The function `format_size(bytes)`; the buffers hold 32 characters. -/
def format_size (bytes : Nat) : Str :=
  if bytes < 1024 then to_string bytes ++ " B".toList
  else if bytes < 1024 * 1024 then
    (format_fixed1 (to_double bytes) 1024 ++ " KB".toList).take 31
  else (format_fixed1 (to_double bytes) (1024 * 1024) ++ " MB".toList).take 31

/-- The characters a `%s` conversion reads from `s.c_str()`: those before the
first null character. -/
def c_str (s : Str) : Str := s.takeWhile (fun c => c != Char.ofNat 0)

/-- The call `snprintf(buf, cap, "%-<width>s%s", a.c_str(), b.c_str())` followed by
`line = buf`: `a` left-justified in `width` columns, then `b`, cut to what the
buffer of `cap` characters holds. -/
def snprintf_pad (cap width : Nat) (a b : Str) : Str :=
  (c_str a ++ List.replicate (width - (c_str a).length) ' ' ++ c_str b).take (cap - 1)

/-- The literal `"│   "`: a vertical bar (UTF-8 `E2 94 82`) and three blanks. -/
def TREE_BAR : Str := [Char.ofNat 0xE2, Char.ofNat 0x94, Char.ofNat 0x82, ' ', ' ', ' ']

/-- The literal `"├── "`: a tee (`E2 94 9C`), two dashes (`E2 94 80` each) and a
blank. -/
def TREE_TEE : Str :=
  [Char.ofNat 0xE2, Char.ofNat 0x94, Char.ofNat 0x9C, Char.ofNat 0xE2, Char.ofNat 0x94,
    Char.ofNat 0x80, Char.ofNat 0xE2, Char.ofNat 0x94, Char.ofNat 0x80, ' ']

/-- The loop `for (int i = 1; i < f.depth; i++) pfx += "│   "` of `output_tree`. -/
def tree_indent_loop (depth : Int) : Nat → Int → Str → Option Str
  | 0, _, _ => none
  | fuel + 1, i, pfx =>
    if i < depth then tree_indent_loop depth fuel (i + 1) (pfx ++ TREE_BAR) else some pfx

/-- The line `output_tree` builds for one record, without the newline
(lines 312-336). -/
def tree_line (opt : Options) (f : FileInfo) : Str :=
  let pfx0 := (tree_indent_loop f.depth (f.depth.toNat + 1) 1 []).getD []
  let pfx := if f.depth > 0 then pfx0 ++ TREE_TEE else pfx0
  let type_label := if f.is_dir then "[DIR]  ".toList else "[FILE] ".toList
  let line0 := pfx ++ type_label ++ (if opt.relative then f.rel_path.string else f.name)
  let line1 :=
    if opt.show_size && !f.is_dir then snprintf_pad 64 50 line0 (format_size f.size)
    else line0
  let line2 := if opt.show_time then snprintf_pad 128 65 line1 f.time else line1
  if opt.show_type && !f.is_dir then
    let ext := f.path.extension
    let ext1 := if !ext.isEmpty then substr_from ext 1 else ext
    line2 ++ " ".toList ++ ext1
  else line2

/-- The function `output_tree(files, root, opt)`. -/
def output_tree (files : List FileInfo) (root : Str) (opt : Options) : Str :=
  files.foldl (fun result f => result ++ (tree_line opt f ++ ['\n'])) (root ++ ['\n', '\n'])

/-! ## Definitions for the renderers and the wildcard proof -/

/-! ## The JSON renderer (`escape_json_path`, `output_json`, lines 345-390) -/

/-- The function `escape_json_path(path)`: the loop appends two characters for a
backslash or a double quote and the character itself otherwise. -/
def escape_json_path (path : Str) : Str :=
  path.foldl
    (fun result c =>
      if c = '\\' then result ++ ['\\', '\\']
      else if c = '"' then result ++ ['\\', '"']
      else result ++ [c])
    []

/-- The extension shown for a record: `f.path.extension().string()` without its
leading dot (lines 333-334 and 380-381). -/
def file_ext (f : FileInfo) : Str :=
  let ext := f.path.extension
  if !ext.isEmpty then substr_from ext 1 else ext

/-- The path `output_json` prints for a record. -/
def json_path_str (opt : Options) (f : FileInfo) : Str :=
  if opt.relative then f.rel_path.string else f.path.string

/-- What one iteration of the loop of `output_json` appends for the record `f`
before the closing brace (lines 368-383). -/
def json_fields (opt : Options) (f : FileInfo) : Str :=
  let r0 : Str := "    \x7b".toList
  let r1 := r0 ++ ("\"path\": \"".toList ++ escape_json_path (json_path_str opt f) ++
    "\", ".toList)
  let r2 := r1 ++ ("\"type\": ".toList ++
    (if f.is_dir then "\"dir\"".toList else "\"file\"".toList) ++ ", ".toList)
  let r3 := r2 ++ ("\"name\": \"".toList ++ f.name ++ "\"".toList)
  let r4 := if opt.show_size && !f.is_dir then r3 ++ (", \"size\": ".toList ++ to_string f.size)
    else r3
  let r5 := if opt.show_time then r4 ++ (", \"modified\": \"".toList ++ f.time ++ "\"".toList)
    else r4
  if opt.show_type && !f.is_dir then r5 ++ (", \"ext\": \"".toList ++ file_ext f ++ "\"".toList)
  else r5

/-- What one iteration of the loop of `output_json` appends for the record `f`;
`more` is the value of `i < files.size() - 1` (line 385). -/
def json_element (opt : Options) (f : FileInfo) (more : Bool) : Str :=
  json_fields opt f ++ ("\x7d".toList ++ (if more then ",".toList else []) ++ ['\n'])

/-- The loop `for (size_t i = 0; i < files.size(); i++)` of `output_json`.  The
unsigned difference `files.size() - 1` is evaluated only inside the loop, where
`files.size()` is at least 1, so it does not wrap. -/
def output_json_loop (files : List FileInfo) (opt : Options) : Nat → Nat → Str → Option Str
  | 0, _, _ => none
  | fuel + 1, i, result =>
    if h : i < files.length then
      output_json_loop files opt fuel (i + 1)
        (result ++ json_element opt (files.get ⟨i, h⟩) (decide (i < files.length - 1)))
    else some result

/-- The text `output_json` emits before the loop. -/
def json_header (root : Str) : Str :=
  "\x7b\n".toList ++ ("  \"root\": \"".toList ++ escape_json_path root ++ "\",\n".toList) ++
    "  \"files\": [\n".toList

/-- The text `output_json` emits after the loop. -/
def json_footer : Str := "  ]\n\x7d\n".toList

/-- The function `output_json(files, root, opt)`. -/
def output_json (files : List FileInfo) (root : Str) (opt : Options) : Str :=
  ((output_json_loop files opt (files.length + 1) 0 (json_header root)).getD []) ++ json_footer

/-! ## JSON syntax (RFC 8259)

The grammar is stated over code units; a code unit of `0x80` or more counts as
(part of) an unescaped character, the encoding is not examined. -/

/-- The white space of JSON: blank, tab, line feed, carriage return. -/
def is_json_ws (c : Char) : Bool := c == ' ' || c == '\t' || c == '\n' || c == '\r'

/-- A run of JSON white space, possibly empty. -/
def json_ws (s : Str) : Bool := s.all is_json_ws

/-- A hexadecimal digit: `0`-`9`, `a`-`f` or `A`-`F`. -/
def is_hex_digit (c : Char) : Bool :=
  (decide (48 ≤ c.toNat) && decide (c.toNat ≤ 57)) ||
    (decide (97 ≤ c.toNat) && decide (c.toNat ≤ 102)) ||
    (decide (65 ≤ c.toNat) && decide (c.toNat ≤ 70))

/-- The characters between the quotation marks of a JSON string: unescaped
characters (anything from `0x20` on except the quotation mark and the reverse
solidus), two-character escapes, and `\u` with four hexadecimal digits. -/
inductive JsonChars : Str → Prop where
  | nil : JsonChars []
  | plain (c : Char) (rest : Str) (hq : c ≠ '"') (hb : c ≠ '\\') (hc : 0x20 ≤ c.toNat)
      (h : JsonChars rest) : JsonChars (c :: rest)
  | escape (c : Char) (rest : Str) (hc : c ∈ ['"', '\\', '/', 'b', 'f', 'n', 'r', 't'])
      (h : JsonChars rest) : JsonChars ('\\' :: c :: rest)
  | unicode (a b c d : Char) (rest : Str) (ha : is_hex_digit a = true)
      (hb : is_hex_digit b = true) (hc : is_hex_digit c = true) (hd : is_hex_digit d = true)
      (h : JsonChars rest) : JsonChars ('\\' :: 'u' :: a :: b :: c :: d :: rest)

/-- A JSON number: an optional minus, an integer part without a leading zero
(or the single digit 0), an optional fraction, an optional exponent. -/
def json_number (s : Str) : Bool :=
  let s1 := if s.head? == some '-' then s.tail else s
  let int := s1.takeWhile Char.isDigit
  let r1 := s1.dropWhile Char.isDigit
  let int_ok := int == ['0'] || (!int.isEmpty && !(int.head? == some '0'))
  let frac_ok := !(r1.head? == some '.') || !(r1.tail.takeWhile Char.isDigit).isEmpty
  let r2 := if r1.head? == some '.' then r1.tail.dropWhile Char.isDigit else r1
  let has_exp := r2.head? == some 'e' || r2.head? == some 'E'
  let r3 := if r2.tail.head? == some '+' || r2.tail.head? == some '-' then r2.tail.tail
    else r2.tail
  let exp_ok := if has_exp then !r3.isEmpty && r3.all Char.isDigit else r2.isEmpty
  s.all (fun c => c.isDigit || c == '-' || c == '+' || c == '.' || c == 'e' || c == 'E') &&
    int_ok && frac_ok && exp_ok

/-- The syntactic categories of the grammar below. -/
inductive JsonKind where
  /-- A value: literal name, number, string, array or object. -/
  | value : JsonKind
  /-- A value with white space around it. -/
  | element : JsonKind
  /-- One or more elements separated by commas. -/
  | elements : JsonKind
  /-- A member of an object: name, colon, element. -/
  | member : JsonKind
  /-- One or more members separated by commas. -/
  | members : JsonKind
  deriving DecidableEq, Repr

/-- The derivations of the JSON grammar: `Json k s` says that the text `s`
belongs to the category `k`. -/
inductive Json : JsonKind → Str → Prop where
  | lit_null : Json JsonKind.value "null".toList
  | lit_true : Json JsonKind.value "true".toList
  | lit_false : Json JsonKind.value "false".toList
  | number (s : Str) (h : json_number s = true) : Json JsonKind.value s
  | string (s : Str) (h : JsonChars s) : Json JsonKind.value ('"' :: s ++ ['"'])
  | empty_array (w : Str) (hw : json_ws w = true) : Json JsonKind.value ('[' :: w ++ [']'])
  | array (es : Str) (h : Json JsonKind.elements es) : Json JsonKind.value ('[' :: es ++ [']'])
  | empty_object (w : Str) (hw : json_ws w = true) :
      Json JsonKind.value ('\x7b' :: w ++ ['\x7d'])
  | object (ms : Str) (h : Json JsonKind.members ms) :
      Json JsonKind.value ('\x7b' :: ms ++ ['\x7d'])
  | element (w1 v w2 : Str) (h1 : json_ws w1 = true) (h : Json JsonKind.value v)
      (h2 : json_ws w2 = true) : Json JsonKind.element (w1 ++ v ++ w2)
  | elements_one (e : Str) (h : Json JsonKind.element e) : Json JsonKind.elements e
  | elements_more (e rest : Str) (h : Json JsonKind.element e)
      (hr : Json JsonKind.elements rest) : Json JsonKind.elements (e ++ ',' :: rest)
  | member (w1 k w2 e : Str) (h1 : json_ws w1 = true) (hk : JsonChars k)
      (h2 : json_ws w2 = true) (h : Json JsonKind.element e) :
      Json JsonKind.member (w1 ++ '"' :: k ++ '"' :: w2 ++ ':' :: e)
  | members_one (m : Str) (h : Json JsonKind.member m) : Json JsonKind.members m
  | members_more (m rest : Str) (h : Json JsonKind.member m)
      (hr : Json JsonKind.members rest) : Json JsonKind.members (m ++ ',' :: rest)

/-- A JSON text: a value with white space around it. -/
def JsonText (s : Str) : Prop := Json JsonKind.element s

/-- No control character (code unit below `0x20`) occurs in the string. -/
def no_control (s : Str) : Bool := s.all (fun c => decide (0x20 ≤ c.toNat))

/-- The string can stand between quotation marks as it is: no quotation mark,
no backslash and no control character occurs in it. -/
def json_plain (s : Str) : Bool :=
  s.all (fun c => c != '"' && c != '\\' && decide (0x20 ≤ c.toNat))

/-- The lines of the `files` array, declaratively: every record followed by a
closing brace, a comma unless it is the last, and a newline. -/
def json_lines (opt : Options) : List FileInfo → Str
  | [] => []
  | [f] => json_element opt f false
  | f :: g :: rest => json_element opt f true ++ json_lines opt (g :: rest)

/-- The standard unescape of the two escapes `escape_json_path` produces: a
backslash followed by a backslash or a quotation mark stands for that
character. -/
def unescape_json_path : Str → Str
  | [] => []
  | [c] => [c]
  | c :: d :: rest =>
    if c = '\\' ∧ (d = '\\' ∨ d = '"') then d :: unescape_json_path rest
    else c :: unescape_json_path (d :: rest)

/-- Length of the run of backslashes at the end of a string. -/
def trailing_backslashes (s : Str) : Nat := (s.reverse.takeWhile (fun c => c == '\\')).length

/-- A file record at depth 1 whose name is fifty letters `a`, 500 bytes long. -/
def sample_long_file : FileInfo :=
  { path := { string := "root/".toList ++ List.replicate 50 'a', extension := [] }
    rel_path := { string := List.replicate 50 'a', extension := [] }
    name := List.replicate 50 'a'
    is_dir := false
    size := 500
    time := []
    depth := 1 }

/-- The line of `output_tree` for a record without any decoration: indentation,
type tag and name (lines 312-319). -/
def tree_line_plain (opt : Options) (f : FileInfo) : Str :=
  tree_line { opt with show_size := false, show_time := false, show_type := false } f

/-- A string between quotation marks. -/
def json_quote (s : Str) : Str := '"' :: s ++ ['"']

/-- The members `output_json` writes for a record, as pairs of a name and the
text of its value, in order. -/
def json_pairs (opt : Options) (f : FileInfo) : List (Str × Str) :=
  [("path".toList, json_quote (escape_json_path (json_path_str opt f))),
    ("type".toList, if f.is_dir then "\"dir\"".toList else "\"file\"".toList),
    ("name".toList, json_quote f.name)] ++
  (if opt.show_size && !f.is_dir then [("size".toList, to_string f.size)] else []) ++
  (if opt.show_time then [("modified".toList, json_quote f.time)] else []) ++
  (if opt.show_type && !f.is_dir then [("ext".toList, json_quote (file_ext f))] else [])

/-- The text of a list of members the way `output_json` lays them out: name in
quotation marks, colon, blank, value; members separated by a comma and a
blank.  The white space `w` stands before the first member. -/
def json_members_text (w : Str) : List (Str × Str) → Str
  | [] => []
  | [p] => w ++ '"' :: p.1 ++ '"' :: ':' :: ' ' :: p.2
  | p :: q :: rest =>
    w ++ '"' :: p.1 ++ '"' :: ':' :: ' ' :: p.2 ++ ',' :: json_members_text [' '] (q :: rest)

/-- The condition under which `output_json` renders a record as valid JSON: the
path it prints has no control character, and the name, the modification time
and the extension hold no quotation mark, backslash or control character. -/
def json_renderable (opt : Options) (f : FileInfo) : Bool :=
  no_control (json_path_str opt f) && json_plain f.name && json_plain f.time &&
    json_plain (file_ext f)

/-- The numeral with one fractional digit of the value `t / 10`. -/
def one_decimal (t : Nat) : Str := to_string (t / 10) ++ ['.'] ++ to_string (t % 10)

/-- The number of tenths `t` is a nearest one to the quotient `num / den`:
`t - 1/2 ≤ 10 * num / den ≤ t + 1/2`. -/
def is_nearest_tenth (t num den : Nat) : Prop :=
  2 * t * den ≤ 2 * (10 * num) + den ∧ 2 * (10 * num) ≤ (2 * t + 1) * den

/-- A pattern segment without a star matches a text of the same length,
character by character: `?` matches any character, any other character
itself. -/
def seg_match : Str → Str → Bool
  | [], [] => true
  | p :: ps, c :: cs => (p == '?' || p == c) && seg_match ps cs
  | _, _ => false

/-- The loop invariant of `wildcard_match`.  Before a star has been recorded the
answer for the whole inputs is the answer for what is left of both.  After the
star at `s` was recorded with the text position `m`, the answer is whether the
pattern from that star on matches the text from `m` on, and the pattern between
the star and `j` is a star-free segment that matches the text between `m` and
`i`. -/
def wild_inv (text pattern : Str) (i j : Nat) (star_idx : Option Nat) (match_idx : Nat) :
    Prop :=
  j ≤ pattern.length ∧
  match star_idx with
  | none => glob_match pattern text = glob_match (pattern.drop j) (text.drop i)
  | some s =>
    s < pattern.length ∧
    glob_match pattern text =
      glob_match ('*' :: pattern.drop (s + 1)) (text.drop match_idx) ∧
    ∃ seg v, pattern.drop (s + 1) = seg ++ pattern.drop j ∧
      text.drop match_idx = v ++ text.drop i ∧ '*' ∉ seg ∧ seg_match seg v = true

/-- What `wildcard_match` returns for an outcome of its first loop, stated on
the pattern: false for `return false`, and for the exit at pattern index `j`
whether only stars are left from `j` on. -/
def wild_result (pattern : Str) : Option Nat → Bool
  | none => false
  | some j => (pattern.drop j).all (fun c => c == '*')

/-! ## The filter pieces in the words of the specification -/

/-- Trimming as the specification words it, "surrounding whitespace ... is
trimmed": every white-space character (`is_space`) at both ends is dropped.
This definition follows the specification, not the source; the source is
`trim_pattern`. -/
def trim_whitespace (s : Str) : Str := (s.dropWhile is_space).rdropWhile is_space

/-! # Theorems -/

/-! ## Wildcard matching -/

/-- C1 fails on the code: on the name `*a` and the pattern `*` the function
`wildcard_match` returns false, although under shell-style semantics `*` matches
every name.  The literal comparison `pattern[j] == text[i]` is tried before the
star branch, so a `*` in the pattern is consumed as a literal when the name has a
`*` at that place. -/
theorem C1_wildcard_match_star_in_name :
    wildcard_match "*a".toList "*".toList = false ∧
    glob_match "*".toList "*a".toList = true := by
  decide

/-- The first loop of `wildcard_match` ends within the fuel whenever the fuel
exceeds `(|text| - b) * (|pattern| + 1) + (|pattern| - j)`, where the backtracking
position `b` is `match_idx` once a star has been recorded and 0 before: every
iteration lowers that quantity. -/
theorem wildcard_loop_returns (text pattern : Str) (fuel : Nat) :
    ∀ (i j : Nat) (star_idx : Option Nat) (match_idx : Nat),
      j ≤ pattern.length →
      (∀ s, star_idx = some s → s < pattern.length ∧ match_idx ≤ i) →
      (text.length - (if star_idx.isSome then match_idx else 0)) * (pattern.length + 1) +
        (pattern.length - j) < fuel →
      ∃ r, wildcard_loop text pattern fuel i j star_idx match_idx = some r := by
  induction fuel with
  | zero => intro i j s m _ _ h; omega
  | succ fuel ih =>
    intro i j star_idx match_idx hj hinv hfuel
    unfold wildcard_loop
    by_cases hi : i < text.length
    · rw [if_pos hi]
      by_cases h1 : j < pattern.length ∧
          (char_at pattern j = '?' ∨ char_at pattern j = char_at text i)
      · rw [if_pos h1]
        apply ih
        · omega
        · intro s hs
          obtain ⟨a, b⟩ := hinv s hs
          exact ⟨a, by omega⟩
        · omega
      · rw [if_neg h1]
        by_cases h2 : j < pattern.length ∧ char_at pattern j = '*'
        · rw [if_pos h2]
          apply ih
          · omega
          · intro s hs
            simp only [Option.some.injEq] at hs
            subst hs
            exact ⟨h2.1, Nat.le_refl _⟩
          · have hmono : (text.length - i) * (pattern.length + 1) ≤
                (text.length - (if star_idx.isSome then match_idx else 0)) *
                  (pattern.length + 1) := by
              apply Nat.mul_le_mul_right
              apply Nat.sub_le_sub_left
              cases star_idx with
              | none => simp
              | some s => simpa using (hinv s rfl).2
            simp only [Option.isSome_some, if_true]
            omega
        · rw [if_neg h2]
          cases star_idx with
          | none => exact ⟨_, rfl⟩
          | some s =>
            obtain ⟨hs, hm⟩ := hinv s rfl
            simp only
            apply ih
            · omega
            · intro s' hs'
              simp only [Option.some.injEq] at hs'
              subst hs'
              exact ⟨hs, Nat.le_refl _⟩
            · simp only [Option.isSome_some, if_true] at hfuel ⊢
              have hlt : match_idx < text.length := by omega
              have hsplit : (text.length - match_idx) * (pattern.length + 1) =
                  (text.length - (match_idx + 1)) * (pattern.length + 1) +
                    (pattern.length + 1) := by
                have : text.length - match_idx = (text.length - (match_idx + 1)) + 1 := by
                  omega
                rw [this, Nat.add_mul, Nat.one_mul]
              omega
    · rw [if_neg hi]
      exact ⟨_, rfl⟩

/-- The fuel `wildcard_match` grants its first loop is enough: the loop ends by
itself, with `return false` or by reaching the end of the text. -/
theorem wildcard_loop_fuel_suffices (text pattern : Str) :
    ∃ r, wildcard_loop text pattern (wildcard_fuel text pattern) 0 0 none 0 = some r := by
  apply wildcard_loop_returns
  · omega
  · intro s hs; simp at hs
  · simp only [wildcard_fuel, Option.isSome_none, Bool.false_eq_true, if_false, Nat.sub_zero]
    have : (text.length + 1) * (pattern.length + 1) =
        text.length * (pattern.length + 1) + (pattern.length + 1) := by
      rw [Nat.add_mul, Nat.one_mul]
    omega

/-- The second loop of `wildcard_match` runs until its condition fails: the index
it returns is past the pattern or not at a star. -/
theorem skip_stars_stops (pattern : Str) (fuel : Nat) :
    ∀ j, pattern.length ≤ j + fuel →
      ¬ (skip_stars pattern fuel j < pattern.length ∧
        char_at pattern (skip_stars pattern fuel j) = '*') := by
  induction fuel with
  | zero =>
    intro j hj
    simp only [skip_stars]
    omega
  | succ fuel ih =>
    intro j hj
    unfold skip_stars
    by_cases h : j < pattern.length ∧ char_at pattern j = '*'
    · rw [if_pos h]
      exact ih (j + 1) (by omega)
    · rw [if_neg h]
      exact h


/-! ## Filters -/

theorem find_from_head_none (s : Str) (h : find_from_head s ',' = none) :
    split_commas s = [s] := by
  induction s with
  | nil => rfl
  | cons x xs ih =>
    unfold find_from_head at h
    split at h
    · simp at h
    · rename_i hx
      simp at h
      simp [split_commas, hx, ih h]

theorem find_from_head_some (s : Str) (k : Nat) (h : find_from_head s ',' = some k) :
    k < s.length ∧ split_commas s = s.take k :: split_commas (s.drop (k + 1)) := by
  induction s generalizing k with
  | nil => simp [find_from_head] at h
  | cons x xs ih =>
    unfold find_from_head at h
    split at h
    · rename_i hx
      simp at h
      subst h
      simp [split_commas, hx]
    · rename_i hx
      simp at h
      obtain ⟨a, ha, rfl⟩ := h
      obtain ⟨h1, h2⟩ := ih a ha
      simp [split_commas, hx, h2, h1]

theorem mem_blank_set (c : Char) : c ∈ [' ', '\t'] ↔ is_blank c = true := by
  simp [is_blank]

theorem erase_front_eq_dropWhile (s : Str) :
    erase_front s (find_first_not_of s [' ', '\t']) = s.dropWhile is_blank := by
  induction s with
  | nil => rfl
  | cons x xs ih =>
    unfold find_first_not_of
    by_cases hx : is_blank x = true
    · rw [if_pos ((mem_blank_set x).2 hx), List.dropWhile_cons, if_pos hx, ← ih]
      cases find_first_not_of xs [' ', '\t'] <;> simp [erase_front]
    · rw [if_neg (fun h => hx ((mem_blank_set x).1 h)), List.dropWhile_cons, if_neg hx]
      simp [erase_front]

theorem rdropWhile_cons_eq (p : Char → Bool) (x : Char) (xs : Str) :
    List.rdropWhile p (x :: xs) =
      if (List.rdropWhile p xs).isEmpty then (if p x then [] else [x])
      else x :: List.rdropWhile p xs := by
  induction xs using List.reverseRecOn with
  | nil => 
    have : List.rdropWhile p [x] = if p x then [] else [x] := by
      have := List.rdropWhile_concat p [] x
      simpa using this
    simp [this]
  | append_singleton l a ih =>
    rw [← List.cons_append, List.rdropWhile_concat, List.rdropWhile_concat]
    by_cases ha : p a = true
    · simp [ha, ih]
    · simp [ha]

theorem find_last_not_of_none (s : Str) (h : find_last_not_of s [' ', '\t'] = none) :
    List.rdropWhile is_blank s = [] := by
  induction s with
  | nil => rfl
  | cons x xs ih =>
    unfold find_last_not_of at h
    split at h
    · simp at h
    · rename_i hn
      split at h
      · rename_i hx
        rw [rdropWhile_cons_eq, ih hn]
        simp [(mem_blank_set x).1 hx]
      · simp at h

theorem find_last_not_of_some (s : Str) (k : Nat)
    (h : find_last_not_of s [' ', '\t'] = some k) :
    List.rdropWhile is_blank s = s.take (k + 1) ∧ List.rdropWhile is_blank s ≠ [] := by
  induction s generalizing k with
  | nil => simp [find_last_not_of] at h
  | cons x xs ih =>
    unfold find_last_not_of at h
    split at h
    · rename_i j hj
      simp at h
      subst h
      obtain ⟨h1, h2⟩ := ih j hj
      have he : (List.rdropWhile is_blank xs).isEmpty = false := by
        cases hr : List.rdropWhile is_blank xs with
        | nil => exact absurd hr h2
        | cons _ _ => rfl
      rw [rdropWhile_cons_eq, he]
      simp [h1]
    · rename_i hn
      split at h
      · simp at h
      · rename_i hx
        simp at h
        subst h
        rw [rdropWhile_cons_eq, find_last_not_of_none xs hn]
        have : is_blank x = false := by
          cases hb : is_blank x
          · rfl
          · exact absurd ((mem_blank_set x).2 hb) hx
        simp [this]

theorem erase_from_eq_rdropWhile (s : Str) :
    erase_from s (npos_succ (find_last_not_of s [' ', '\t'])) = s.rdropWhile is_blank := by
  cases h : find_last_not_of s [' ', '\t'] with
  | none => simp [npos_succ, erase_from, find_last_not_of_none s h]
  | some k => simp [npos_succ, erase_from, (find_last_not_of_some s k h).1]

theorem trim_pattern_eq (s : Str) : trim_pattern s = trim_blanks s := by
  unfold trim_pattern trim_blanks
  simp only [erase_front_eq_dropWhile, erase_from_eq_rdropWhile]

theorem matches_filter_loop_eq (name spec : Str) (fuel start : Nat)
    (hs : start ≤ spec.length) (hf : spec.length - start < fuel) :
    matches_filter_loop name spec fuel start =
      some ((split_commas (spec.drop start)).any
        (fun piece => wildcard_match name (trim_blanks piece))) := by
  induction fuel generalizing start with
  | zero => omega
  | succ fuel ih =>
    unfold matches_filter_loop find
    cases hfind : find_from_head (spec.drop start) ',' with
    | none =>
      simp [find_from_head_none _ hfind, substr_from, trim_pattern_eq]
    | some k =>
      obtain ⟨hk, hsplit⟩ := find_from_head_some _ k hfind
      simp only [Option.map_some', List.length_drop] at hk ⊢
      rw [hsplit, List.any_cons, trim_pattern_eq]
      have hsub : substr spec start (k + start - start) = List.take k (List.drop start spec) := by
        simp [substr]
      rw [hsub]
      by_cases hw : wildcard_match name (trim_blanks (List.take k (List.drop start spec))) = true
      · simp [hw]
      · rw [if_neg hw, ih (k + start + 1) (by omega) (by omega)]
        simp only [Bool.not_eq_true] at hw
        rw [hw, List.drop_drop]
        simp [Nat.add_comm, Nat.add_left_comm, Nat.add_assoc]

theorem split_commas_mem (s : Str) :
    ∀ piece ∈ split_commas s, ∀ c ∈ piece, c ∈ s := by
  induction s with
  | nil =>
    intro piece hp c hc
    simp only [split_commas, List.mem_singleton] at hp
    subst hp
    exact absurd hc (List.not_mem_nil _)
  | cons x xs ih =>
    intro piece hp c hc
    unfold split_commas at hp
    by_cases hx : x = ','
    · rw [if_pos hx] at hp
      rcases List.mem_cons.1 hp with rfl | hp
      · exact absurd hc (List.not_mem_nil _)
      · exact List.mem_cons_of_mem _ (ih piece hp c hc)
    · rw [if_neg hx] at hp
      cases hs : split_commas xs with
      | nil =>
        rw [hs] at hp
        simp only [List.mem_singleton] at hp
        subst hp
        rw [List.mem_singleton] at hc
        subst hc
        exact List.mem_cons_self _ _
      | cons p ps =>
        rw [hs] at hp
        simp only at hp
        rcases List.mem_cons.1 hp with rfl | hp
        · rcases List.mem_cons.1 hc with rfl | hc
          · exact List.mem_cons_self _ _
          · exact List.mem_cons_of_mem _ (ih p (by rw [hs]; exact List.mem_cons_self _ _) c hc)
        · exact List.mem_cons_of_mem _
            (ih piece (by rw [hs]; exact List.mem_cons_of_mem _ hp) c hc)

theorem dropWhile_congr_mem (p q : Char → Bool) (s : Str) (h : ∀ c ∈ s, p c = q c) :
    s.dropWhile p = s.dropWhile q := by
  induction s with
  | nil => rfl
  | cons x xs ih =>
    have hx := h x (List.mem_cons_self _ _)
    simp only [List.dropWhile_cons, hx]
    rw [ih (fun c hc => h c (List.mem_cons_of_mem _ hc))]

theorem trim_whitespace_eq_blanks (s : Str)
    (h : ∀ c ∈ s, is_space c = true → is_blank c = true) :
    trim_whitespace s = trim_blanks s := by
  have hsb : ∀ c ∈ s, is_space c = is_blank c := by
    intro c hc
    cases hb : is_blank c with
    | true =>
      simp only [is_blank, Bool.or_eq_true, beq_iff_eq] at hb
      rcases hb with rfl | rfl <;> decide
    | false =>
      cases hs : is_space c with
      | false => rfl
      | true => rw [h c hc hs] at hb; exact absurd hb (by simp)
  unfold trim_whitespace trim_blanks
  rw [dropWhile_congr_mem is_space is_blank s hsb]
  unfold List.rdropWhile
  rw [dropWhile_congr_mem is_space is_blank]
  intro c hc
  rw [List.mem_reverse] at hc
  exact hsb c ((List.dropWhile_suffix _).subset hc)

/-- C2, the claim as stated fails: the pattern-spec `*.go,*.txt` followed by a
carriage return is not empty and does not begin with `regex:`, and its second
piece, trimmed of the white space around it, is `*.txt`, which matches `a.txt`;
but `matches_filter` strips blanks and tabs only, keeps the carriage return in
the piece, and returns false. -/
theorem C2_whitespace_counterexample :
    "*.go,*.txt\r".toList ≠ [] ∧
    ¬ ("regex:".toList <+: "*.go,*.txt\r".toList) ∧
    matches_filter no_regex "a.txt".toList "*.go,*.txt\r".toList = false ∧
    (split_commas "*.go,*.txt\r".toList).any
      (fun piece => wildcard_match "a.txt".toList (trim_whitespace piece)) = true := by
  decide

/-- C2, amended: for a non-empty pattern-spec that does not begin with `regex:`,
`matches_filter` is true exactly when one of the comma-separated pieces of the
spec, trimmed of the blanks and tabs around it (and of no other white space),
matches the name by `wildcard_match`.  So the claim in its own words, with
every white-space character trimmed, holds for each spec whose only white space
is blanks and tabs. -/
theorem C2_matches_filter_any_piece (rx : Str → Option (Str → Bool)) (name spec : Str)
    (hne : spec ≠ []) (hrx : ¬ ("regex:".toList <+: spec)) :
    matches_filter rx name spec =
      (split_commas spec).any (fun piece => wildcard_match name (trim_blanks piece)) ∧
    ((∀ c ∈ spec, is_space c = true → is_blank c = true) →
      matches_filter rx name spec =
        (split_commas spec).any (fun piece => wildcard_match name (trim_whitespace piece))) := by
  have key : matches_filter rx name spec =
      (split_commas spec).any (fun piece => wildcard_match name (trim_blanks piece)) := by
    unfold matches_filter
    have h1 : spec.isEmpty = false := by
      cases spec with
      | nil => exact absurd rfl hne
      | cons _ _ => rfl
    have h2 : ¬ (substr spec 0 6 = "regex:".toList) := by
      intro h
      apply hrx
      rw [List.prefix_iff_eq_take]
      simpa [substr] using h.symm
    rw [h1, if_neg h2, matches_filter_loop_eq name spec _ 0 (Nat.zero_le _) (by omega)]
    simp
  refine ⟨key, fun hws => ?_⟩
  rw [key]
  have : ∀ piece ∈ split_commas spec,
      wildcard_match name (trim_whitespace piece) = wildcard_match name (trim_blanks piece) := by
    intro piece hp
    rw [trim_whitespace_eq_blanks piece (fun c hc => hws c (split_commas_mem spec piece hp c hc))]
  generalize split_commas spec = pieces at this
  induction pieces with
  | nil => rfl
  | cons p ps ih =>
    simp only [List.any_cons]
    rw [this p (List.mem_cons_self _ _), ih (fun q hq => this q (List.mem_cons_of_mem _ hq))]

/-- C2 on the specification's example: `x.go` against `*.txt, *.go`, whose only
white space is a blank. -/
theorem C2_matches_filter_any_piece_witness :
    "*.txt, *.go".toList ≠ [] ∧ ¬ ("regex:".toList <+: "*.txt, *.go".toList) ∧
    matches_filter no_regex "x.go".toList "*.txt, *.go".toList =
      (split_commas "*.txt, *.go".toList).any
        (fun piece => wildcard_match "x.go".toList (trim_blanks piece)) ∧
    matches_filter no_regex "x.go".toList "*.txt, *.go".toList =
      (split_commas "*.txt, *.go".toList).any
        (fun piece => wildcard_match "x.go".toList (trim_whitespace piece)) ∧
    matches_filter no_regex "x.go".toList "*.txt, *.go".toList = true :=
  ⟨by decide, by decide,
    (C2_matches_filter_any_piece no_regex "x.go".toList "*.txt, *.go".toList
      (by decide) (by decide)).1,
    (C2_matches_filter_any_piece no_regex "x.go".toList "*.txt, *.go".toList
      (by decide) (by decide)).2 (by decide),
    by decide⟩

/-! ## The walk -/

theorem rdi_settle_trace (opt : Options) (s : List Listing) :
    stack_trace opt (rdi_settle s) = stack_trace opt s := by
  induction s with
  | nil => rfl
  | cons l outer ih =>
    cases l with
    | nil => simpa [rdi_settle, stack_trace, pruned_preorder] using ih
    | file e rest => rfl
    | dir e c rest => rfl

theorem rdi_settle_cases (s : List Listing) :
    rdi_settle s = [] ∨
    (∃ e rest outer, rdi_settle s = Listing.file e rest :: outer) ∨
    (∃ e c rest outer, rdi_settle s = Listing.dir e c rest :: outer) := by
  induction s with
  | nil => left; rfl
  | cons l outer ih =>
    cases l with
    | nil => simpa [rdi_settle] using ih
    | file e rest => right; left; exact ⟨e, rest, outer, rfl⟩
    | dir e c rest => right; right; exact ⟨e, c, rest, outer, rfl⟩

theorem rdi_settle_size (s : List Listing) : stack_size (rdi_settle s) = stack_size s := by
  induction s with
  | nil => rfl
  | cons l outer ih =>
    cases l with
    | nil => simpa [rdi_settle, stack_size, Listing.size] using ih
    | file e rest => rfl
    | dir e c rest => rfl

theorem list_files_loop_step (rx : Str → Option (Str → Bool)) (opt : Options)
    (fuel : Nat) (stack : List Listing) (w : Walk) (e : DirEntry) (is_dir_val : Bool)
    (hc : rdi_current stack = some (e, is_dir_val)) :
    list_files_loop rx opt (fuel + 1) stack w =
      list_files_loop rx opt fuel
        (rdi_increment (entry_pending opt e is_dir_val ((rdi_depth stack : Int) + 1)) stack)
        (w.extend rx opt [(e, is_dir_val, rdi_depth stack + 1)]) := by
  rw [list_files_loop, hc]
  have hex : (opt.exclude = []) ↔ opt.exclude.isEmpty = true := by
    cases opt.exclude <;> simp
  by_cases hd : (rdi_depth stack : Int) + 1 > opt.depth
  · have hd' : ¬ ((rdi_depth stack : Int) + 1 ≤ opt.depth) := by omega
    cases hs : e.status_ok <;>
      simp [Walk.extend, entry_records, entry_pending, hs, hd, hd']
  · have hd' : ((rdi_depth stack : Int) + 1 ≤ opt.depth) := by omega
    cases hn : e.name with
    | none =>
      cases hs : e.status_ok <;>
        simp [Walk.extend, entry_records, entry_pending, hs, hd, hd', hn]
    | some name =>
      cases hs : e.status_ok <;>
      cases h1 : matches_filter rx name opt.filter <;>
      cases h2 : opt.exclude.isEmpty <;>
      cases h3 : matches_filter rx name opt.exclude <;>
      cases h4 : opt.dirs_only <;> cases h5 : opt.files_only <;> cases is_dir_val <;>
      simp [Walk.extend, entry_records, entry_pending, passes_filters, matches_exclude,
        hs, hd, hd', h1, h2, h3, h4, h5, hex, hn]

theorem Walk.extend_nil (rx : Str → Option (Str → Bool)) (opt : Options) (w : Walk) :
    w.extend rx opt [] = w := by
  simp [Walk.extend]

theorem Walk.extend_append (rx : Str → Option (Str → Bool)) (opt : Options) (w : Walk)
    (a b : List (DirEntry × Bool × Nat)) :
    (w.extend rx opt a).extend rx opt b = w.extend rx opt (a ++ b) := by
  simp [Walk.extend, List.flatMap_append]

theorem list_files_loop_settled (rx : Str → Option (Str → Bool)) (opt : Options)
    (fuel : Nat) : ∀ (s : List Listing) (w : Walk), stack_size s < fuel →
      list_files_loop rx opt fuel (rdi_settle s) w = some (w.extend rx opt (stack_trace opt s)) := by
  induction fuel with
  | zero => intro s w h; omega
  | succ fuel ih =>
    intro s
    induction s with
    | nil =>
      intro w _
      simp [rdi_settle, list_files_loop, rdi_current, stack_trace, Walk.extend_nil]
    | cons l outer ihs =>
      intro w h
      cases l with
      | nil =>
        have := ihs w (by simpa [stack_size, Listing.size] using h)
        simpa [rdi_settle, stack_trace, pruned_preorder] using this
      | file e rest =>
        have hc : rdi_current (Listing.file e rest :: outer) = some (e, false) := rfl
        rw [rdi_settle, list_files_loop_step rx opt fuel _ w e false hc]
        simp only [rdi_increment]
        rw [ih (rest :: outer) _ (by simp [stack_size, Listing.size] at h ⊢; omega),
          Walk.extend_append]
        simp [stack_trace, pruned_preorder, rdi_depth]
      | dir e c rest =>
        have hc : rdi_current (Listing.dir e c rest :: outer) = some (e, true) := rfl
        rw [rdi_settle, list_files_loop_step rx opt fuel _ w e true hc]
        simp only [rdi_increment]
        have hdep : ((rdi_depth (Listing.dir e c rest :: outer) : Nat) : Int) + 1
            = ((outer.length + 1 : Nat) : Int) := by
          simp [rdi_depth]
        rw [Nat.cast_add, Nat.cast_one] at hdep
        rw [hdep]
        cases hp : entry_pending opt e true ((outer.length : Int) + 1)
        · simp only [Bool.false_eq_true, if_false]
          rw [ih (rest :: outer) _ (by simp [stack_size, Listing.size] at h ⊢; omega),
            Walk.extend_append]
          simp [stack_trace, pruned_preorder, rdi_depth, hp]
        · simp only [if_true]
          rw [ih (c :: rest :: outer) _ (by simp [stack_size, Listing.size] at h ⊢; omega),
            Walk.extend_append]
          simp [stack_trace, pruned_preorder, rdi_depth, hp]

theorem list_files_walk_eq (rx : Str → Option (Str → Bool)) (opt : Options) (l : Listing) :
    list_files_walk rx (some l) opt =
      Walk.extend rx opt { files := [], seen := [] } (pruned_preorder opt 1 l) := by
  unfold list_files_walk
  simp only
  rw [list_files_loop_settled rx opt _ [l] _ (by simp [stack_size])]
  simp [stack_trace]

theorem preorder_depth_ge (d : Nat) (l : Listing) :
    ∀ x ∈ preorder d l, d ≤ x.2.2 := by
  induction l generalizing d with
  | nil => simp [preorder]
  | file e rest ih =>
    intro x hx
    simp only [preorder, List.mem_cons] at hx
    rcases hx with rfl | hx
    · exact Nat.le_refl _
    · exact ih d x hx
  | dir e c rest ihc ihr =>
    intro x hx
    simp only [preorder, List.mem_cons, List.mem_append] at hx
    rcases hx with rfl | hx | hx
    · exact Nat.le_refl _
    · exact Nat.le_of_succ_le (ihc (d + 1) x hx)
    · exact ihr d x hx

theorem entry_records_deep (rx : Str → Option (Str → Bool)) (opt : Options) (e : DirEntry)
    (b : Bool) (d : Int) (h : opt.depth < d) : entry_records rx opt e b d = [] := by
  have : ¬ (d ≤ opt.depth) := by omega
  simp [entry_records, this]

theorem flatMap_records_deep (rx : Str → Option (Str → Bool)) (opt : Options)
    (tr : List (DirEntry × Bool × Nat)) (h : ∀ x ∈ tr, opt.depth < (x.2.2 : Int)) :
    tr.flatMap (fun x => entry_records rx opt x.1 x.2.1 x.2.2) = [] := by
  induction tr with
  | nil => rfl
  | cons x xs ih =>
    rw [List.flatMap_cons, entry_records_deep rx opt _ _ _ (h x (List.mem_cons_self _ _)),
      ih (fun y hy => h y (List.mem_cons_of_mem _ hy))]
    rfl

theorem pruned_records_eq (rx : Str → Option (Str → Bool)) (opt : Options) (d : Nat)
    (l : Listing) :
    (pruned_preorder opt d l).flatMap (fun x => entry_records rx opt x.1 x.2.1 x.2.2) =
      (preorder d l).flatMap (fun x => entry_records rx opt x.1 x.2.1 x.2.2) := by
  induction l generalizing d with
  | nil => rfl
  | file e rest ih => simp [pruned_preorder, preorder, List.flatMap_cons, ih]
  | dir e c rest ihc ihr =>
    simp only [pruned_preorder, preorder, List.flatMap_cons, List.flatMap_append, ihr]
    cases hp : entry_pending opt e true (d : Int)
    · have hdeep : opt.depth < (d : Int) := by
        simp [entry_pending] at hp
        exact hp.2
      have : (preorder (d + 1) c).flatMap
          (fun x => entry_records rx opt x.1 x.2.1 x.2.2) = [] := by
        apply flatMap_records_deep
        intro x hx
        have := preorder_depth_ge (d + 1) c x hx
        omega
      simp [this]
    · simp [ihc]

theorem list_files_eq_flatMap (rx : Str → Option (Str → Bool)) (opt : Options) (l : Listing) :
    list_files rx (some l) opt =
      (preorder 1 l).flatMap (fun x => entry_records rx opt x.1 x.2.1 x.2.2) := by
  simp [list_files, list_files_walk_eq, Walk.extend, pruned_records_eq]

theorem list_files_seen_eq (rx : Str → Option (Str → Bool)) (opt : Options) (l : Listing) :
    list_files_seen rx (some l) opt =
      (pruned_preorder opt 1 l).map (fun x => (x.1, (x.2.2 : Int))) := by
  simp [list_files_seen, list_files_walk_eq, Walk.extend]

theorem preorder_accessible (d : Nat) (l : Listing) (h : l.accessible = true) :
    ∀ x ∈ preorder d l, x.1.status_ok = true ∧ x.1.name = some x.1.name_str := by
  induction l generalizing d with
  | nil => simp [preorder]
  | file e rest ih =>
    intro x hx
    simp only [Listing.accessible, Bool.and_eq_true] at h
    simp only [preorder, List.mem_cons] at hx
    rcases hx with rfl | hx
    · refine ⟨h.1.1, ?_⟩
      have := h.1.2
      cases hn : e.name <;> simp_all [DirEntry.name_str]
    · exact ih d h.2 x hx
  | dir e c rest ihc ihr =>
    intro x hx
    simp only [Listing.accessible, Bool.and_eq_true] at h
    simp only [preorder, List.mem_cons, List.mem_append] at hx
    rcases hx with rfl | hx | hx
    · refine ⟨h.1.1.1, ?_⟩
      have := h.1.1.2
      cases hn : e.name <;> simp_all [DirEntry.name_str]
    · exact ihc (d + 1) h.1.2 x hx
    · exact ihr d h.2 x hx

theorem flatMap_ite_singleton {α β : Type} (p : α → Bool) (f : α → β) (g : α → List β)
    (xs : List α) (h : ∀ x ∈ xs, g x = if p x then [f x] else []) :
    xs.flatMap g = (xs.filter p).map f := by
  induction xs with
  | nil => rfl
  | cons x xs ih =>
    rw [List.flatMap_cons, h x (List.mem_cons_self _ _),
      ih (fun y hy => h y (List.mem_cons_of_mem _ hy))]
    cases hp : p x <;> simp [List.filter_cons, hp]

theorem entry_records_accessible (rx : Str → Option (Str → Bool)) (opt : Options)
    (e : DirEntry) (b : Bool) (d : Int) (hs : e.status_ok = true)
    (hn : e.name = some e.name_str) :
    entry_records rx opt e b d =
      if (decide (d ≤ opt.depth) && passes_filters rx opt e.name_str b) = true then
        [make_info opt e e.name_str b d]
      else [] := by
  unfold entry_records
  rw [hn, hs]
  by_cases hd : d ≤ opt.depth <;> cases hp : passes_filters rx opt e.name_str b <;>
    simp [hd, hp]

theorem pruned_preorder_accessible (opt : Options) (d : Nat) (l : Listing)
    (h : l.accessible = true) :
    pruned_preorder opt d l =
      (preorder d l).filter
        (fun x => decide (x.2.2 ≤ d) || decide ((x.2.2 : Int) ≤ opt.depth + 1)) := by
  induction l generalizing d with
  | nil => rfl
  | file e rest ih =>
    simp only [Listing.accessible, Bool.and_eq_true] at h
    simp [pruned_preorder, preorder, List.filter_cons, ih d h.2]
  | dir e c rest ihc ihr =>
    simp only [Listing.accessible, Bool.and_eq_true] at h
    simp only [pruned_preorder, preorder, List.filter_cons, List.filter_append,
      ← ihr d h.2, le_refl, decide_True, Bool.true_or, if_true]
    congr 2
    by_cases hd : (d : Int) ≤ opt.depth
    · have hp : entry_pending opt e true (d : Int) = true := by
        have : ¬ ((d : Int) > opt.depth) := by omega
        simp [entry_pending, this]
      rw [if_pos hp, ihc (d + 1) h.1.2]
      apply List.filter_congr
      intro x hx
      have := preorder_depth_ge (d + 1) c x hx
      have h1 : ¬ (x.2.2 ≤ d) := by omega
      by_cases h2 : (x.2.2 : Int) ≤ opt.depth + 1 <;> by_cases h3 : x.2.2 ≤ d + 1 <;>
        simp [h1, h2, h3]
      omega
    · have hp : entry_pending opt e true (d : Int) = false := by
        have : ((d : Int) > opt.depth) := by omega
        simp [entry_pending, this, h.1.1.1]
      rw [hp]
      simp only [Bool.false_eq_true, if_false]
      symm
      rw [List.filter_eq_nil_iff]
      intro x hx
      have := preorder_depth_ge (d + 1) c x hx
      have h1 : ¬ (x.2.2 ≤ d) := by omega
      have h2 : ¬ ((x.2.2 : Int) ≤ opt.depth + 1) := by omega
      simp [h1, h2]

theorem mem_list_files (rx : Str → Option (Str → Bool)) (root : Option Listing)
    (opt : Options) (f : FileInfo) (hf : f ∈ list_files rx root opt) :
    ∃ l e b d name, root = some l ∧ (e, b, d) ∈ preorder 1 l ∧ e.status_ok = true ∧
      e.name = some name ∧ (d : Int) ≤ opt.depth ∧ passes_filters rx opt name b = true ∧
      f = make_info opt e name b d := by
  cases root with
  | none => simp [list_files, list_files_walk] at hf
  | some l =>
    rw [list_files_eq_flatMap, List.mem_flatMap] at hf
    obtain ⟨⟨e, b, d⟩, hx, hfx⟩ := hf
    refine ⟨l, e, b, d, ?_⟩
    unfold entry_records at hfx
    simp only at hfx
    split at hfx
    · rename_i hc
      simp only [Bool.and_eq_true, decide_eq_true_eq] at hc
      split at hfx
      · rename_i name hn
        split at hfx
        · rename_i hp
          simp only [List.mem_singleton] at hfx
          exact ⟨name, rfl, hx, hc.1, hn, hc.2, hp, hfx⟩
        · simp at hfx
      · simp at hfx
    · simp at hfx

/-- C3: over a tree of accessible entries, the records of `list_files` are the
pre-order sequence of the root's descendants of depth at most `opt.depth`,
restricted to the entries passing the include, exclude and type filters, in
unchanged order. -/
theorem C3_list_files_is_filtered_preorder (rx : Str → Option (Str → Bool)) (l : Listing)
    (opt : Options) (hacc : l.accessible = true) :
    list_files rx (some l) opt =
      ((preorder 1 l).filter
        (fun x => decide ((x.2.2 : Int) ≤ opt.depth) &&
          passes_filters rx opt x.1.name_str x.2.1)).map
        (fun x => make_info opt x.1 x.1.name_str x.2.1 x.2.2) := by
  rw [list_files_eq_flatMap]
  apply flatMap_ite_singleton
  intro x hx
  obtain ⟨hs, hn⟩ := preorder_accessible 1 l hacc x hx
  exact entry_records_accessible rx opt x.1 x.2.1 x.2.2 hs hn

/-- C3 at the tree `root/src/main.txt`, `root/notes.txt` with the filter `*.txt`. -/
theorem C3_list_files_is_filtered_preorder_witness :
    sample_src.accessible = true ∧
    list_files no_regex (some sample_src) { filter := "*.txt".toList } =
      ((preorder 1 sample_src).filter
        (fun x => decide ((x.2.2 : Int) ≤ ({ filter := "*.txt".toList } : Options).depth) &&
          passes_filters no_regex { filter := "*.txt".toList } x.1.name_str x.2.1)).map
        (fun x => make_info { filter := "*.txt".toList } x.1 x.1.name_str x.2.1 x.2.2) ∧
    (list_files no_regex (some sample_src) { filter := "*.txt".toList }).map
      (fun f => (f.name, f.depth)) = [("main.txt".toList, 2), ("notes.txt".toList, 1)] :=
  ⟨by decide,
    C3_list_files_is_filtered_preorder no_regex sample_src { filter := "*.txt".toList }
      (by decide),
    by decide⟩

/-- C4: every record of `list_files` has a depth between 1 and `opt.depth`, so a
configured depth below 1 yields no record at all. -/
theorem C4_record_depth_bounds (rx : Str → Option (Str → Bool)) (root : Option Listing)
    (opt : Options) :
    (∀ f ∈ list_files rx root opt, 1 ≤ f.depth ∧ f.depth ≤ opt.depth) ∧
    (opt.depth < 1 → list_files rx root opt = []) := by
  have key : ∀ f ∈ list_files rx root opt, 1 ≤ f.depth ∧ f.depth ≤ opt.depth := by
    intro f hf
    obtain ⟨l, e, b, d, name, _, hx, _, _, hd, _, rfl⟩ := mem_list_files rx root opt f hf
    have := preorder_depth_ge 1 l _ hx
    simp only [make_info]
    simp only at this
    omega
  refine ⟨key, fun h0 => ?_⟩
  cases hl : list_files rx root opt with
  | nil => rfl
  | cons f fs =>
    have := key f (by rw [hl]; exact List.mem_cons_self _ _)
    omega

/-- C4 on the tree `root/a/b/c`: the record of `a` at depth 1, and no record for
depth 0. -/
theorem C4_record_depth_bounds_witness :
    (make_info { depth := 1 } (sample_entry "a") "a".toList true 1 ∈
        list_files no_regex (some sample_abc) { depth := 1 } ∧
      1 ≤ (make_info { depth := 1 } (sample_entry "a") "a".toList true 1).depth ∧
      (make_info { depth := 1 } (sample_entry "a") "a".toList true 1).depth ≤
        ({ depth := 1 } : Options).depth) ∧
    (({ depth := 0 } : Options).depth < 1 ∧
      list_files no_regex (some sample_abc) { depth := 0 } = []) :=
  ⟨⟨by decide,
      (C4_record_depth_bounds no_regex (some sample_abc) { depth := 1 }).1
        (make_info { depth := 1 } (sample_entry "a") "a".toList true 1) (by decide)⟩,
   ⟨by decide,
      (C4_record_depth_bounds no_regex (some sample_abc) { depth := 0 }).2 (by decide)⟩⟩

theorem mem_list_files_of_passes (rx : Str → Option (Str → Bool)) (l : Listing)
    (opt : Options) (e : DirEntry) (b : Bool) (d : Nat) (name : Str)
    (hx : (e, b, d) ∈ preorder 1 l) (hd : (d : Int) ≤ opt.depth)
    (hs : e.status_ok = true) (hn : e.name = some name)
    (hp : passes_filters rx opt name b = true) :
    make_info opt e name b d ∈ list_files rx (some l) opt := by
  rw [list_files_eq_flatMap, List.mem_flatMap]
  refine ⟨(e, b, d), hx, ?_⟩
  simp [entry_records, hs, hd, hn, hp]

/-- C5, the claim as stated fails: the command line `prog root -d -1` configures
the depth -1, and with it the walk over `root/a/b/c` still meets `a`, an entry of
depth 1, which is more than `opt.depth + 1 = 0`. -/
theorem C5_seen_depth_counterexample :
    main ["prog".toList, "root".toList, "-d".toList, "-1".toList] =
      Outcome.completed "root".toList { depth := -1 } ∧
    list_files_seen no_regex (some sample_abc) { depth := -1 } = [(sample_entry "a", 1)] ∧
    ∃ p ∈ list_files_seen no_regex (some sample_abc) { depth := -1 },
      p.2 > ({ depth := -1 } : Options).depth + 1 := by
  decide

/-- C5, amended: over a tree of accessible entries the walk meets exactly the
entries of depth at most `max 1 (opt.depth + 1)`, in pre-order: the children of
the root always, and nothing inside a directory deeper than `opt.depth`; so for
`opt.depth ≥ 0` no entry deeper than `opt.depth + 1` is met.  Entries at depth
exactly `opt.depth` that pass the filters are recorded, and for `root/a/b/c` with
depth 1 the records are the one of `a` at depth 1 and none for `b` or `c`. -/
theorem C5_depth_pruning (rx : Str → Option (Str → Bool)) (l : Listing)
    (opt : Options) (hacc : l.accessible = true) :
    list_files_seen rx (some l) opt =
      ((preorder 1 l).filter
        (fun x => decide (x.2.2 ≤ 1) || decide ((x.2.2 : Int) ≤ opt.depth + 1))).map
        (fun x => (x.1, (x.2.2 : Int))) ∧
    (0 ≤ opt.depth → ∀ p ∈ list_files_seen rx (some l) opt, p.2 ≤ opt.depth + 1) ∧
    (∀ x ∈ preorder 1 l, (x.2.2 : Int) = opt.depth →
      passes_filters rx opt x.1.name_str x.2.1 = true →
      make_info opt x.1 x.1.name_str x.2.1 x.2.2 ∈ list_files rx (some l) opt) ∧
    (list_files no_regex (some sample_abc) { depth := 1 }).map
      (fun f => (f.name, f.is_dir, f.depth)) = [("a".toList, true, 1)] := by
  have hseen := list_files_seen_eq rx opt l
  rw [pruned_preorder_accessible opt 1 l hacc] at hseen
  refine ⟨hseen, ?_, ?_, by decide⟩
  · intro h0 p hp
    rw [hseen, List.mem_map] at hp
    obtain ⟨x, hx, rfl⟩ := hp
    rw [List.mem_filter] at hx
    have h2 := hx.2
    simp only [Bool.or_eq_true, decide_eq_true_eq] at h2
    simp only
    omega
  · intro x hx hd hp
    obtain ⟨hs, hn⟩ := preorder_accessible 1 l hacc x hx
    exact mem_list_files_of_passes rx l opt x.1 x.2.1 x.2.2 _ hx (le_of_eq hd) hs hn hp

/-- C5 on the tree `root/a/b/c` with depth 1: the walk meets `a` and `b` only, and
`a`, at depth 1, is recorded. -/
theorem C5_depth_pruning_witness :
    sample_abc.accessible = true ∧
    (0 : Int) ≤ ({ depth := 1 } : Options).depth ∧
    list_files_seen no_regex (some sample_abc) { depth := 1 } =
      [(sample_entry "a", 1), (sample_entry "b", 2)] ∧
    (∀ p ∈ list_files_seen no_regex (some sample_abc) { depth := 1 },
      p.2 ≤ ({ depth := 1 } : Options).depth + 1) ∧
    (sample_entry "a", true, 1) ∈ preorder 1 sample_abc ∧
    make_info { depth := 1 } (sample_entry "a") "a".toList true 1 ∈
      list_files no_regex (some sample_abc) { depth := 1 } :=
  ⟨by decide, by decide, by decide,
    (C5_depth_pruning no_regex sample_abc { depth := 1 } (by decide)).2.1 (by decide),
    by decide,
    (C5_depth_pruning no_regex sample_abc { depth := 1 } (by decide)).2.2.1
      (sample_entry "a", true, 1) (by decide) (by decide) (by decide)⟩

/-- C6: with `dirs_only` every record of `list_files` is a directory, and with
`files_only` every record is a non-directory. -/
theorem C6_type_filter_exclusive (rx : Str → Option (Str → Bool)) (root : Option Listing)
    (opt : Options) :
    (opt.dirs_only = true → ∀ f ∈ list_files rx root opt, f.is_dir = true) ∧
    (opt.files_only = true → ∀ f ∈ list_files rx root opt, f.is_dir = false) := by
  constructor
  · intro ho f hf
    obtain ⟨l, e, b, d, name, _, _, _, _, _, hp, rfl⟩ := mem_list_files rx root opt f hf
    simp only [passes_filters, ho, Bool.and_eq_true] at hp
    simpa [make_info] using hp.1.2
  · intro ho f hf
    obtain ⟨l, e, b, d, name, _, _, _, _, _, hp, rfl⟩ := mem_list_files rx root opt f hf
    simp only [passes_filters, ho, Bool.and_eq_true] at hp
    simpa [make_info] using hp.2

/-- C6 on the tree `root/src/main.txt`, `root/notes.txt`: only `src` with
`dirs_only`, only the two files with `files_only`. -/
theorem C6_type_filter_exclusive_witness :
    (({ dirs_only := true } : Options).dirs_only = true ∧
      (list_files no_regex (some sample_src) { dirs_only := true }).map
        (fun f => (f.name, f.is_dir)) = [("src".toList, true)] ∧
      ∀ f ∈ list_files no_regex (some sample_src) { dirs_only := true }, f.is_dir = true) ∧
    (({ files_only := true } : Options).files_only = true ∧
      (list_files no_regex (some sample_src) { files_only := true }).map
        (fun f => (f.name, f.is_dir)) = [("main.txt".toList, false), ("notes.txt".toList, false)] ∧
      ∀ f ∈ list_files no_regex (some sample_src) { files_only := true }, f.is_dir = false) :=
  ⟨⟨rfl, by decide,
      (C6_type_filter_exclusive no_regex (some sample_src) { dirs_only := true }).1 rfl⟩,
   ⟨rfl, by decide,
      (C6_type_filter_exclusive no_regex (some sample_src) { files_only := true }).2 rfl⟩⟩

theorem head_dash_iff (arg : Str) : char_at arg 0 = '-' ↔ arg.head? = some '-' := by
  cases arg with
  | nil => simp [char_at]
  | cons c cs => simp [char_at]

theorem parse_loop_help (arg : Str) (rest : List Str) (opt : Options) (dir : Str)
    (h : is_help arg = true) : parse_loop (arg :: rest) opt dir = ParseResult.exited_zero := by
  simp only [is_help, List.mem_cons, List.mem_singleton, decide_eq_true_eq, List.not_mem_nil,
    or_false] at h
  rcases h with rfl | rfl <;> (unfold parse_loop; simp)

theorem parse_loop_switch (arg : Str) (rest : List Str) (opt : Options) (dir : Str)
    (h : is_switch arg = true) :
    parse_loop (arg :: rest) opt dir = parse_loop rest (set_switch arg opt) dir := by
  simp only [is_switch, List.mem_cons, List.mem_singleton, decide_eq_true_eq, List.not_mem_nil,
    or_false] at h
  rcases h with rfl | rfl | rfl | rfl | rfl | rfl | rfl | rfl | rfl | rfl | rfl | rfl <;>
    (conv_lhs => unfold parse_loop) <;> simp [set_switch]

theorem parse_loop_value_last (arg : Str) (opt : Options) (dir : Str)
    (h : takes_value arg = true) :
    parse_loop [arg] opt dir = ParseResult.returned false opt dir := by
  simp only [takes_value, List.mem_cons, List.mem_singleton, decide_eq_true_eq, List.not_mem_nil,
    or_false] at h
  rcases h with rfl | rfl | rfl | rfl | rfl | rfl | rfl | rfl | rfl | rfl <;>
    (unfold parse_loop; simp)

theorem parse_loop_value (arg val : Str) (rest : List Str) (opt : Options) (dir : Str)
    (h : takes_value arg = true) :
    parse_loop (arg :: val :: rest) opt dir =
      match set_value arg val opt with
      | ValueStep.stored o => parse_loop rest o dir
      | ValueStep.rejected => ParseResult.returned false opt dir
      | ValueStep.thrown => ParseResult.threw := by
  simp only [takes_value, List.mem_cons, List.mem_singleton, decide_eq_true_eq, List.not_mem_nil,
    or_false] at h
  rcases h with rfl | rfl | rfl | rfl | rfl | rfl | rfl | rfl | rfl | rfl
  all_goals
    conv_lhs => unfold parse_loop
    simp only [set_value]
    simp
  all_goals first
    | rfl
    | (split_ifs <;> first | rfl | (cases stoi val <;> rfl))

theorem parse_loop_unknown (arg : Str) (rest : List Str) (opt : Options) (dir : Str)
    (h : is_unknown_flag arg = true) :
    parse_loop (arg :: rest) opt dir = ParseResult.returned false opt dir := by
  simp only [is_unknown_flag, takes_value, is_switch, is_help, Bool.and_eq_true,
    Bool.not_eq_true', decide_eq_false_iff_not, List.mem_cons, List.mem_singleton,
    List.not_mem_nil, or_false, not_or, beq_iff_eq] at h
  obtain ⟨⟨⟨h1, h2⟩, h3⟩, h4⟩ := h
  have h5 := (head_dash_iff arg).2 h4
  unfold parse_loop
  simp only [h1, h2, h3, h5, or_self, if_false, if_true]

theorem parse_loop_positional (arg : Str) (rest : List Str) (opt : Options) (dir : Str)
    (h : is_positional arg = true) :
    parse_loop (arg :: rest) opt dir = parse_loop rest opt arg := by
  simp only [is_positional, takes_value, is_switch, is_help, Bool.and_eq_true,
    Bool.not_eq_true', decide_eq_false_iff_not, List.mem_cons, List.mem_singleton,
    List.not_mem_nil, or_false, not_or, beq_eq_false_iff_ne, ne_eq] at h
  obtain ⟨⟨⟨h1, h2⟩, h3⟩, h4⟩ := h
  have h5 : ¬ (char_at arg 0 = '-') := fun hc => h4 ((head_dash_iff arg).1 hc)
  conv_lhs => unfold parse_loop
  simp only [h1, h2, h3, h5, or_self, if_false, if_true]

/-- Every argument is of exactly one kind; here: of at least one. -/
theorem arg_kind (arg : Str) :
    takes_value arg = true ∨ is_switch arg = true ∨ is_help arg = true ∨
      is_unknown_flag arg = true ∨ is_positional arg = true := by
  unfold is_unknown_flag is_positional
  cases takes_value arg <;> cases is_switch arg <;> cases is_help arg <;>
    cases (arg.head? == some '-') <;> simp

theorem switch_not_value (arg : Str) (h : is_switch arg = true) : takes_value arg = false := by
  simp only [is_switch, List.mem_cons, List.mem_singleton, decide_eq_true_eq, List.not_mem_nil,
    or_false] at h
  rcases h with rfl | rfl | rfl | rfl | rfl | rfl | rfl | rfl | rfl | rfl | rfl | rfl <;> decide

theorem help_not_value (arg : Str) (h : is_help arg = true) : takes_value arg = false := by
  simp only [is_help, List.mem_cons, List.mem_singleton, decide_eq_true_eq, List.not_mem_nil,
    or_false] at h
  rcases h with rfl | rfl <;> decide

theorem unknown_not_value (arg : Str) (h : is_unknown_flag arg = true) :
    takes_value arg = false := by
  unfold is_unknown_flag at h
  cases hv : takes_value arg
  · rfl
  · simp [hv] at h

theorem positional_not_value (arg : Str) (h : is_positional arg = true) :
    takes_value arg = false := by
  unfold is_positional at h
  cases hv : takes_value arg
  · rfl
  · simp [hv] at h

theorem option_args_cons (arg : Str) (rest : List Str) (h : takes_value arg = false) :
    option_args (arg :: rest) = arg :: option_args rest := by
  cases rest with
  | nil => rfl
  | cons v r => simp [option_args, h]

theorem option_args_value (arg val : Str) (rest : List Str) (h : takes_value arg = true) :
    option_args (arg :: val :: rest) = arg :: option_args rest := by
  simp [option_args, h]

theorem missing_value_cons (arg : Str) (rest : List Str) (h : takes_value arg = false) :
    missing_value (arg :: rest) = missing_value rest := by
  cases rest with
  | nil => simp [missing_value, h]
  | cons v r => simp [missing_value, h]

theorem missing_value_value (arg val : Str) (rest : List Str) (h : takes_value arg = true) :
    missing_value (arg :: val :: rest) = missing_value rest := by
  simp [missing_value, h]

theorem flag_values_cons (flags : List Str) (arg : Str) (rest : List Str)
    (h : takes_value arg = false) :
    flag_values flags (arg :: rest) = flag_values flags rest := by
  cases rest with
  | nil => simp [flag_values]
  | cons v r => simp [flag_values, h]

theorem flag_values_value (flags : List Str) (arg val : Str) (rest : List Str)
    (h : takes_value arg = true) :
    flag_values flags (arg :: val :: rest) =
      if arg ∈ flags then val :: flag_values flags rest else flag_values flags rest := by
  simp [flag_values, h]

theorem set_value_thrown (arg val : Str) (opt : Options)
    (h : set_value arg val opt = ValueStep.thrown) :
    arg ∈ ["--depth".toList, "-d".toList] ∧ depth_value_ok val = false := by
  unfold set_value at h
  split_ifs at h with h1 h2 h3 h4 h5 h6 h7 h8
  · refine ⟨by simpa using h1, ?_⟩
    cases hs : stoi val with
    | none =>
      simp only [not_or] at h2
      simp only [depth_value_ok, hs, Option.isSome_none, Bool.or_false, Bool.or_eq_false_iff,
        beq_eq_false_iff_ne, ne_eq]
      exact h2
    | some n => simp [hs] at h

theorem set_switch_facts (arg : Str) (opt : Options) (h : is_switch arg = true) :
    ((set_switch arg opt).dirs_only = true ↔
        opt.dirs_only = true ∨ arg = "--dirs-only".toList) ∧
    ((set_switch arg opt).files_only = true ↔
        opt.files_only = true ∨ arg = "--files-only".toList) ∧
    ((set_switch arg opt).compress = true ↔
        opt.compress = true ∨ arg = "--compress".toList ∨ arg = "-c".toList) ∧
    (set_switch arg opt).output = opt.output := by
  simp only [is_switch, List.mem_cons, List.mem_singleton, decide_eq_true_eq, List.not_mem_nil,
    or_false] at h
  rcases h with rfl | rfl | rfl | rfl | rfl | rfl | rfl | rfl | rfl | rfl | rfl | rfl <;>
    simp [set_switch]

theorem set_value_facts (arg val : Str) (opt o : Options) (hk : takes_value arg = true)
    (h : set_value arg val opt = ValueStep.stored o) :
    o.dirs_only = opt.dirs_only ∧ o.files_only = opt.files_only ∧
    o.compress = opt.compress ∧
    (arg ≠ "--output".toList → arg ≠ "-o".toList → o.output = opt.output) := by
  simp only [takes_value, List.mem_cons, List.mem_singleton, decide_eq_true_eq, List.not_mem_nil,
    or_false] at hk
  unfold set_value at h
  split_ifs at h with h1 h2 h3 h4 h5 h6 h7 h8
  · simp only [ValueStep.stored.injEq] at h; subst h; simp
  · cases hs : stoi val with
    | none => simp [hs] at h
    | some n => simp only [hs, ValueStep.stored.injEq] at h; subst h; simp
  · simp only [ValueStep.stored.injEq] at h; subst h; simp
  · simp only [ValueStep.stored.injEq] at h; subst h; simp
  · simp only [ValueStep.stored.injEq] at h; subst h; simp
  · simp only [ValueStep.stored.injEq] at h; subst h; simp
  · simp only [ValueStep.stored.injEq] at h; subst h; simp
  · simp only [ValueStep.stored.injEq] at h; subst h
    refine ⟨rfl, rfl, rfl, ?_⟩
    intro n1 n2
    exfalso
    simp only [not_or] at h1 h3 h4 h5
    rcases hk with hk | hk | hk | hk | hk | hk | hk | hk | hk | hk
    · exact h1.1 hk
    · exact h1.2 hk
    · exact h3.1 hk
    · exact h3.2 hk
    · exact h4.1 hk
    · exact h4.2 hk
    · exact h5.1 hk
    · exact h5.2 hk
    · exact n1 hk
    · exact n2 hk

theorem parse_loop_nil_true (opt : Options) (dir : Str) (opt' : Options) (dir' : Str)
    (h : parse_loop [] opt dir = ParseResult.returned true opt' dir') :
    opt' = opt ∧ dir' = dir ∧ dir ≠ [] ∧ ¬ (opt.dirs_only = true ∧ opt.files_only = true) ∧
      (opt.compress = true → opt.output ≠ []) := by
  unfold parse_loop at h
  split_ifs at h with h1 h2 h3
  all_goals simp only [ParseResult.returned.injEq, Bool.false_eq_true, false_and] at h
  obtain ⟨_, rfl, rfl⟩ := h
  refine ⟨rfl, rfl, ?_, ?_, ?_⟩
  · intro hc; exact h1 (by simp [hc])
  · simpa using h2
  · intro hc ho
    exact h3 (by simp [hc, ho])

/-- What a successful parse tells about the arguments and the result. -/
theorem parse_loop_true (args : List Str) :
    ∀ (opt : Options) (dir : Str) (opt' : Options) (dir' : Str),
      parse_loop args opt dir = ParseResult.returned true opt' dir' →
      (∀ a ∈ option_args args, is_unknown_flag a = false) ∧
      missing_value args = false ∧
      (opt.dirs_only = true ∨ "--dirs-only".toList ∈ option_args args →
        opt'.dirs_only = true) ∧
      (opt.files_only = true ∨ "--files-only".toList ∈ option_args args →
        opt'.files_only = true) ∧
      (opt.compress = true ∨ "--compress".toList ∈ option_args args ∨
        "-c".toList ∈ option_args args → opt'.compress = true) ∧
      (opt.output = [] → "--output".toList ∉ option_args args →
        "-o".toList ∉ option_args args → opt'.output = []) ∧
      (dir = [] → (∀ a ∈ option_args args, is_positional a = false) → dir' = []) ∧
      dir' ≠ [] ∧ ¬ (opt'.dirs_only = true ∧ opt'.files_only = true) ∧
      (opt'.compress = true → opt'.output ≠ []) := by
  generalize hn : args.length = n
  induction n using Nat.strong_induction_on generalizing args with
  | _ n ih =>
    intro opt dir opt' dir' h
    cases args with
    | nil =>
      obtain ⟨rfl, rfl, h1, h2, h3⟩ := parse_loop_nil_true opt dir opt' dir' h
      simp [option_args, missing_value, h1, h2, h3]
      tauto
    | cons arg rest =>
      rcases arg_kind arg with hk | hk | hk | hk | hk
      · -- a value-taking flag
        cases rest with
        | nil => rw [parse_loop_value_last arg opt dir hk] at h; simp at h
        | cons val rest' =>
          rw [parse_loop_value arg val rest' opt dir hk] at h
          cases hv : set_value arg val opt with
          | rejected => rw [hv] at h; simp at h
          | thrown => rw [hv] at h; simp at h
          | stored o =>
            rw [hv] at h
            simp only at h
            obtain ⟨f1, f2, f3, f4⟩ := set_value_facts arg val opt o hk hv
            have hu : is_unknown_flag arg = false := by simp [is_unknown_flag, hk]
            have hp : is_positional arg = false := by simp [is_positional, hk]
            obtain ⟨a1, a2, a3, a4, a5, a6, a7, a8⟩ :=
              ih rest'.length (by simp at hn; omega) rest' rfl o dir opt' dir' h
            rw [option_args_value arg val rest' hk, missing_value_value arg val rest' hk]
            refine ⟨?_, a2, ?_, ?_, ?_, ?_, ?_, a8⟩
            · intro a ha
              rcases List.mem_cons.1 ha with rfl | ha
              · exact hu
              · exact a1 a ha
            · rintro (hc | hc)
              · exact a3 (Or.inl (f1 ▸ hc))
              · rcases List.mem_cons.1 hc with rfl | hc
                · exact absurd hk (by decide)
                · exact a3 (Or.inr hc)
            · rintro (hc | hc)
              · exact a4 (Or.inl (f2 ▸ hc))
              · rcases List.mem_cons.1 hc with rfl | hc
                · exact absurd hk (by decide)
                · exact a4 (Or.inr hc)
            · rintro (hc | hc | hc)
              · exact a5 (Or.inl (f3 ▸ hc))
              · rcases List.mem_cons.1 hc with rfl | hc
                · exact absurd hk (by decide)
                · exact a5 (Or.inr (Or.inl hc))
              · rcases List.mem_cons.1 hc with rfl | hc
                · exact absurd hk (by decide)
                · exact a5 (Or.inr (Or.inr hc))
            · intro ho n1 n2
              simp only [List.mem_cons, not_or] at n1 n2
              exact a6 ((f4 (Ne.symm n1.1) (Ne.symm n2.1)).trans ho) n1.2 n2.2
            · intro hd hall
              exact a7 hd (fun a ha => hall a (List.mem_cons_of_mem _ ha))
      · -- a switch
        rw [parse_loop_switch arg rest opt dir hk] at h
        have hnv := switch_not_value arg hk
        obtain ⟨f1, f2, f3, f4⟩ := set_switch_facts arg opt hk
        have hu : is_unknown_flag arg = false := by simp [is_unknown_flag, hk]
        obtain ⟨a1, a2, a3, a4, a5, a6, a7, a8⟩ :=
          ih rest.length (by simp at hn; omega) rest rfl _ dir opt' dir' h
        rw [option_args_cons arg rest hnv, missing_value_cons arg rest hnv]
        refine ⟨?_, a2, ?_, ?_, ?_, ?_, ?_, a8⟩
        · intro a ha
          rcases List.mem_cons.1 ha with rfl | ha
          · exact hu
          · exact a1 a ha
        · rintro (hc | hc)
          · exact a3 (Or.inl (f1.2 (Or.inl hc)))
          · rcases List.mem_cons.1 hc with hc | hc
            · exact a3 (Or.inl (f1.2 (Or.inr hc.symm)))
            · exact a3 (Or.inr hc)
        · rintro (hc | hc)
          · exact a4 (Or.inl (f2.2 (Or.inl hc)))
          · rcases List.mem_cons.1 hc with hc | hc
            · exact a4 (Or.inl (f2.2 (Or.inr hc.symm)))
            · exact a4 (Or.inr hc)
        · rintro (hc | hc | hc)
          · exact a5 (Or.inl (f3.2 (Or.inl hc)))
          · rcases List.mem_cons.1 hc with hc | hc
            · exact a5 (Or.inl (f3.2 (Or.inr (Or.inl hc.symm))))
            · exact a5 (Or.inr (Or.inl hc))
          · rcases List.mem_cons.1 hc with hc | hc
            · exact a5 (Or.inl (f3.2 (Or.inr (Or.inr hc.symm))))
            · exact a5 (Or.inr (Or.inr hc))
        · intro ho n1 n2
          simp only [List.mem_cons, not_or] at n1 n2
          exact a6 (f4.trans ho) n1.2 n2.2
        · intro hd hall
          exact a7 hd (fun a ha => hall a (List.mem_cons_of_mem _ ha))
      · rw [parse_loop_help arg rest opt dir hk] at h; simp at h
      · rw [parse_loop_unknown arg rest opt dir hk] at h; simp at h
      · -- a positional argument
        rw [parse_loop_positional arg rest opt dir hk] at h
        have hnv := positional_not_value arg hk
        have hu : is_unknown_flag arg = false := by
          unfold is_positional at hk
          unfold is_unknown_flag
          cases hh : (arg.head? == some '-') <;> simp_all
        obtain ⟨a1, a2, a3, a4, a5, a6, a7, a8⟩ :=
          ih rest.length (by simp at hn; omega) rest rfl opt arg opt' dir' h
        rw [option_args_cons arg rest hnv, missing_value_cons arg rest hnv]
        have hne : ∀ s : Str, is_positional s = false → arg ≠ s := by
          intro s hs hc
          rw [hc, hs] at hk
          exact absurd hk (by simp)
        refine ⟨?_, a2, ?_, ?_, ?_, ?_, ?_, a8⟩
        · intro a ha
          rcases List.mem_cons.1 ha with rfl | ha
          · exact hu
          · exact a1 a ha
        · rintro (hc | hc)
          · exact a3 (Or.inl hc)
          · rcases List.mem_cons.1 hc with hc | hc
            · exact absurd hc.symm (hne _ (by decide))
            · exact a3 (Or.inr hc)
        · rintro (hc | hc)
          · exact a4 (Or.inl hc)
          · rcases List.mem_cons.1 hc with hc | hc
            · exact absurd hc.symm (hne _ (by decide))
            · exact a4 (Or.inr hc)
        · rintro (hc | hc | hc)
          · exact a5 (Or.inl hc)
          · rcases List.mem_cons.1 hc with hc | hc
            · exact absurd hc.symm (hne _ (by decide))
            · exact a5 (Or.inr (Or.inl hc))
          · rcases List.mem_cons.1 hc with hc | hc
            · exact absurd hc.symm (hne _ (by decide))
            · exact a5 (Or.inr (Or.inr hc))
        · intro ho n1 n2
          simp only [List.mem_cons, not_or] at n1 n2
          exact a6 ho n1.2 n2.2
        · intro hd hall
          have := hall arg (List.mem_cons_self _ _)
          rw [hk] at this
          exact absurd this (by simp)

theorem parse_loop_nil_returns (opt : Options) (dir : Str) :
    ∃ ok, parse_loop [] opt dir = ParseResult.returned ok opt dir := by
  unfold parse_loop
  split_ifs <;> exact ⟨_, rfl⟩

/-- Without a help flag and with convertible depth values the parse returns. -/
theorem parse_loop_returns (args : List Str) :
    (∀ a ∈ option_args args, is_help a = false) →
    (∀ v ∈ flag_values ["--depth".toList, "-d".toList] args, depth_value_ok v = true) →
    ∀ (opt : Options) (dir : Str),
      ∃ ok opt' dir', parse_loop args opt dir = ParseResult.returned ok opt' dir' := by
  generalize hn : args.length = n
  induction n using Nat.strong_induction_on generalizing args with
  | _ n ih =>
    intro hh hd opt dir
    cases args with
    | nil =>
      obtain ⟨ok, h⟩ := parse_loop_nil_returns opt dir
      exact ⟨ok, opt, dir, h⟩
    | cons arg rest =>
      rcases arg_kind arg with hk | hk | hk | hk | hk
      · cases rest with
        | nil => exact ⟨false, opt, dir, parse_loop_value_last arg opt dir hk⟩
        | cons val rest' =>
          rw [parse_loop_value arg val rest' opt dir hk]
          rw [option_args_value arg val rest' hk] at hh
          rw [flag_values_value _ arg val rest' hk] at hd
          cases hv : set_value arg val opt with
          | rejected => exact ⟨false, opt, dir, rfl⟩
          | thrown =>
            obtain ⟨t1, t2⟩ := set_value_thrown arg val opt hv
            rw [if_pos t1] at hd
            rw [hd val (List.mem_cons_self _ _)] at t2
            exact absurd t2 (by simp)
          | stored o =>
            simp only
            apply ih rest'.length (by simp at hn; omega) rest' rfl
            · exact fun a ha => hh a (List.mem_cons_of_mem _ ha)
            · intro v hv'
              apply hd
              split_ifs
              · exact List.mem_cons_of_mem _ hv'
              · exact hv'
      · rw [parse_loop_switch arg rest opt dir hk]
        have hnv := switch_not_value arg hk
        rw [option_args_cons arg rest hnv] at hh
        rw [flag_values_cons _ arg rest hnv] at hd
        exact ih rest.length (by simp at hn; omega) rest rfl
          (fun a ha => hh a (List.mem_cons_of_mem _ ha)) hd _ _
      · have hnv := help_not_value arg hk
        rw [option_args_cons arg rest hnv] at hh
        have := hh arg (List.mem_cons_self _ _)
        rw [hk] at this
        exact absurd this (by simp)
      · exact ⟨false, opt, dir, parse_loop_unknown arg rest opt dir hk⟩
      · rw [parse_loop_positional arg rest opt dir hk]
        have hnv := positional_not_value arg hk
        rw [option_args_cons arg rest hnv] at hh
        rw [flag_values_cons _ arg rest hnv] at hd
        exact ih rest.length (by simp at hn; omega) rest rfl
          (fun a ha => hh a (List.mem_cons_of_mem _ ha)) hd _ _

theorem main_calls_iff (argv : List Str) :
    (main argv).calls_list_files = true ↔
      ∃ opt dir, parse_loop argv.tail {} [] = ParseResult.returned true opt dir := by
  unfold main parse_arguments
  cases h : parse_loop argv.tail {} [] with
  | returned ok opt dir => cases ok <;> simp [Outcome.calls_list_files]
  | exited_zero => simp [Outcome.calls_list_files]
  | threw => simp [Outcome.calls_list_files]

theorem main_usage_error_of (argv : List Str)
    (hh : no_help_flag argv = true) (hd : depth_values_ok argv = true)
    (hc : (main argv).calls_list_files = false) : main argv = Outcome.usage_error := by
  simp only [no_help_flag, List.all_eq_true, Bool.not_eq_true'] at hh
  simp only [depth_values_ok, List.all_eq_true] at hd
  obtain ⟨ok, opt', dir', h⟩ := parse_loop_returns argv.tail hh hd {} []
  unfold main parse_arguments at hc ⊢
  rw [h] at hc ⊢
  cases ok
  · rfl
  · simp [Outcome.calls_list_files] at hc

/-- C8, the claim as stated fails: the command line
`prog --dirs-only --files-only --help` sets both type flags, and the run ends in
`exit(0)` inside `parse_arguments` (the help branch) instead of `main` returning
1. -/
theorem C8_help_after_conflict_counterexample :
    sets_both_type_flags
        ["prog".toList, "--dirs-only".toList, "--files-only".toList, "--help".toList] = true ∧
    main ["prog".toList, "--dirs-only".toList, "--files-only".toList, "--help".toList] =
        Outcome.help_exit ∧
    (main ["prog".toList, "--dirs-only".toList, "--files-only".toList,
        "--help".toList]).exit_code ≠ some 1 := by
  decide

/-- C8, amended: starting from the default options, a successful
`parse_arguments` leaves a non-empty directory, not both `dirs_only` and
`files_only`, and `compress` only with a non-empty `output`; a command line that
sets both `--dirs-only` and `--files-only`, or `--compress` without `--output`,
never reaches `list_files`, and `main` returns 1 on it whenever no `-h`/`--help`
stands in option position and every depth value converts. -/
theorem C8_conflicting_flags_rejected (argv : List Str) :
    (∀ opt dir, parse_arguments argv {} [] = ParseResult.returned true opt dir →
      dir ≠ [] ∧ ¬ (opt.dirs_only = true ∧ opt.files_only = true) ∧
        (opt.compress = true → opt.output ≠ [])) ∧
    (sets_both_type_flags argv = true ∨ compress_without_output argv = true →
      (main argv).calls_list_files = false ∧
      (no_help_flag argv = true → depth_values_ok argv = true →
        main argv = Outcome.usage_error ∧ (main argv).exit_code = some 1)) := by
  constructor
  · intro opt dir h
    exact (parse_loop_true argv.tail {} [] opt dir h).2.2.2.2.2.2.2
  · intro hconf
    have hc : (main argv).calls_list_files = false := by
      cases hm : (main argv).calls_list_files with
      | false => rfl
      | true =>
        exfalso
        obtain ⟨opt, dir, h⟩ := (main_calls_iff argv).1 hm
        obtain ⟨_, _, a3, a4, a5, a6, _, _, a9, a10⟩ := parse_loop_true argv.tail {} [] opt dir h
        rcases hconf with hb | hb
        · simp only [sets_both_type_flags, Bool.and_eq_true, decide_eq_true_eq] at hb
          exact a9 ⟨a3 (Or.inr hb.1), a4 (Or.inr hb.2)⟩
        · simp only [compress_without_output, Bool.and_eq_true, Bool.or_eq_true,
            decide_eq_true_eq, Bool.not_eq_true', decide_eq_false_iff_not] at hb
          exact a10 (a5 (Or.inr hb.1.1)) (a6 rfl hb.1.2 hb.2)
    refine ⟨hc, fun hh hd => ?_⟩
    have := main_usage_error_of argv hh hd hc
    rw [this]
    exact ⟨rfl, rfl⟩

/-- C8 on `prog root --dirs-only --files-only` and on `prog root -c`. -/
theorem C8_conflicting_flags_rejected_witness :
    (parse_arguments ["prog".toList, "root".toList, "-c".toList, "-o".toList, "out".toList] {} []
        = ParseResult.returned true { output := "out".toList, compress := true } "root".toList ∧
      "root".toList ≠ []) ∧
    (sets_both_type_flags
        ["prog".toList, "root".toList, "--dirs-only".toList, "--files-only".toList] = true ∧
      main ["prog".toList, "root".toList, "--dirs-only".toList, "--files-only".toList] =
        Outcome.usage_error) ∧
    (compress_without_output ["prog".toList, "root".toList, "-c".toList] = true ∧
      main ["prog".toList, "root".toList, "-c".toList] = Outcome.usage_error) :=
  ⟨⟨by decide,
      ((C8_conflicting_flags_rejected
        ["prog".toList, "root".toList, "-c".toList, "-o".toList, "out".toList]).1
        { output := "out".toList, compress := true } "root".toList (by decide)).1⟩,
   ⟨by decide,
      (((C8_conflicting_flags_rejected
        ["prog".toList, "root".toList, "--dirs-only".toList, "--files-only".toList]).2
        (Or.inl (by decide))).2 (by decide) (by decide)).1⟩,
   ⟨by decide,
      (((C8_conflicting_flags_rejected ["prog".toList, "root".toList, "-c".toList]).2
        (Or.inr (by decide))).2 (by decide) (by decide)).1⟩⟩

theorem rejecting_head_returns (suffix : List Str) (h : rejecting_head suffix = true)
    (opt : Options) (dir : Str) :
    parse_loop suffix opt dir = ParseResult.returned false opt dir := by
  match suffix, h with
  | [arg], h =>
    simp only [rejecting_head, Bool.or_eq_true] at h
    rcases h with h | h
    · exact parse_loop_unknown arg [] opt dir h
    · exact parse_loop_value_last arg opt dir h
  | arg :: val :: rest, h =>
    simp only [rejecting_head, Bool.or_eq_true, Bool.and_eq_true, beq_iff_eq,
      Bool.not_eq_true', Bool.or_eq_false_iff, beq_eq_false_iff_ne, ne_eq] at h
    rcases h with h | ⟨h, ⟨h1, h2⟩, h3⟩
    · exact parse_loop_unknown arg (val :: rest) opt dir h
    · have hk : takes_value arg = true := by rcases h with rfl | rfl <;> decide
      rw [parse_loop_value arg val rest opt dir hk]
      have : set_value arg val opt = ValueStep.rejected := by
        rcases h with rfl | rfl <;>
          (unfold set_value
           rw [if_neg (by decide), if_neg (by decide), if_neg (by decide), if_pos (by decide),
             if_neg h1, if_neg h2, if_neg h3])
      rw [this]

/-- While the loop reads arguments that pass quietly, it either returns false or
goes on with the arguments after them. -/
theorem parse_loop_after_quiet (pre : List Str) :
    passes_quietly pre = true →
    ∀ (suffix : List Str) (opt : Options) (dir : Str),
      (∃ o d, parse_loop (pre ++ suffix) opt dir = ParseResult.returned false o d) ∨
      (∃ o d, parse_loop (pre ++ suffix) opt dir = parse_loop suffix o d) := by
  generalize hn : pre.length = n
  induction n using Nat.strong_induction_on generalizing pre with
  | _ n ih =>
    intro hq suffix opt dir
    simp only [passes_quietly, Bool.and_eq_true, Bool.not_eq_true', List.all_eq_true] at hq
    obtain ⟨⟨hm, hh⟩, hd⟩ := hq
    have back : ∀ p : List Str, missing_value p = false →
        (∀ a ∈ option_args p, is_help a = false) →
        (∀ v ∈ flag_values ["--depth".toList, "-d".toList] p, depth_value_ok v = true) →
        passes_quietly p = true := by
      intro p a b c
      simp only [passes_quietly, Bool.and_eq_true, Bool.not_eq_true', List.all_eq_true]
      exact ⟨⟨a, b⟩, c⟩
    cases pre with
    | nil => exact Or.inr ⟨opt, dir, rfl⟩
    | cons arg rest =>
      rcases arg_kind arg with hk | hk | hk | hk | hk
      · cases rest with
        | nil => simp [missing_value, hk] at hm
        | cons val rest' =>
          rw [missing_value_value arg val rest' hk] at hm
          rw [option_args_value arg val rest' hk] at hh
          rw [flag_values_value _ arg val rest' hk] at hd
          simp only [List.cons_append]
          rw [parse_loop_value arg val (rest' ++ suffix) opt dir hk]
          cases hv : set_value arg val opt with
          | rejected => exact Or.inl ⟨opt, dir, rfl⟩
          | thrown =>
            obtain ⟨t1, t2⟩ := set_value_thrown arg val opt hv
            rw [if_pos t1] at hd
            rw [hd val (List.mem_cons_self _ _)] at t2
            exact absurd t2 (by simp)
          | stored o =>
            simp only
            apply ih rest'.length (by simp at hn; omega) rest' rfl
            apply back _ hm
            · exact fun a ha => hh a (List.mem_cons_of_mem _ ha)
            · intro v hv'
              apply hd
              split_ifs
              · exact List.mem_cons_of_mem _ hv'
              · exact hv'
      · simp only [List.cons_append]
        rw [parse_loop_switch arg (rest ++ suffix) opt dir hk]
        have hnv := switch_not_value arg hk
        rw [missing_value_cons arg rest hnv] at hm
        rw [option_args_cons arg rest hnv] at hh
        rw [flag_values_cons _ arg rest hnv] at hd
        exact ih rest.length (by simp at hn; omega) rest rfl
          (back _ hm (fun a ha => hh a (List.mem_cons_of_mem _ ha)) hd) _ _ _
      · have hnv := help_not_value arg hk
        rw [option_args_cons arg rest hnv] at hh
        have := hh arg (List.mem_cons_self _ _)
        rw [hk] at this
        exact absurd this (by simp)
      · exact Or.inl ⟨opt, dir, parse_loop_unknown arg (rest ++ suffix) opt dir hk⟩
      · simp only [List.cons_append]
        rw [parse_loop_positional arg (rest ++ suffix) opt dir hk]
        have hnv := positional_not_value arg hk
        rw [missing_value_cons arg rest hnv] at hm
        rw [option_args_cons arg rest hnv] at hh
        rw [flag_values_cons _ arg rest hnv] at hd
        exact ih rest.length (by simp at hn; omega) rest rfl
          (back _ hm (fun a ha => hh a (List.mem_cons_of_mem _ ha)) hd) _ _ _

theorem parse_loop_rejects_after_quiet (pre suffix : List Str)
    (hq : passes_quietly pre = true) (hr : rejecting_head suffix = true)
    (opt : Options) (dir : Str) :
    ∃ o d, parse_loop (pre ++ suffix) opt dir = ParseResult.returned false o d := by
  rcases parse_loop_after_quiet pre hq suffix opt dir with h | ⟨o, d, h⟩
  · exact h
  · exact ⟨o, d, by rw [h, rejecting_head_returns suffix hr]⟩


theorem set_value_rejected (arg val : Str) (rest : List Str) (opt : Options)
    (h : set_value arg val opt = ValueStep.rejected) :
    rejecting_head (arg :: val :: rest) = true := by
  unfold set_value at h
  split_ifs at h with h1 h2 h3 h4 h5 h6 h7 h8
  · cases hs : stoi val with
    | none => simp [hs] at h
    | some n => simp [hs] at h
  · simp only [rejecting_head, Bool.or_eq_true, Bool.and_eq_true, beq_iff_eq,
      Bool.not_eq_true', Bool.or_eq_false_iff, beq_eq_false_iff_ne, ne_eq]
    exact Or.inr ⟨h5, ⟨h6, h7⟩, h8⟩

theorem set_value_stored_depth (arg val : Str) (opt o : Options)
    (h : set_value arg val opt = ValueStep.stored o)
    (hd : arg ∈ ["--depth".toList, "-d".toList]) : depth_value_ok val = true := by
  have h1 : arg = "--depth".toList ∨ arg = "-d".toList := by simpa using hd
  unfold set_value at h
  rw [if_pos h1] at h
  unfold depth_value_ok
  by_cases h2 : val = "inf".toList ∨ val = "INF".toList
  · rcases h2 with rfl | rfl <;> decide
  · rw [if_neg h2] at h
    cases hs : stoi val with
    | none => simp [hs] at h
    | some n => simp

theorem passes_quietly_iff (p : List Str) :
    passes_quietly p = true ↔
      missing_value p = false ∧ (∀ a ∈ option_args p, is_help a = false) ∧
      (∀ v ∈ flag_values ["--depth".toList, "-d".toList] p, depth_value_ok v = true) := by
  simp only [passes_quietly, Bool.and_eq_true, Bool.not_eq_true', List.all_eq_true, and_assoc]

theorem passes_quietly_cons (arg : Str) (pre : List Str) (hv : takes_value arg = false)
    (hh : is_help arg = false) (hq : passes_quietly pre = true) :
    passes_quietly (arg :: pre) = true := by
  rw [passes_quietly_iff] at hq ⊢
  obtain ⟨a, b, c⟩ := hq
  rw [missing_value_cons arg pre hv, option_args_cons arg pre hv, flag_values_cons _ arg pre hv]
  refine ⟨a, ?_, c⟩
  intro x hx
  rcases List.mem_cons.1 hx with rfl | hx
  · exact hh
  · exact b x hx

theorem passes_quietly_value (arg val : Str) (pre : List Str) (hv : takes_value arg = true)
    (hd : arg ∈ ["--depth".toList, "-d".toList] → depth_value_ok val = true)
    (hq : passes_quietly pre = true) :
    passes_quietly (arg :: val :: pre) = true := by
  rw [passes_quietly_iff] at hq ⊢
  obtain ⟨a, b, c⟩ := hq
  rw [missing_value_value arg val pre hv, option_args_value arg val pre hv,
    flag_values_value _ arg val pre hv]
  refine ⟨a, ?_, ?_⟩
  · intro x hx
    rcases List.mem_cons.1 hx with rfl | hx
    · cases hh : is_help x with
      | false => rfl
      | true => rw [help_not_value x hh] at hv; exact absurd hv (by simp)
    · exact b x hx
  · intro v hv'
    split_ifs at hv' with hm
    · rcases List.mem_cons.1 hv' with rfl | hv'
      · exact hd hm
      · exact c v hv'
    · exact c v hv'

theorem not_help_of_kind (arg : Str)
    (h : is_switch arg = true ∨ is_unknown_flag arg = true ∨ is_positional arg = true) :
    is_help arg = false := by
  unfold is_unknown_flag is_positional at h
  cases hh : is_help arg with
  | false => rfl
  | true =>
    exfalso
    simp only [is_switch, is_help, List.mem_cons, List.mem_singleton, decide_eq_true_eq,
      List.not_mem_nil, or_false] at hh
    rcases hh with rfl | rfl <;> revert h <;> decide

/-- Where the parse returns false: at a rejecting argument that the loop reached
quietly, or after the loop, all arguments having passed quietly. -/
theorem parse_loop_false_cases (args : List Str) :
    ∀ (opt : Options) (dir : Str) (o : Options) (d : Str),
      parse_loop args opt dir = ParseResult.returned false o d →
      (∃ pre suffix, args = pre ++ suffix ∧ passes_quietly pre = true ∧
        rejecting_head suffix = true) ∨
      passes_quietly args = true := by
  generalize hn : args.length = n
  induction n using Nat.strong_induction_on generalizing args with
  | _ n ih =>
    intro opt dir o d h
    cases args with
    | nil => exact Or.inr (by decide)
    | cons arg rest =>
      rcases arg_kind arg with hk | hk | hk | hk | hk
      · cases rest with
        | nil =>
          exact Or.inl ⟨[], [arg], rfl, by decide, by simp [rejecting_head, hk]⟩
        | cons val rest' =>
          rw [parse_loop_value arg val rest' opt dir hk] at h
          cases hv : set_value arg val opt with
          | rejected =>
            exact Or.inl ⟨[], arg :: val :: rest', rfl, by decide,
              set_value_rejected arg val rest' opt hv⟩
          | thrown => rw [hv] at h; simp at h
          | stored o1 =>
            rw [hv] at h
            simp only at h
            have hd := set_value_stored_depth arg val opt o1 hv
            rcases ih rest'.length (by simp at hn; omega) rest' rfl o1 dir o d h with
              ⟨pre, suffix, e, hq, hr⟩ | hq
            · exact Or.inl ⟨arg :: val :: pre, suffix, by rw [e]; rfl,
                passes_quietly_value arg val pre hk hd hq, hr⟩
            · exact Or.inr (passes_quietly_value arg val rest' hk hd hq)
      · rw [parse_loop_switch arg rest opt dir hk] at h
        have hnv := switch_not_value arg hk
        have hnh := not_help_of_kind arg (Or.inl hk)
        rcases ih rest.length (by simp at hn; omega) rest rfl _ dir o d h with
          ⟨pre, suffix, e, hq, hr⟩ | hq
        · exact Or.inl ⟨arg :: pre, suffix, by rw [e]; rfl,
            passes_quietly_cons arg pre hnv hnh hq, hr⟩
        · exact Or.inr (passes_quietly_cons arg rest hnv hnh hq)
      · rw [parse_loop_help arg rest opt dir hk] at h
        simp at h
      · refine Or.inl ⟨[], arg :: rest, rfl, by decide, ?_⟩
        cases rest with
        | nil => simp [rejecting_head, hk]
        | cons v r => simp [rejecting_head, hk]
      · rw [parse_loop_positional arg rest opt dir hk] at h
        have hnv := positional_not_value arg hk
        have hnh := not_help_of_kind arg (Or.inr (Or.inr hk))
        rcases ih rest.length (by simp at hn; omega) rest rfl _ arg o d h with
          ⟨pre, suffix, e, hq, hr⟩ | hq
        · exact Or.inl ⟨arg :: pre, suffix, by rw [e]; rfl,
            passes_quietly_cons arg pre hnv hnh hq, hr⟩
        · exact Or.inr (passes_quietly_cons arg rest hnv hnh hq)

theorem main_usage_error_iff (argv : List Str) :
    main argv = Outcome.usage_error ↔
      ∃ opt dir, parse_arguments argv {} [] = ParseResult.returned false opt dir := by
  unfold main
  cases h : parse_arguments argv {} [] with
  | returned ok opt dir => cases ok <;> simp
  | exited_zero => simp
  | threw => simp

/-- C9, the claim as stated fails: the command line `prog --help` has no
positional root directory, and the program exits with code 0 (the help branch
of `parse_arguments`), not 1. -/
theorem C9_help_without_root_counterexample :
    no_positional ["prog".toList, "--help".toList] = true ∧
    main ["prog".toList, "--help".toList] = Outcome.help_exit ∧
    (main ["prog".toList, "--help".toList]).exit_code = some 0 := by
  decide

/-- C9, amended: a command line with an unknown flag in option position, or a
value-taking flag without a following value, or no positional root directory,
never reaches `list_files`.  On it `parse_arguments` returns false and `main`
prints the usage and returns 1 whenever an argument on which `parse_arguments`
returns false (an unknown flag, a value-taking flag that is last, a format flag
with an unknown format) stands in option position with no `-h`/`--help` and no
unconvertible depth value in option position before it; and also whenever no
`-h`/`--help` and no unconvertible depth value stands in option position at
all.  These are the only such command lines on which `main` returns 1. -/
theorem C9_bad_arguments_rejected (argv : List Str)
    (hbad : has_unknown_flag argv = true ∨ has_missing_value argv = true ∨
      no_positional argv = true) :
    (main argv).calls_list_files = false ∧
    (∀ pre suffix, argv.tail = pre ++ suffix → passes_quietly pre = true →
      rejecting_head suffix = true →
      (∃ opt dir, parse_arguments argv {} [] = ParseResult.returned false opt dir) ∧
      main argv = Outcome.usage_error ∧ (main argv).exit_code = some 1) ∧
    (no_help_flag argv = true → depth_values_ok argv = true →
      (∃ opt dir, parse_arguments argv {} [] = ParseResult.returned false opt dir) ∧
      main argv = Outcome.usage_error ∧ (main argv).exit_code = some 1) ∧
    (main argv = Outcome.usage_error →
      (∃ pre suffix, argv.tail = pre ++ suffix ∧ passes_quietly pre = true ∧
        rejecting_head suffix = true) ∨
      (no_help_flag argv = true ∧ depth_values_ok argv = true)) := by
  have hc : (main argv).calls_list_files = false := by
    cases hm : (main argv).calls_list_files with
    | false => rfl
    | true =>
      exfalso
      obtain ⟨opt, dir, h⟩ := (main_calls_iff argv).1 hm
      obtain ⟨a1, a2, _, _, _, _, a7, a8, _, _⟩ := parse_loop_true argv.tail {} [] opt dir h
      rcases hbad with hb | hb | hb
      · simp only [has_unknown_flag, List.any_eq_true] at hb
        obtain ⟨a, ha, hu⟩ := hb
        rw [a1 a ha] at hu
        exact absurd hu (by simp)
      · simp only [has_missing_value] at hb
        rw [a2] at hb
        exact absurd hb (by simp)
      · simp only [no_positional, List.all_eq_true, Bool.not_eq_true'] at hb
        exact a8 (a7 rfl hb)
  have fin : (∃ opt dir, parse_arguments argv {} [] = ParseResult.returned false opt dir) →
      (∃ opt dir, parse_arguments argv {} [] = ParseResult.returned false opt dir) ∧
      main argv = Outcome.usage_error ∧ (main argv).exit_code = some 1 := by
    intro h
    have hm := (main_usage_error_iff argv).2 h
    exact ⟨h, hm, by rw [hm]; rfl⟩
  refine ⟨hc, ?_, ?_, ?_⟩
  · intro pre suffix e hq hr
    apply fin
    unfold parse_arguments
    rw [e]
    exact parse_loop_rejects_after_quiet pre suffix hq hr {} []
  · intro hh hd
    exact fin ((main_usage_error_iff argv).1 (main_usage_error_of argv hh hd hc))
  · intro hm
    obtain ⟨opt, dir, h⟩ := (main_usage_error_iff argv).1 hm
    rcases parse_loop_false_cases argv.tail {} [] opt dir h with h1 | h2
    · exact Or.inl h1
    · right
      rw [passes_quietly_iff] at h2
      simp only [no_help_flag, depth_values_ok, List.all_eq_true, Bool.not_eq_true']
      exact ⟨h2.2.1, h2.2.2⟩

/-- C9 on `prog root -x --help` and `prog -x -d abc` (the unknown flag is met
before the help flag and before the depth value `abc`), on `prog root -d` and on
`prog -s`. -/
theorem C9_bad_arguments_rejected_witness :
    (has_unknown_flag ["prog".toList, "root".toList, "-x".toList, "--help".toList] = true ∧
      no_help_flag ["prog".toList, "root".toList, "-x".toList, "--help".toList] = false ∧
      main ["prog".toList, "root".toList, "-x".toList, "--help".toList] =
        Outcome.usage_error) ∧
    (has_unknown_flag ["prog".toList, "-x".toList, "-d".toList, "abc".toList] = true ∧
      depth_values_ok ["prog".toList, "-x".toList, "-d".toList, "abc".toList] = false ∧
      main ["prog".toList, "-x".toList, "-d".toList, "abc".toList] = Outcome.usage_error) ∧
    (has_missing_value ["prog".toList, "root".toList, "-d".toList] = true ∧
      main ["prog".toList, "root".toList, "-d".toList] = Outcome.usage_error) ∧
    (no_positional ["prog".toList, "-s".toList] = true ∧
      main ["prog".toList, "-s".toList] = Outcome.usage_error) :=
  ⟨⟨by decide, by decide,
      ((C9_bad_arguments_rejected
        ["prog".toList, "root".toList, "-x".toList, "--help".toList]
        (Or.inl (by decide))).2.1 ["root".toList] ["-x".toList, "--help".toList] rfl
          (by decide) (by decide)).2.1⟩,
   ⟨by decide, by decide,
      ((C9_bad_arguments_rejected ["prog".toList, "-x".toList, "-d".toList, "abc".toList]
        (Or.inl (by decide))).2.1 [] ["-x".toList, "-d".toList, "abc".toList] rfl
          (by decide) (by decide)).2.1⟩,
   ⟨by decide,
      ((C9_bad_arguments_rejected ["prog".toList, "root".toList, "-d".toList]
        (Or.inr (Or.inl (by decide)))).2.1 ["root".toList] ["-d".toList] rfl
          (by decide) (by decide)).2.1⟩,
   ⟨by decide,
      ((C9_bad_arguments_rejected ["prog".toList, "-s".toList]
        (Or.inr (Or.inr (by decide)))).2.2.1 (by decide) (by decide)).2.1⟩⟩

/-! ## Rendering -/

/-- The constants `TREE_BAR` and `TREE_TEE` are the UTF-8 code units of the literals
`"│   "` and `"├── "` of the source. -/
theorem tree_literals_utf8 :
    ("│   ".toList.flatMap String.utf8EncodeChar).map (fun b => Char.ofNat b.toNat) =
      TREE_BAR ∧
    ("├── ".toList.flatMap String.utf8EncodeChar).map (fun b => Char.ofNat b.toNat) =
      TREE_TEE := by
  decide

theorem foldl_append_eq_flatMap {α β : Type} (g : α → List β) (xs : List α) (init : List β) :
    xs.foldl (fun result x => result ++ g x) init = init ++ xs.flatMap g := by
  induction xs generalizing init with
  | nil => simp
  | cons x xs ih => simp [List.foldl_cons, ih, List.flatMap_cons, List.append_assoc]

theorem tree_indent_loop_eq (depth : Int) (fuel : Nat) (i : Int) (pfx : Str)
    (hf : (depth - i).toNat < fuel) :
    tree_indent_loop depth fuel i pfx =
      some (pfx ++ (List.replicate (depth - i).toNat TREE_BAR).flatten) := by
  induction fuel generalizing i pfx with
  | zero => omega
  | succ fuel ih =>
    unfold tree_indent_loop
    by_cases hi : i < depth
    · rw [if_pos hi, ih (i + 1) _ (by omega)]
      have : (depth - i).toNat = (depth - (i + 1)).toNat + 1 := by omega
      rw [this, List.replicate_succ, List.flatten_cons, List.append_assoc]
    · rw [if_neg hi]
      have : (depth - i).toNat = 0 := by omega
      simp [this]

/-- C10: with `show_size`, `show_time` and `show_type` off, `output_tree` is the
root, a blank line, and then for each record in order one line made of the bar
`"│   "` repeated `depth - 1` times, the tee `"├── "` when `depth > 0`, the type tag,
the name (the relative path when `relative` is set) and a newline. -/
theorem C10_output_tree_plain (files : List FileInfo) (root : Str) (opt : Options)
    (hsize : opt.show_size = false) (htime : opt.show_time = false)
    (htype : opt.show_type = false) :
    output_tree files root opt =
      root ++ ['\n'] ++ ['\n'] ++
        files.flatMap (fun f =>
          (List.replicate (f.depth - 1).toNat TREE_BAR).flatten ++
            (if f.depth > 0 then TREE_TEE else []) ++
            (if f.is_dir then "[DIR]  ".toList else "[FILE] ".toList) ++
            (if opt.relative then f.rel_path.string else f.name) ++ ['\n']) := by
  unfold output_tree
  rw [foldl_append_eq_flatMap]
  have hline : ∀ f : FileInfo, tree_line opt f =
      (List.replicate (f.depth - 1).toNat TREE_BAR).flatten ++
        (if f.depth > 0 then TREE_TEE else []) ++
        (if f.is_dir then "[DIR]  ".toList else "[FILE] ".toList) ++
        (if opt.relative then f.rel_path.string else f.name) := by
    intro f
    unfold tree_line
    rw [tree_indent_loop_eq f.depth _ 1 [] (by omega)]
    simp only [hsize, htime, htype, Bool.false_and, Bool.false_eq_true, if_false,
      Option.getD_some, List.nil_append]
    split_ifs <;> simp
  simp only [hline]
  simp

/-- C10 on the records of `a` (a directory at depth 1) and `a/b.txt` (a file at
depth 2). -/
theorem C10_output_tree_plain_witness :
    output_tree
      [make_info {} (sample_entry "a") "a".toList true 1,
        make_info {} (sample_entry "b.txt") "b.txt".toList false 2] "root".toList {} =
      "root".toList ++ ['\n', '\n'] ++
        (TREE_TEE ++ "[DIR]  a".toList ++ ['\n']) ++
        (TREE_BAR ++ TREE_TEE ++ "[FILE] b.txt".toList ++ ['\n']) := by
  rw [C10_output_tree_plain _ _ _ rfl rfl rfl]
  decide

/-! ## Wildcard matching on names without a star -/

theorem glob_nil (name : Str) : glob_match [] name = name.isEmpty := by
  simp [glob_match]

theorem glob_star (ps name : Str) :
    glob_match ('*' :: ps) name = name.tails.any (fun rest => glob_match ps rest) := by
  conv_lhs => unfold glob_match
  rw [if_pos rfl]

theorem glob_star_iff (ps name : Str) :
    glob_match ('*' :: ps) name = true ↔ ∃ s, s <:+ name ∧ glob_match ps s = true := by
  rw [glob_star, List.any_eq_true]
  constructor
  · rintro ⟨s, hs, h⟩
    exact ⟨s, (List.mem_tails s name).1 hs, h⟩
  · rintro ⟨s, hs, h⟩
    exact ⟨s, (List.mem_tails s name).2 hs, h⟩

theorem glob_cons_nil (p : Char) (ps : Str) (hp : p ≠ '*') :
    glob_match (p :: ps) [] = false := by
  conv_lhs => unfold glob_match
  rw [if_neg hp]

theorem glob_cons_cons (p : Char) (ps : Str) (c : Char) (cs : Str) (hp : p ≠ '*') :
    glob_match (p :: ps) (c :: cs) = ((p == '?' || p == c) && glob_match ps cs) := by
  conv_lhs => unfold glob_match
  rw [if_neg hp]
  rfl

theorem glob_star_cons (ps : Str) (c : Char) (cs : Str) :
    glob_match ('*' :: ps) (c :: cs) =
      (glob_match ps (c :: cs) || glob_match ('*' :: ps) cs) := by
  rw [glob_star, glob_star, List.tails, List.any_cons]

theorem glob_star_mono (ps u v : Str) (huv : u <:+ v)
    (h : glob_match ('*' :: ps) u = true) : glob_match ('*' :: ps) v = true := by
  rw [glob_star_iff] at h ⊢
  obtain ⟨s, hs, hg⟩ := h
  exact ⟨s, hs.trans huv, hg⟩

theorem glob_nil_text (q : Str) : glob_match q [] = q.all (fun c => c == '*') := by
  induction q with
  | nil => rfl
  | cons p ps ih =>
    by_cases hp : p = '*'
    · subst hp
      rw [glob_star]
      simp [List.tails, ih]
    · rw [glob_cons_nil p ps hp]
      simp [hp]

theorem seg_match_length (seg v : Str) (h : seg_match seg v = true) :
    seg.length = v.length := by
  induction seg generalizing v with
  | nil =>
    cases v with
    | nil => rfl
    | cons c cs => simp [seg_match] at h
  | cons p ps ih =>
    cases v with
    | nil => simp [seg_match] at h
    | cons c cs =>
      simp only [seg_match, Bool.and_eq_true] at h
      simp [ih cs h.2]

/-- A matched star-free segment can be cancelled in front. -/
theorem glob_seg_cancel (seg v q w : Str) (hfree : '*' ∉ seg)
    (h : seg_match seg v = true) :
    glob_match (seg ++ q) (v ++ w) = glob_match q w := by
  induction seg generalizing v with
  | nil =>
    cases v with
    | nil => rfl
    | cons c cs => simp [seg_match] at h
  | cons p ps ih =>
    cases v with
    | nil => simp [seg_match] at h
    | cons c cs =>
      simp only [seg_match, Bool.and_eq_true] at h
      have hp : p ≠ '*' := fun hc => hfree (by simp [hc])
      have hps : '*' ∉ ps := fun hc => hfree (List.mem_cons_of_mem _ hc)
      rw [List.cons_append, List.cons_append, glob_cons_cons _ _ _ _ hp, h.1, Bool.true_and,
        ih cs hps h.2]

/-- A text matched by a pattern that starts with a star-free segment is at least
as long as the segment, and what follows the segment matches the rest. -/
theorem glob_seg_drop (seg q s : Str) (hfree : '*' ∉ seg)
    (h : glob_match (seg ++ q) s = true) :
    seg.length ≤ s.length ∧ glob_match q (s.drop seg.length) = true := by
  induction seg generalizing s with
  | nil => exact ⟨Nat.zero_le _, h⟩
  | cons p ps ih =>
    have hp : p ≠ '*' := fun hc => hfree (by simp [hc])
    have hps : '*' ∉ ps := fun hc => hfree (List.mem_cons_of_mem _ hc)
    cases s with
    | nil => rw [List.cons_append, glob_cons_nil _ _ hp] at h; simp at h
    | cons c cs =>
      rw [List.cons_append, glob_cons_cons _ _ _ _ hp, Bool.and_eq_true] at h
      obtain ⟨h1, h2⟩ := ih cs hps h.2
      exact ⟨by simp; omega, by simpa using h2⟩

theorem suffix_of_append_short (s v w : Str) (hs : s <:+ v ++ w) (hl : s.length ≤ w.length) :
    s <:+ w := by
  obtain ⟨a, ha⟩ := hs
  have hlen : a.length + s.length = v.length + w.length := by
    rw [← List.length_append, ha, List.length_append]
  have h1 : (a ++ s).drop (v.length) = w := by rw [ha, List.drop_left]
  rw [List.drop_append_eq_append_drop] at h1
  have : v.length - a.length = 0 := by omega
  rw [this, List.drop_zero] at h1
  exact ⟨a.drop v.length, h1⟩

/-- The greedy step: once a later star is reached, the earlier star may stay
where it is. -/
theorem glob_greedy (seg v q w : Str) (hfree : '*' ∉ seg) (h : seg_match seg v = true) :
    glob_match ('*' :: (seg ++ '*' :: q)) (v ++ w) = glob_match ('*' :: q) w := by
  rw [Bool.eq_iff_iff]
  constructor
  · intro hg
    rw [glob_star_iff] at hg
    obtain ⟨s, hs, hgs⟩ := hg
    obtain ⟨hlen, hd⟩ := glob_seg_drop seg ('*' :: q) s hfree hgs
    have hsuf : s.drop seg.length <:+ v ++ w := (List.drop_suffix _ _).trans hs
    have hl := hs.length_le
    have hv := seg_match_length seg v h
    have hshort : (s.drop seg.length).length ≤ w.length := by
      rw [List.length_drop]
      rw [List.length_append] at hl
      omega
    exact glob_star_mono q _ w (suffix_of_append_short _ v w hsuf hshort) hd
  · intro hg
    rw [glob_star_iff]
    refine ⟨v ++ w, List.suffix_refl _, ?_⟩
    rw [glob_seg_cancel seg v _ w hfree h]
    exact hg

/-- At the end of the text only stars may be left after a matched segment. -/
theorem glob_star_seg_end (seg v q : Str) (hfree : '*' ∉ seg) (h : seg_match seg v = true) :
    glob_match ('*' :: (seg ++ q)) v = q.all (fun c => c == '*') := by
  rw [Bool.eq_iff_iff]
  constructor
  · intro hg
    rw [glob_star_iff] at hg
    obtain ⟨s, hs, hgs⟩ := hg
    obtain ⟨hlen, hd⟩ := glob_seg_drop seg q s hfree hgs
    have hl := hs.length_le
    have hv := seg_match_length seg v h
    have : s.drop seg.length = [] := List.drop_eq_nil_of_le (by omega)
    rw [this, glob_nil_text] at hd
    exact hd
  · intro hq
    rw [glob_star_iff]
    refine ⟨v, List.suffix_refl _, ?_⟩
    have := glob_seg_cancel seg v q [] hfree h
    rw [List.append_nil] at this
    rw [this, glob_nil_text]
    exact hq

theorem drop_eq_char_at_cons (l : Str) (i : Nat) (h : i < l.length) :
    l.drop i = char_at l i :: l.drop (i + 1) := by
  rw [List.drop_eq_getElem_cons h]
  simp [char_at, List.getD_eq_getElem?_getD, List.getElem?_eq_getElem h]

theorem char_at_mem (l : Str) (i : Nat) (h : i < l.length) : char_at l i ∈ l := by
  have := drop_eq_char_at_cons l i h
  have hm : char_at l i ∈ l.drop i := by rw [this]; exact List.mem_cons_self _ _
  exact List.mem_of_mem_drop hm

theorem seg_match_snoc (seg v : Str) (x c : Char) (h : seg_match seg v = true)
    (hx : x = '?' ∨ x = c) : seg_match (seg ++ [x]) (v ++ [c]) = true := by
  induction seg generalizing v with
  | nil =>
    cases v with
    | nil => rcases hx with rfl | rfl <;> simp [seg_match]
    | cons d ds => simp [seg_match] at h
  | cons p ps ih =>
    cases v with
    | nil => simp [seg_match] at h
    | cons d ds =>
      simp only [seg_match, Bool.and_eq_true] at h
      simp only [List.cons_append, seg_match, Bool.and_eq_true]
      exact ⟨h.1, ih ds h.2⟩

/-- A mismatch at the current position: what is left of the pattern does not
match what is left of the text. -/
theorem glob_mismatch (text pattern : Str) (i j : Nat) (hi : i < text.length)
    (h1 : ¬ (j < pattern.length ∧
      (char_at pattern j = '?' ∨ char_at pattern j = char_at text i)))
    (h2 : ¬ (j < pattern.length ∧ char_at pattern j = '*')) :
    glob_match (pattern.drop j) (text.drop i) = false := by
  rw [drop_eq_char_at_cons text i hi]
  by_cases hj : j < pattern.length
  · rw [drop_eq_char_at_cons pattern j hj]
    have hx : char_at pattern j ≠ '*' := fun hc => h2 ⟨hj, hc⟩
    rw [glob_cons_cons _ _ _ _ hx]
    have hq : ¬ (char_at pattern j = '?') := fun hc => h1 ⟨hj, Or.inl hc⟩
    have hc : ¬ (char_at pattern j = char_at text i) := fun hc => h1 ⟨hj, Or.inr hc⟩
    simp [hq, hc]
  · rw [List.drop_eq_nil_of_le (by omega), glob_nil]
    rfl

theorem wildcard_loop_correct (text pattern : Str) (hfree : '*' ∉ text) (fuel : Nat) :
    ∀ (i j : Nat) (star_idx : Option Nat) (match_idx : Nat) (r : Option Nat),
      wild_inv text pattern i j star_idx match_idx →
      wildcard_loop text pattern fuel i j star_idx match_idx = some r →
      glob_match pattern text = wild_result pattern r ∧
        ∀ j', r = some j' → j' ≤ pattern.length := by
  induction fuel with
  | zero => intro i j s m r _ h; simp [wildcard_loop] at h
  | succ fuel ih =>
    intro i j star_idx match_idx r hinv hloop
    obtain ⟨hj, hinv⟩ := hinv
    unfold wildcard_loop at hloop
    by_cases hi : i < text.length
    · rw [if_pos hi] at hloop
      have hti := drop_eq_char_at_cons text i hi
      have hc : char_at text i ≠ '*' := fun hc => hfree (hc ▸ char_at_mem text i hi)
      by_cases h1 : j < pattern.length ∧
          (char_at pattern j = '?' ∨ char_at pattern j = char_at text i)
      · -- the characters match
        rw [if_pos h1] at hloop
        have hpj := drop_eq_char_at_cons pattern j h1.1
        have hx : char_at pattern j ≠ '*' := by
          rcases h1.2 with h | h
          · rw [h]; decide
          · rw [h]; exact hc
        have hb : (char_at pattern j == '?' || char_at pattern j == char_at text i) = true := by
          rcases h1.2 with h | h <;> simp [h]
        refine ih _ _ _ _ r ⟨h1.1, ?_⟩ hloop
        cases star_idx with
        | none =>
          simp only at hinv ⊢
          rw [hinv, hpj, hti, glob_cons_cons _ _ _ _ hx, hb, Bool.true_and]
        | some s =>
          simp only at hinv ⊢
          obtain ⟨hs, heq, seg, v, hp, ht, hsf, hsm⟩ := hinv
          refine ⟨hs, heq, seg ++ [char_at pattern j], v ++ [char_at text i], ?_, ?_, ?_, ?_⟩
          · rw [hp, hpj]; simp
          · rw [ht, hti]; simp
          · simp only [List.mem_append, List.mem_singleton, not_or]
            exact ⟨hsf, fun h => hx h.symm⟩
          · exact seg_match_snoc seg v _ _ hsm h1.2
      · rw [if_neg h1] at hloop
        by_cases h2 : j < pattern.length ∧ char_at pattern j = '*'
        · -- a star in the pattern
          rw [if_pos h2] at hloop
          have hpj := drop_eq_char_at_cons pattern j h2.1
          rw [h2.2] at hpj
          refine ih _ _ _ _ r ⟨h2.1, ?_⟩ hloop
          simp only
          refine ⟨h2.1, ?_, [], [], rfl, rfl, by simp, rfl⟩
          cases star_idx with
          | none =>
            simp only at hinv
            rw [hinv, hpj]
          | some s =>
            simp only at hinv
            obtain ⟨hs, heq, seg, v, hp, ht, hsf, hsm⟩ := hinv
            rw [heq, hp, ht, hpj, glob_greedy seg v _ _ hsf hsm]
        · rw [if_neg h2] at hloop
          have hmis := glob_mismatch text pattern i j hi h1 h2
          cases star_idx with
          | none =>
            simp only at hinv hloop
            simp only [Option.some.injEq] at hloop
            subst hloop
            refine ⟨?_, fun j' h => by simp at h⟩
            rw [hinv, hmis]
            rfl
          | some s =>
            -- back to the star, one text position further
            simp only at hinv hloop
            obtain ⟨hs, heq, seg, v, hp, ht, hsf, hsm⟩ := hinv
            refine ih _ _ _ _ r ⟨hs, ?_⟩ hloop
            simp only
            refine ⟨hs, ?_, [], [], rfl, rfl, by simp, rfl⟩
            have hm : match_idx < text.length := by
              by_contra hge
              have : text.drop match_idx = [] := List.drop_eq_nil_of_le (by omega)
              rw [this, hti] at ht
              cases v <;> simp at ht
            have hfail : glob_match (pattern.drop (s + 1)) (text.drop match_idx) = false := by
              rw [hp, ht, glob_seg_cancel seg v _ _ hsf hsm]
              exact hmis
            rw [heq]
            conv_lhs => rw [drop_eq_char_at_cons text match_idx hm, glob_star_cons,
              ← drop_eq_char_at_cons text match_idx hm, hfail, Bool.false_or]
    · -- the end of the text
      rw [if_neg hi] at hloop
      simp only [Option.some.injEq] at hloop
      subst hloop
      have hti : text.drop i = [] := List.drop_eq_nil_of_le (by omega)
      refine ⟨?_, fun j' h => by simp only [Option.some.injEq] at h; omega⟩
      cases star_idx with
      | none =>
        simp only at hinv
        rw [hinv, hti, glob_nil_text]
        rfl
      | some s =>
        simp only at hinv
        obtain ⟨hs, heq, seg, v, hp, ht, hsf, hsm⟩ := hinv
        rw [hti, List.append_nil] at ht
        rw [heq, hp, ht, glob_star_seg_end seg v _ hsf hsm]
        rfl

theorem skip_stars_eq (pattern : Str) (fuel : Nat) : ∀ j, j ≤ pattern.length →
    pattern.length ≤ j + fuel →
    (skip_stars pattern fuel j == pattern.length) =
      (pattern.drop j).all (fun c => c == '*') := by
  induction fuel with
  | zero =>
    intro j h1 h2
    have : j = pattern.length := by omega
    subst this
    simp [skip_stars]
  | succ fuel ih =>
    intro j h1 h2
    unfold skip_stars
    by_cases h : j < pattern.length ∧ char_at pattern j = '*'
    · rw [if_pos h, ih (j + 1) (by omega) (by omega), drop_eq_char_at_cons pattern j h.1, h.2]
      simp
    · rw [if_neg h]
      by_cases hj : j < pattern.length
      · have hx : char_at pattern j ≠ '*' := fun hc => h ⟨hj, hc⟩
        rw [drop_eq_char_at_cons pattern j hj]
        have : (j == pattern.length) = false := by simp; omega
        simp [this, hx]
      · have : j = pattern.length := by omega
        subst this
        simp

/-- On a name without a star, `wildcard_match` is the declarative matcher. -/
theorem wildcard_match_eq_glob (name pattern : Str) (hfree : '*' ∉ name) :
    wildcard_match name pattern = glob_match pattern name := by
  obtain ⟨r, hr⟩ := wildcard_loop_fuel_suffices name pattern
  have hinv : wild_inv name pattern 0 0 none 0 := ⟨Nat.zero_le _, by simp⟩
  obtain ⟨hres, hle⟩ := wildcard_loop_correct name pattern hfree _ 0 0 none 0 r hinv hr
  unfold wildcard_match
  rw [hr, hres]
  cases r with
  | none => rfl
  | some j =>
    simp only [wild_result]
    exact skip_stars_eq pattern pattern.length j (hle j rfl) (by omega)

theorem glob_literal (pattern : Str) (hlit : ∀ c ∈ pattern, c ≠ '*' ∧ c ≠ '?') :
    ∀ name : Str, glob_match pattern name = true ↔ name = pattern := by
  induction pattern with
  | nil =>
    intro name
    rw [glob_nil]
    cases name <;> simp
  | cons p ps ih =>
    intro name
    obtain ⟨hs, hq⟩ := hlit p (List.mem_cons_self _ _)
    have ih' := ih (fun c hc => hlit c (List.mem_cons_of_mem _ hc))
    cases name with
    | nil => rw [glob_cons_nil p ps hs]; simp
    | cons c cs =>
      rw [glob_cons_cons p ps c cs hs, Bool.and_eq_true, ih' cs]
      have : (p == '?') = false := by simpa using hq
      rw [this, Bool.false_or, beq_iff_eq, List.cons.injEq]
      constructor
      · rintro ⟨h1, h2⟩; exact ⟨h1.symm, h2⟩
      · rintro ⟨h1, h2⟩; exact ⟨h1.symm, h2⟩

/-- C17: on every name without a `*`, `wildcard_match` agrees with the
declarative shell matcher for every pattern; in particular the pattern `*`
matches every such name, and a pattern without `*` and `?` matches exactly the
name equal to it. -/
theorem C17_wildcard_match_star_free_names (name pattern : Str) (hname : '*' ∉ name) :
    wildcard_match name pattern = glob_match pattern name ∧
    wildcard_match name ['*'] = true ∧
    ((∀ c ∈ pattern, c ≠ '*' ∧ c ≠ '?') →
      (wildcard_match name pattern = true ↔ name = pattern)) := by
  refine ⟨wildcard_match_eq_glob name pattern hname, ?_, ?_⟩
  · rw [wildcard_match_eq_glob name ['*'] hname, glob_star_iff]
    exact ⟨[], List.nil_suffix, rfl⟩
  · intro hlit
    rw [wildcard_match_eq_glob name pattern hname]
    exact glob_literal pattern hlit name

/-- C17 on the name `a.tar.gz`: it matches `*.tar.*` as the declarative matcher
says, and the literal pattern `a.tar.gz` matches it. -/
theorem C17_wildcard_match_star_free_names_witness :
    '*' ∉ "a.tar.gz".toList ∧
    wildcard_match "a.tar.gz".toList "*.tar.*".toList =
      glob_match "*.tar.*".toList "a.tar.gz".toList ∧
    glob_match "*.tar.*".toList "a.tar.gz".toList = true ∧
    (∀ c ∈ "a.tar.gz".toList, c ≠ '*' ∧ c ≠ '?') ∧
    (wildcard_match "a.tar.gz".toList "a.tar.gz".toList = true ↔
      "a.tar.gz".toList = "a.tar.gz".toList) :=
  ⟨by decide,
    (C17_wildcard_match_star_free_names "a.tar.gz".toList "*.tar.*".toList (by decide)).1,
    by decide, by decide,
    (C17_wildcard_match_star_free_names "a.tar.gz".toList "a.tar.gz".toList
      (by decide)).2.2 (by decide)⟩

/-- C18: the loops of `wildcard_match` terminate on every name and pattern.  The
main loop ends within `(|text| + 1) * (|pattern| + 1) + 1` iterations, either by
`return false` or by reaching the end of the text; the loop that skips the
trailing stars then stops within `|pattern|` iterations, at an index where its
condition fails. -/
theorem C18_wildcard_match_terminates (text pattern : Str) :
    (wildcard_loop text pattern (wildcard_fuel text pattern) 0 0 none 0 = some none ∨
      ∃ j, wildcard_loop text pattern (wildcard_fuel text pattern) 0 0 none 0 = some (some j)) ∧
    ∀ j, ¬ (skip_stars pattern pattern.length j < pattern.length ∧
      char_at pattern (skip_stars pattern pattern.length j) = '*') := by
  constructor
  · obtain ⟨r, hr⟩ := wildcard_loop_fuel_suffices text pattern
    cases r with
    | none => exact Or.inl hr
    | some j => exact Or.inr ⟨j, hr⟩
  · intro j
    exact skip_stars_stops pattern pattern.length j (by omega)

/-! ## Filters on the examples of the specification -/

/-- C15: an empty pattern-spec matches every name, the empty name included. -/
theorem C15_empty_spec_matches_all (rx : Str → Option (Str → Bool)) (name : Str) :
    matches_filter rx name [] = true := by
  simp [matches_filter]

/-- C16: the wildcard examples of the specification hold for `matches_filter`,
whatever the regular expression library: `file.txt` matches `*.txt` and not
`*.lua`, `a` matches `?` and `ab` does not. -/
theorem C16_wildcard_examples (rx : Str → Option (Str → Bool)) :
    matches_filter rx "file.txt".toList "*.txt".toList = true ∧
    matches_filter rx "file.txt".toList "*.lua".toList = false ∧
    matches_filter rx "a".toList "?".toList = true ∧
    matches_filter rx "ab".toList "?".toList = false := by
  have h : ∀ name spec : Str, spec.isEmpty = false → ¬ (substr spec 0 6 = "regex:".toList) →
      matches_filter rx name spec = matches_filter no_regex name spec := by
    intro name spec h1 h2
    simp only [matches_filter, h1, h2, if_false, Bool.false_eq_true]
  refine ⟨?_, ?_, ?_, ?_⟩
  · rw [h _ _ (by decide) (by decide)]; decide
  · rw [h _ _ (by decide) (by decide)]; decide
  · rw [h _ _ (by decide) (by decide)]; decide
  · rw [h _ _ (by decide) (by decide)]; decide

/-! ## Size column and size text -/

/-- C11 fails on the code: for a file at depth 1 named with fifty letters `a` and
500 bytes long, the undecorated line has 67 code units; `snprintf` into the
buffer of 64 keeps the first 63 of them, so the line `output_tree` emits holds
only 46 letters of the name and nothing of the size text `500 B`. -/
theorem C11_size_column_truncates :
    (tree_line_plain {} sample_long_file).length = 67 ∧
    format_size sample_long_file.size = "500 B".toList ∧
    tree_line { show_size := true } sample_long_file =
      TREE_TEE ++ "[FILE] ".toList ++ List.replicate 46 'a' ∧
    tree_line { show_size := true } sample_long_file ≠
      tree_line_plain {} sample_long_file ++
        List.replicate (50 - (tree_line_plain {} sample_long_file).length) ' ' ++
        format_size sample_long_file.size := by
  decide

theorem format_fixed1_eq (num den : Nat) (hden : 0 < den) :
    ∃ t, is_nearest_tenth t num den ∧ t ≤ 10 * num / den + 1 ∧
      format_fixed1 num den = one_decimal t := by
  have hA : 10 * num / den * den + 10 * num % den = 10 * num := by
    rw [Nat.mul_comm]
    exact Nat.div_add_mod _ _
  have hr : 10 * num % den < den := Nat.mod_lt _ hden
  by_cases hc : 2 * (10 * num % den) > den ∨
      (2 * (10 * num % den) = den ∧ 10 * num / den % 2 = 1)
  · refine ⟨10 * num / den + 1, ?_, Nat.le_refl _, ?_⟩
    · have h2 : den ≤ 2 * (10 * num % den) := by
        rcases hc with h | h
        · omega
        · omega
      have e1 : 2 * (10 * num / den + 1) * den = 2 * (10 * num / den * den) + 2 * den := by
        ring
      have e2 : (2 * (10 * num / den + 1) + 1) * den =
          2 * (10 * num / den * den) + 3 * den := by ring
      unfold is_nearest_tenth
      rw [e1, e2]
      constructor <;> omega
    · simp only [format_fixed1, one_decimal, to_string, if_pos hc]
  · refine ⟨10 * num / den, ?_, Nat.le_succ _, ?_⟩
    · have h2 : 2 * (10 * num % den) ≤ den := by
        by_contra h
        exact hc (Or.inl (by omega))
      have e1 : 2 * (10 * num / den) * den = 2 * (10 * num / den * den) := by ring
      have e2 : (2 * (10 * num / den) + 1) * den = 2 * (10 * num / den * den) + den := by
        ring
      unfold is_nearest_tenth
      rw [e1, e2]
      constructor <;> omega
    · simp only [format_fixed1, one_decimal, to_string, if_neg hc]

theorem to_string_length (x e : Nat) (he : 0 < e) (hx : x < 10 ^ e) :
    (to_string x).length ≤ e :=
  Nat.toDigitsCore_length 10 (by decide) (x + 1) x e hx he

theorem one_decimal_length (t : Nat) (ht : t < 10 ^ 25) : (one_decimal t).length ≤ 27 := by
  have h1 := to_string_length (t / 10) 25 (by decide) (by omega)
  have h2 := to_string_length (t % 10) 1 (by decide) (by omega)
  simp only [one_decimal, List.length_append, List.length_singleton]
  omega

theorem to_double_le (n : Nat) : to_double n ≤ 2 * n := by
  unfold to_double
  by_cases h1 : n < 2 ^ 53
  · rw [if_pos h1]
    omega
  · rw [if_neg h1]
    have hn : n ≠ 0 := by
      intro h0
      rw [h0] at h1
      exact h1 (by decide)
    have hpow : 2 ^ (Nat.log2 n + 1 - 53) ≤ n := by
      calc 2 ^ (Nat.log2 n + 1 - 53) ≤ 2 ^ Nat.log2 n :=
            Nat.pow_le_pow_right (by decide) (by omega)
        _ ≤ n := Nat.log2_self_le hn
    have hq : n / 2 ^ (Nat.log2 n + 1 - 53) * 2 ^ (Nat.log2 n + 1 - 53) ≤ n :=
      Nat.div_mul_le_self _ _
    simp only
    split_ifs
    · rw [Nat.add_mul, Nat.one_mul]
      omega
    · omega

theorem format_size_big (n : Nat) (h1 : 1024 * 1024 ≤ n) (h2 : n < 2 ^ 64) :
    ∃ t, is_nearest_tenth t (to_double n) (1024 * 1024) ∧
      format_size n = one_decimal t ++ " MB".toList := by
  obtain ⟨t, ht, hle, heq⟩ := format_fixed1_eq (to_double n) (1024 * 1024) (by decide)
  refine ⟨t, ht, ?_⟩
  have hd := to_double_le n
  have hq : 10 * to_double n / (1024 * 1024) ≤ 10 * to_double n := Nat.div_le_self _ _
  have hlen := one_decimal_length t (by
    have : (2 : Nat) ^ 64 < 10 ^ 20 := by decide
    have : (10 : Nat) ^ 20 * 100 < 10 ^ 25 := by decide
    omega)
  unfold format_size
  rw [if_neg (by omega), if_neg (by omega), heq, List.take_of_length_le]
  simp only [List.length_append]
  have : (" MB".toList).length = 3 := rfl
  omega

theorem format_size_kb (n : Nat) (h1 : 1024 ≤ n) (h2 : n < 1024 * 1024) :
    ∃ t, is_nearest_tenth t n 1024 ∧ format_size n = one_decimal t ++ " KB".toList := by
  have hdbl : to_double n = n := by
    unfold to_double
    rw [if_pos (by
      have : (1024 : Nat) * 1024 < 2 ^ 53 := by decide
      omega)]
  obtain ⟨t, ht, hle, heq⟩ := format_fixed1_eq n 1024 (by decide)
  refine ⟨t, ht, ?_⟩
  have hq : 10 * n / 1024 ≤ 10 * n := Nat.div_le_self _ _
  have hlen := one_decimal_length t (by
    have : (10 : Nat) ^ 8 < 10 ^ 25 := by decide
    omega)
  unfold format_size
  rw [if_neg (by omega), if_pos h2, hdbl, heq, List.take_of_length_le]
  simp only [List.length_append]
  have : (" KB".toList).length = 3 := rfl
  omega

/-- C14, the claim as stated fails: for the byte count 9007199254793421 (above
`2^53`) the quotient by `1024 * 1024` is 8589934592.0500001..., whose nearest
tenth is 8589934592.1, but `format_size` divides the `double` nearest to the
count, 9007199254793420, and prints `8589934592.0 MB`. -/
theorem C14_large_size_counterexample :
    format_size 9007199254793421 = "8589934592.0 MB".toList ∧
    one_decimal 85899345920 = "8589934592.0".toList ∧
    ¬ is_nearest_tenth 85899345920 9007199254793421 (1024 * 1024) ∧
    is_nearest_tenth 85899345921 9007199254793421 (1024 * 1024) := by
  have hlog : Nat.log2 9007199254793421 = 53 := by norm_num [Nat.log2]
  refine ⟨?_, by decide, ?_, ?_⟩
  · unfold format_size to_double
    rw [hlog]
    decide
  · unfold is_nearest_tenth
    decide
  · unfold is_nearest_tenth
    decide

/-- C14, amended: `format_size n` is the decimal numeral of `n` followed by ` B`
below 1024; a nearest tenth of `n / 1024` with one fractional digit followed by
` KB` from 1024 up to `1024 * 1024`; and from there on a nearest tenth of
`n / (1024 * 1024)` followed by ` MB` as long as `n < 2^53`.  For larger counts
(a `uintmax_t` is below `2^64`) the quotient is taken of the `double` nearest to
`n`.  In particular 500 gives `500 B`, 2048 gives `2.0 KB` and `3 * 1024 * 1024`
gives `3.0 MB`. -/
theorem C14_format_size (n : Nat) :
    (n < 1024 → format_size n = to_string n ++ " B".toList) ∧
    (1024 ≤ n → n < 1024 * 1024 →
      ∃ t, is_nearest_tenth t n 1024 ∧ format_size n = one_decimal t ++ " KB".toList) ∧
    (1024 * 1024 ≤ n → n < 2 ^ 53 →
      ∃ t, is_nearest_tenth t n (1024 * 1024) ∧
        format_size n = one_decimal t ++ " MB".toList) ∧
    (2 ^ 53 ≤ n → n < 2 ^ 64 →
      ∃ t, is_nearest_tenth t (to_double n) (1024 * 1024) ∧
        format_size n = one_decimal t ++ " MB".toList) ∧
    format_size 500 = "500 B".toList ∧
    format_size 2048 = "2.0 KB".toList ∧
    format_size (3 * 1024 * 1024) = "3.0 MB".toList := by
  refine ⟨?_, format_size_kb n, ?_, ?_, by decide, by decide, by decide⟩
  · intro h
    simp [format_size, h]
  · intro h1 h2
    have hdbl : to_double n = n := by
      unfold to_double
      rw [if_pos h2]
    have := format_size_big n h1 (by
      have : (2 : Nat) ^ 53 < 2 ^ 64 := by decide
      omega)
    rwa [hdbl] at this
  · intro h1 h2
    exact format_size_big n (by
      have : (1024 : Nat) * 1024 < 2 ^ 53 := by decide
      omega) h2

/-- C14 on 1023, 1088, 1572864 and `2^53`: `1023 B`, `1.1 KB`, `1.5 MB` and
`8589934592.0 MB`. -/
theorem C14_format_size_witness :
    ((1023 : Nat) < 1024 ∧ format_size 1023 = to_string 1023 ++ " B".toList) ∧
    ((1024 : Nat) ≤ 1088 ∧ (1088 : Nat) < 1024 * 1024 ∧
      ∃ t, is_nearest_tenth t 1088 1024 ∧ format_size 1088 = one_decimal t ++ " KB".toList) ∧
    ((1024 : Nat) * 1024 ≤ 1572864 ∧ (1572864 : Nat) < 2 ^ 53 ∧
      ∃ t, is_nearest_tenth t 1572864 (1024 * 1024) ∧
        format_size 1572864 = one_decimal t ++ " MB".toList) ∧
    ((2 : Nat) ^ 53 ≤ 2 ^ 53 ∧ (2 : Nat) ^ 53 < 2 ^ 64 ∧
      ∃ t, is_nearest_tenth t (to_double (2 ^ 53)) (1024 * 1024) ∧
        format_size (2 ^ 53) = one_decimal t ++ " MB".toList) :=
  ⟨⟨by decide, (C14_format_size 1023).1 (by decide)⟩,
   ⟨by decide, by decide, (C14_format_size 1088).2.1 (by decide) (by decide)⟩,
   ⟨by decide, by decide, (C14_format_size 1572864).2.2.1 (by decide) (by decide)⟩,
   ⟨by decide, by decide, (C14_format_size (2 ^ 53)).2.2.2.1 (by decide) (by decide)⟩⟩

/-! ## The JSON renderer -/

/-- The two or one characters `escape_json_path` writes for one character. -/
theorem escape_json_path_foldl (s acc : Str) :
    s.foldl
      (fun result c =>
        if c = '\\' then result ++ ['\\', '\\']
        else if c = '"' then result ++ ['\\', '"']
        else result ++ [c]) acc =
    acc ++ s.flatMap (fun c =>
      if c = '\\' then ['\\', '\\'] else if c = '"' then ['\\', '"'] else [c]) := by
  induction s generalizing acc with
  | nil => simp
  | cons c cs ih =>
    rw [List.foldl_cons, ih, List.flatMap_cons]
    split_ifs <;> simp

theorem escape_json_path_nil : escape_json_path [] = [] := rfl

theorem escape_json_path_cons (c : Char) (cs : Str) :
    escape_json_path (c :: cs) =
      (if c = '\\' then ['\\', '\\'] else if c = '"' then ['\\', '"'] else [c]) ++
        escape_json_path cs := by
  simp only [escape_json_path, escape_json_path_foldl, List.flatMap_cons, List.nil_append]

theorem unescape_escape (s : Str) : unescape_json_path (escape_json_path s) = s := by
  induction s with
  | nil => rfl
  | cons c cs ih =>
    rw [escape_json_path_cons]
    by_cases h1 : c = '\\'
    · subst h1
      simp [unescape_json_path, ih]
    · by_cases h2 : c = '"'
      · subst h2
        simp [unescape_json_path, ih]
      · rw [if_neg h1, if_neg h2]
        simp only [List.singleton_append]
        cases he : escape_json_path cs with
        | nil =>
          rw [he] at ih
          simp only [unescape_json_path] at ih ⊢
          rw [← ih]
        | cons d rest =>
          rw [he] at ih
          rw [unescape_json_path, if_neg (by simp [h1]), ih]

theorem trailing_backslashes_cons (c : Char) (s : Str) :
    trailing_backslashes (c :: s) =
      if s.all (fun x => x == '\\') then (if c = '\\' then s.length + 1 else s.length)
      else trailing_backslashes s := by
  unfold trailing_backslashes
  rw [List.reverse_cons, List.takeWhile_append]
  by_cases h : s.all (fun x => x == '\\') = true
  · have hall : ∀ x ∈ s.reverse, (x == '\\') = true := by
      intro x hx
      exact List.all_eq_true.1 h x (List.mem_reverse.1 hx)
    have htw : s.reverse.takeWhile (fun c => c == '\\') = s.reverse := by
      rw [List.takeWhile_eq_self_iff]
      exact hall
    rw [htw, if_pos h]
    by_cases hc : c = '\\'
    · simp [hc]
    · simp [hc]
  · rw [if_neg h]
    have hlen : (s.reverse.takeWhile (fun c => c == '\\')).length ≠ s.reverse.length := by
      intro hl
      apply h
      have := (List.takeWhile_eq_self_iff.1 (List.IsPrefix.eq_of_length
        (List.takeWhile_prefix _) hl))
      rw [List.all_eq_true]
      intro x hx
      exact this x (List.mem_reverse.2 hx)
    rw [if_neg hlen]

/-- Every quotation mark of an escaped string follows an odd run of backslashes. -/
theorem escape_quote_odd (s : Str) : ∀ pre post : Str,
    escape_json_path s = pre ++ '"' :: post → trailing_backslashes pre % 2 = 1 := by
  induction s with
  | nil =>
    intro pre post h
    rw [escape_json_path_nil] at h
    cases pre <;> simp at h
  | cons c cs ih =>
    intro pre post h
    rw [escape_json_path_cons] at h
    have hpar : ∀ (a : Char) (p : Str), trailing_backslashes p % 2 = 1 → a ≠ '\\' →
        trailing_backslashes (a :: p) % 2 = 1 := by
      intro a p hp ha
      rw [trailing_backslashes_cons]
      split_ifs with hall
      · have : trailing_backslashes p = p.length := by
          unfold trailing_backslashes
          rw [List.takeWhile_eq_self_iff.2, List.length_reverse]
          intro x hx
          exact List.all_eq_true.1 hall x (List.mem_reverse.1 hx)
        omega
      · exact hp
    by_cases h1 : c = '\\'
    · subst h1
      simp only [if_true, List.cons_append, List.nil_append] at h
      match pre, h with
      | [], h => simp at h
      | [a], h => simp at h
      | a :: b :: pre', h =>
        simp only [List.cons_append, List.cons.injEq] at h
        obtain ⟨rfl, rfl, h⟩ := h
        have hp := ih pre' post h
        rw [trailing_backslashes_cons, trailing_backslashes_cons]
        by_cases hall : pre'.all (fun x => x == '\\') = true
        · have : trailing_backslashes pre' = pre'.length := by
            unfold trailing_backslashes
            rw [List.takeWhile_eq_self_iff.2, List.length_reverse]
            intro x hx
            exact List.all_eq_true.1 hall x (List.mem_reverse.1 hx)
          simp [hall]
          omega
        · simp [hall, hp]
    · by_cases h2 : c = '"'
      · rw [if_neg h1, if_pos h2] at h
        subst h2
        simp only [List.cons_append, List.nil_append] at h
        match pre, h with
        | [], h => simp at h
        | [a], h =>
          simp only [List.cons_append, List.nil_append, List.cons.injEq] at h
          obtain ⟨rfl, _⟩ := h
          decide
        | a :: b :: pre', h =>
          simp only [List.cons_append, List.cons.injEq] at h
          obtain ⟨rfl, rfl, h⟩ := h
          have hp := ih pre' post h
          have hq := hpar '"' pre' hp (by decide)
          rw [trailing_backslashes_cons]
          have hnall : ¬ (('"' :: pre').all (fun x => x == '\\') = true) := by simp
          rw [if_neg hnall]
          exact hq
      · rw [if_neg h1, if_neg h2] at h
        match pre, h with
        | [], h =>
          simp only [List.nil_append, List.singleton_append, List.cons.injEq] at h
          exact absurd h.1 h2
        | a :: pre', h =>
          simp only [List.cons_append, List.singleton_append, List.nil_append,
            List.cons.injEq] at h
          obtain ⟨rfl, h⟩ := h
          exact hpar c pre' (ih pre' post h) h1

/-- C19: `escape_json_path` loses no information and leaves no bare delimiter.
The standard unescape gives the string back, so the function is injective, and
wherever a quotation mark stands in the escaped string, the run of backslashes
right before it has odd length. -/
theorem C19_escape_json_path_faithful :
    (∀ s : Str, unescape_json_path (escape_json_path s) = s) ∧
    Function.Injective escape_json_path ∧
    (∀ s pre post : Str, escape_json_path s = pre ++ '"' :: post →
      Odd (trailing_backslashes pre)) := by
  refine ⟨unescape_escape, ?_, ?_⟩
  · intro a b h
    rw [← unescape_escape a, ← unescape_escape b, h]
  · intro s pre post h
    rw [Nat.odd_iff]
    exact escape_quote_odd s pre post h

/-- C19 on the string `a"b\`: the escaped form is `a\"b\\`, and the quotation
mark in it follows one backslash. -/
theorem C19_escape_json_path_faithful_witness :
    escape_json_path ['a', '"', 'b', '\\'] = ['a', '\\'] ++ '"' :: ['b', '\\', '\\'] ∧
    Odd (trailing_backslashes ['a', '\\']) :=
  ⟨by decide,
    C19_escape_json_path_faithful.2.2 ['a', '"', 'b', '\\'] ['a', '\\'] ['b', '\\', '\\']
      (by decide)⟩

theorem digitChar_isDigit (m : Nat) (h : m < 10) : (Nat.digitChar m).isDigit = true := by
  interval_cases m <;> decide

theorem digitChar_ne_zero (m : Nat) (h0 : 0 < m) (h : m < 10) : Nat.digitChar m ≠ '0' := by
  interval_cases m <;> decide

theorem toDigitsCore_isDigit (fuel : Nat) : ∀ (n : Nat) (ds : List Char),
    (∀ c ∈ ds, c.isDigit = true) → ∀ c ∈ Nat.toDigitsCore 10 fuel n ds, c.isDigit = true := by
  induction fuel with
  | zero => intro n ds h; simpa [Nat.toDigitsCore] using h
  | succ fuel ih =>
    intro n ds h
    have hd : ∀ c ∈ Nat.digitChar (n % 10) :: ds, c.isDigit = true := by
      intro c hc
      rcases List.mem_cons.1 hc with rfl | hc
      · exact digitChar_isDigit _ (Nat.mod_lt _ (by decide))
      · exact h c hc
    simp only [Nat.toDigitsCore]
    split_ifs
    · exact hd
    · exact ih _ _ hd

theorem toDigitsCore_head (fuel : Nat) : ∀ (n : Nat) (ds : List Char), n < fuel → 0 < n →
    ∃ c rest, Nat.toDigitsCore 10 fuel n ds = c :: rest ∧ c ≠ '0' := by
  induction fuel with
  | zero => intro n ds h; omega
  | succ fuel ih =>
    intro n ds hf hn
    simp only [Nat.toDigitsCore]
    split_ifs with h0
    · refine ⟨_, _, rfl, ?_⟩
      have : n < 10 := by
        by_contra hc
        have : 1 ≤ n / 10 := (Nat.le_div_iff_mul_le (by decide)).2 (by omega)
        omega
      rw [Nat.mod_eq_of_lt this]
      exact digitChar_ne_zero n hn this
    · have h1 : n / 10 < n := Nat.div_lt_self hn (by decide)
      exact ih _ _ (by omega) (Nat.pos_of_ne_zero h0)

theorem to_string_digits (n : Nat) : ∀ c ∈ to_string n, c.isDigit = true :=
  toDigitsCore_isDigit _ _ _ (by simp)

theorem to_string_head (n : Nat) :
    to_string n = ['0'] ∨ ∃ c rest, to_string n = c :: rest ∧ c ≠ '0' := by
  rcases Nat.eq_zero_or_pos n with rfl | hn
  · left; rfl
  · right; exact toDigitsCore_head _ _ _ (Nat.lt_succ_self _) hn

theorem takeWhile_all {α : Type} (p : α → Bool) (l : List α) (h : ∀ x ∈ l, p x = true) :
    l.takeWhile p = l := List.takeWhile_eq_self_iff.2 h

theorem dropWhile_all {α : Type} (p : α → Bool) (l : List α) (h : ∀ x ∈ l, p x = true) :
    l.dropWhile p = [] := by
  induction l with
  | nil => rfl
  | cons x xs ih =>
    rw [List.dropWhile_cons, if_pos (h x (List.mem_cons_self _ _))]
    exact ih (fun y hy => h y (List.mem_cons_of_mem _ hy))

theorem json_number_to_string (n : Nat) : json_number (to_string n) = true := by
  have hd := to_string_digits n
  have hne : (to_string n).head? ≠ some '-' := by
    intro h
    cases hs : to_string n with
    | nil => rw [hs] at h; simp at h
    | cons c rest =>
      rw [hs] at h hd
      simp only [List.head?_cons, Option.some.injEq] at h
      have := hd c (List.mem_cons_self _ _)
      rw [h] at this
      exact absurd this (by decide)
  unfold json_number
  have hb : ((to_string n).head? == some '-') = false := by
    cases hh : ((to_string n).head? == some '-')
    · rfl
    · exact absurd (by simpa using hh) hne
  simp only [hb, Bool.false_eq_true, if_false, takeWhile_all _ _ hd, dropWhile_all _ _ hd,
    List.head?_nil, List.tail_nil]
  have hall : (to_string n).all
      (fun c => c.isDigit || c == '-' || c == '+' || c == '.' || c == 'e' || c == 'E') = true := by
    rw [List.all_eq_true]
    intro c hc
    simp [hd c hc]
  rw [hall]
  rcases to_string_head n with h0 | ⟨c, rest, hs, hc⟩
  · rw [h0]; decide
  · rw [hs]
    have : (c == '0') = false := by simpa using hc
    simp [this]

theorem JsonChars_of_plain (s : Str) (h : json_plain s = true) : JsonChars s := by
  induction s with
  | nil => exact JsonChars.nil
  | cons c cs ih =>
    simp only [json_plain, List.all_cons, Bool.and_eq_true, bne_iff_ne, ne_eq,
      decide_eq_true_eq] at h
    exact JsonChars.plain c cs h.1.1.1 h.1.1.2 h.1.2 (ih (by simpa [json_plain] using h.2))

theorem JsonChars_escape (s : Str) (h : no_control s = true) :
    JsonChars (escape_json_path s) := by
  induction s with
  | nil => exact JsonChars.nil
  | cons c cs ih =>
    simp only [no_control, List.all_cons, Bool.and_eq_true, decide_eq_true_eq] at h
    have ih' := ih (by simpa [no_control] using h.2)
    rw [escape_json_path_cons]
    by_cases h1 : c = '\\'
    · rw [if_pos h1]
      exact JsonChars.escape '\\' _ (by simp) ih'
    · by_cases h2 : c = '"'
      · rw [if_neg h1, if_pos h2]
        exact JsonChars.escape '"' _ (by simp) ih'
      · rw [if_neg h1, if_neg h2]
        exact JsonChars.plain c _ h2 h1 h.1 ih'

theorem Json_quote (s : Str) (h : JsonChars s) : Json JsonKind.value (json_quote s) :=
  Json.string s h

theorem json_chars_ge (s : Str) (h : JsonChars s) : ∀ c ∈ s, 0x20 ≤ c.toNat := by
  induction h with
  | nil => simp
  | plain c rest hq hb hc h ih =>
    intro x hx
    rcases List.mem_cons.1 hx with rfl | hx
    · exact hc
    · exact ih x hx
  | escape c rest hc h ih =>
    intro x hx
    rcases List.mem_cons.1 hx with rfl | hx
    · decide
    · rcases List.mem_cons.1 hx with rfl | hx
      · simp only [List.mem_cons, List.mem_singleton, List.not_mem_nil, or_false] at hc
        rcases hc with rfl | rfl | rfl | rfl | rfl | rfl | rfl | rfl <;> decide
      · exact ih x hx
  | unicode a b c d rest ha hb hc hd h ih =>
    have hex : ∀ y : Char, is_hex_digit y = true → 0x20 ≤ y.toNat := by
      intro y hy
      simp only [is_hex_digit, Bool.or_eq_true, Bool.and_eq_true, decide_eq_true_eq] at hy
      omega
    intro x hx
    simp only [List.mem_cons] at hx
    rcases hx with rfl | rfl | rfl | rfl | rfl | rfl | hx
    · decide
    · decide
    · exact hex _ ha
    · exact hex _ hb
    · exact hex _ hc
    · exact hex _ hd
    · exact ih x hx


theorem isDigit_ge (c : Char) (h : c.isDigit = true) : 0x20 ≤ c.toNat := by
  simp only [Char.isDigit, Bool.and_eq_true, decide_eq_true_eq, ge_iff_le] at h
  have h1 : (48 : UInt32) ≤ c.val := h.1
  have h2 : (48 : UInt32).toNat ≤ c.val.toNat := h1
  have h3 : (48 : UInt32).toNat = 48 := rfl
  have h4 : c.toNat = c.val.toNat := rfl
  omega

theorem json_number_chars (s : Str) (h : json_number s = true) : ∀ c ∈ s, 0x20 ≤ c.toNat := by
  unfold json_number at h
  simp only [Bool.and_eq_true] at h
  have hall := List.all_eq_true.1 h.1.1.1
  intro c hc
  have := hall c hc
  simp only [Bool.or_eq_true, beq_iff_eq] at this
  rcases this with ((((hd | rfl) | rfl) | rfl) | rfl) | rfl
  · exact isDigit_ge c hd
  all_goals decide

/-- Every code unit of a JSON text is white space or at least `0x20`: no other
control character occurs anywhere in it. -/
theorem json_no_control (k : JsonKind) (s : Str) (h : Json k s) :
    ∀ c ∈ s, 0x20 ≤ c.toNat ∨ is_json_ws c = true := by
  have hws : ∀ w : Str, json_ws w = true → ∀ c ∈ w, 0x20 ≤ c.toNat ∨ is_json_ws c = true :=
    fun w hw c hc => Or.inr (List.all_eq_true.1 hw c hc)
  induction h with
  | lit_null => decide
  | lit_true => decide
  | lit_false => decide
  | number s h => exact fun c hc => Or.inl (json_number_chars s h c hc)
  | string s h =>
    intro c hc
    simp only [List.mem_cons, List.mem_append, List.mem_singleton, List.not_mem_nil,
      or_false] at hc
    rcases hc with (rfl | hc) | rfl
    · left; decide
    · exact Or.inl (json_chars_ge s h c hc)
    · left; decide
  | empty_array w hw =>
    intro c hc
    simp only [List.mem_cons, List.mem_append, List.mem_singleton, List.not_mem_nil,
      or_false] at hc
    rcases hc with (rfl | hc) | rfl
    · left; decide
    · exact hws w hw c hc
    · left; decide
  | array es h ih =>
    intro c hc
    simp only [List.mem_cons, List.mem_append, List.mem_singleton, List.not_mem_nil,
      or_false] at hc
    rcases hc with (rfl | hc) | rfl
    · left; decide
    · exact ih c hc
    · left; decide
  | empty_object w hw =>
    intro c hc
    simp only [List.mem_cons, List.mem_append, List.mem_singleton, List.not_mem_nil,
      or_false] at hc
    rcases hc with (rfl | hc) | rfl
    · left; decide
    · exact hws w hw c hc
    · left; decide
  | object ms h ih =>
    intro c hc
    simp only [List.mem_cons, List.mem_append, List.mem_singleton, List.not_mem_nil,
      or_false] at hc
    rcases hc with (rfl | hc) | rfl
    · left; decide
    · exact ih c hc
    · left; decide
  | element w1 v w2 h1 h h2 ih =>
    intro c hc
    simp only [List.mem_append] at hc
    rcases hc with (hc | hc) | hc
    · exact hws w1 h1 c hc
    · exact ih c hc
    · exact hws w2 h2 c hc
  | elements_one e h ih => exact ih
  | elements_more e rest h hr ih ihr =>
    intro c hc
    simp only [List.mem_append, List.mem_cons] at hc
    rcases hc with hc | rfl | hc
    · exact ih c hc
    · left; decide
    · exact ihr c hc
  | member w1 k w2 e h1 hk h2 h ih =>
    intro c hc
    simp only [List.mem_append, List.mem_cons] at hc
    rcases hc with ((hc | rfl | hc) | rfl | hc) | rfl | hc
    · exact hws w1 h1 c hc
    · left; decide
    · exact Or.inl (json_chars_ge k hk c hc)
    · left; decide
    · exact hws w2 h2 c hc
    · left; decide
    · exact ih c hc
  | members_one m h ih => exact ih
  | members_more m rest h hr ih ihr =>
    intro c hc
    simp only [List.mem_append, List.mem_cons] at hc
    rcases hc with hc | rfl | hc
    · exact ih c hc
    · left; decide
    · exact ihr c hc

theorem json_lines_drop (opt : Options) (files : List FileInfo) (i : Nat)
    (h : i < files.length) :
    json_lines opt (files.drop i) =
      json_element opt (files.get ⟨i, h⟩) (decide (i < files.length - 1)) ++
        json_lines opt (files.drop (i + 1)) := by
  rw [List.drop_eq_getElem_cons h]
  cases hd : files.drop (i + 1) with
  | nil =>
    have hl : (files.drop (i + 1)).length = 0 := by rw [hd]; rfl
    rw [List.length_drop] at hl
    have : ¬ (i < files.length - 1) := by omega
    simp [json_lines, this]
  | cons g rest =>
    have hl : (files.drop (i + 1)).length = rest.length + 1 := by rw [hd]; rfl
    rw [List.length_drop] at hl
    have : i < files.length - 1 := by omega
    simp [json_lines, this]

theorem output_json_loop_eq (files : List FileInfo) (opt : Options) (fuel : Nat) :
    ∀ (i : Nat) (result : Str), i ≤ files.length → files.length - i < fuel →
      output_json_loop files opt fuel i result =
        some (result ++ json_lines opt (files.drop i)) := by
  induction fuel with
  | zero => intro i result _ h; omega
  | succ fuel ih =>
    intro i result hi hf
    unfold output_json_loop
    by_cases h : i < files.length
    · rw [dif_pos h, ih (i + 1) _ (by omega) (by omega), json_lines_drop opt files i h,
        List.append_assoc]
    · rw [dif_neg h]
      have : files.drop i = [] := List.drop_eq_nil_of_le (by omega)
      simp [this, json_lines]

theorem output_json_eq (files : List FileInfo) (root : Str) (opt : Options) :
    output_json files root opt = json_header root ++ json_lines opt files ++ json_footer := by
  unfold output_json
  rw [output_json_loop_eq files opt _ 0 _ (Nat.zero_le _) (by omega)]
  simp

/-- The object `output_json` writes for a record. -/
theorem json_fields_eq (opt : Options) (f : FileInfo) :
    json_fields opt f = "    \x7b".toList ++ json_members_text [] (json_pairs opt f) := by
  unfold json_fields json_pairs
  cases h1 : (opt.show_size && !f.is_dir) <;> cases h2 : opt.show_time <;>
    cases h3 : (opt.show_type && !f.is_dir) <;>
    simp [json_members_text, json_quote, List.append_assoc]

theorem Json_member_of (w k v : Str) (hw : json_ws w = true) (hk : JsonChars k)
    (hv : Json JsonKind.value v) :
    Json JsonKind.member (w ++ '"' :: k ++ '"' :: ':' :: ' ' :: v) := by
  have h := Json.member w k [] ([' '] ++ v ++ []) hw hk rfl
    (Json.element [' '] v [] rfl hv rfl)
  simpa [List.append_assoc] using h

theorem Json_members_text (pairs : List (Str × Str)) :
    ∀ w : Str, json_ws w = true → pairs ≠ [] →
      (∀ p ∈ pairs, JsonChars p.1 ∧ Json JsonKind.value p.2) →
      Json JsonKind.members (json_members_text w pairs) := by
  induction pairs with
  | nil => intro w _ h; exact absurd rfl h
  | cons p rest ih =>
    intro w hw _ hall
    obtain ⟨hk, hv⟩ := hall p (List.mem_cons_self _ _)
    cases rest with
    | nil =>
      exact Json.members_one _ (Json_member_of w p.1 p.2 hw hk hv)
    | cons q rest' =>
      have hrest := ih [' '] rfl (by simp) (fun x hx => hall x (List.mem_cons_of_mem _ hx))
      have := Json.members_more _ _ (Json_member_of w p.1 p.2 hw hk hv) hrest
      simpa [json_members_text, List.append_assoc] using this

theorem json_pairs_valid (opt : Options) (f : FileInfo) (h : json_renderable opt f = true) :
    ∀ p ∈ json_pairs opt f, JsonChars p.1 ∧ Json JsonKind.value p.2 := by
  simp only [json_renderable, Bool.and_eq_true] at h
  obtain ⟨⟨⟨hp, hn⟩, ht⟩, he⟩ := h
  have kpath : JsonChars "path".toList := JsonChars_of_plain _ (by decide)
  have ktype : JsonChars "type".toList := JsonChars_of_plain _ (by decide)
  have kname : JsonChars "name".toList := JsonChars_of_plain _ (by decide)
  have ksize : JsonChars "size".toList := JsonChars_of_plain _ (by decide)
  have kmod : JsonChars "modified".toList := JsonChars_of_plain _ (by decide)
  have kext : JsonChars "ext".toList := JsonChars_of_plain _ (by decide)
  have vdir : Json JsonKind.value "\"dir\"".toList :=
    Json.string "dir".toList (JsonChars_of_plain _ (by decide))
  have vfile : Json JsonKind.value "\"file\"".toList :=
    Json.string "file".toList (JsonChars_of_plain _ (by decide))
  intro p hp'
  unfold json_pairs at hp'
  simp only [List.mem_append, List.mem_cons, List.mem_singleton, List.not_mem_nil,
    or_false] at hp'
  rcases hp' with (((rfl | rfl | rfl) | hp') | hp') | hp'
  · exact ⟨kpath, Json_quote _ (JsonChars_escape _ hp)⟩
  · refine ⟨ktype, ?_⟩
    cases f.is_dir
    · exact vfile
    · exact vdir
  · exact ⟨kname, Json_quote _ (JsonChars_of_plain _ hn)⟩
  · split_ifs at hp'
    · simp only [List.mem_singleton] at hp'
      subst hp'
      exact ⟨ksize, Json.number _ (json_number_to_string _)⟩
    · simp at hp'
  · split_ifs at hp'
    · simp only [List.mem_singleton] at hp'
      subst hp'
      exact ⟨kmod, Json_quote _ (JsonChars_of_plain _ ht)⟩
    · simp at hp'
  · split_ifs at hp'
    · simp only [List.mem_singleton] at hp'
      subst hp'
      exact ⟨kext, Json_quote _ (JsonChars_of_plain _ he)⟩
    · simp at hp'

theorem json_pairs_ne_nil (opt : Options) (f : FileInfo) : json_pairs opt f ≠ [] := by
  simp [json_pairs]

/-- The text of a record between the indentation and the line end is a JSON
object. -/
theorem Json_record (opt : Options) (f : FileInfo) (h : json_renderable opt f = true) :
    Json JsonKind.value ('\x7b' :: json_members_text [] (json_pairs opt f) ++ ['\x7d']) :=
  Json.object _ (Json_members_text _ [] rfl (json_pairs_ne_nil opt f) (json_pairs_valid opt f h))

theorem json_element_eq (opt : Options) (f : FileInfo) (more : Bool) :
    json_element opt f more =
      "    ".toList ++ ('\x7b' :: json_members_text [] (json_pairs opt f) ++ ['\x7d']) ++
        ((if more then [','] else []) ++ ['\n']) := by
  unfold json_element
  rw [json_fields_eq]
  cases more <;> simp [List.append_assoc]

theorem Json_lines (opt : Options) (files : List FileInfo) :
    files ≠ [] → (∀ f ∈ files, json_renderable opt f = true) →
      Json JsonKind.elements ('\n' :: json_lines opt files ++ [' ', ' ']) := by
  induction files with
  | nil => intro h; exact absurd rfl h
  | cons f rest ih =>
    intro _ hall
    have hobj := Json_record opt f (hall f (List.mem_cons_self _ _))
    cases rest with
    | nil =>
      have := Json.elements_one _ (Json.element "\n    ".toList _ "\n  ".toList rfl hobj rfl)
      simpa [json_lines, json_element_eq, List.append_assoc] using this
    | cons g rest' =>
      have hrest := ih (by simp) (fun x hx => hall x (List.mem_cons_of_mem _ hx))
      have := Json.elements_more _ _ (Json.element "\n    ".toList _ [] rfl hobj rfl) hrest
      simpa [json_lines, json_element_eq, List.append_assoc] using this

/-- The `files` array of the document. -/
theorem Json_files_array (opt : Options) (files : List FileInfo)
    (hall : ∀ f ∈ files, json_renderable opt f = true) :
    Json JsonKind.value ('[' :: ('\n' :: json_lines opt files ++ [' ', ' ']) ++ [']']) := by
  cases files with
  | nil => exact Json.empty_array "\n  ".toList rfl
  | cons f rest => exact Json.array _ (Json_lines opt (f :: rest) (by simp) hall)

/-- The document is a JSON text when the root string and the records are. -/
theorem Json_document (files : List FileInfo) (root : Str) (opt : Options)
    (hroot : JsonChars (escape_json_path root))
    (hall : ∀ f ∈ files, json_renderable opt f = true) :
    JsonText (output_json files root opt) := by
  have m1 := Json_member_of "\n  ".toList "root".toList _ rfl
    (JsonChars_of_plain _ (by decide)) (Json_quote _ hroot)
  have m2 := Json.member "\n  ".toList "files".toList [] _ rfl
    (JsonChars_of_plain _ (by decide)) rfl
    (Json.element [' '] _ ['\n'] rfl (Json_files_array opt files hall) rfl)
  have hobj := Json.object _ (Json.members_more _ _ m1 (Json.members_one _ m2))
  have := Json.element [] _ ['\n'] rfl hobj rfl
  unfold JsonText
  rw [output_json_eq]
  simpa [json_header, json_footer, json_quote, List.append_assoc] using this

/-- C13, the claim as stated fails: with the root made of the control character
`0x01` and one record whose name and extension hold no quotation mark and no
backslash, the document of `output_json` carries that character unescaped
inside the `root` string, so it is not a JSON text. -/
theorem C13_control_character_counterexample :
    (∀ f ∈ [make_info {} (sample_entry "a") "a".toList true 1],
      '"' ∉ f.name ∧ '\\' ∉ f.name ∧ '"' ∉ file_ext f ∧ '\\' ∉ file_ext f) ∧
    ¬ JsonText (output_json [make_info {} (sample_entry "a") "a".toList true 1]
      [Char.ofNat 1] {}) := by
  refine ⟨by decide, fun h => ?_⟩
  have hc := json_no_control _ _ h (Char.ofNat 1) (by decide)
  revert hc
  decide

/-- C13, amended: when the root and the printed paths hold no control character
and the name, the modification time and the extension of every record hold no
quotation mark, no backslash and no control character, the document of
`output_json` is a JSON text. -/
theorem C13_output_json_valid (files : List FileInfo) (root : Str) (opt : Options)
    (hroot : no_control root = true)
    (hfiles : ∀ f ∈ files, json_renderable opt f = true) :
    JsonText (output_json files root opt) :=
  Json_document files root opt (JsonChars_escape root hroot) hfiles

/-- C13 on the root `C:\r` with the records of a directory `a` and a file `b`,
all decorations on. -/
theorem C13_output_json_valid_witness :
    no_control "C:\\r".toList = true ∧
    (∀ f ∈ [make_info {} (sample_entry "a") "a".toList true 1,
        make_info {} (sample_entry "b") "b".toList false 1],
      json_renderable { show_size := true, show_time := true, show_type := true } f = true) ∧
    JsonText (output_json
      [make_info {} (sample_entry "a") "a".toList true 1,
        make_info {} (sample_entry "b") "b".toList false 1] "C:\\r".toList
      { show_size := true, show_time := true, show_type := true }) :=
  ⟨by decide, by decide,
    C13_output_json_valid _ _ _ (by decide) (by decide)⟩

end ListFiles
